import Mathlib

/-!
Deferred-execution dependency scheduler (`src/interface/schedule.cxx`).

A shallow embedding of the CTF schedule: recording of tensor operations into a
dependency graph (`Schedule::add_operation_typed`), the wavefront executor
(`Schedule::execute`), the partitioner inside `Schedule::partition_and_execute`,
and the input/output sets of a `TensorOperation`.

Conventions of the embedding

* A `Tensor*` is identified with its `tid`, a natural number.  A
  `std::set<Tensor*, tensor_tid_less>` is a strictly increasing list of tids.
* A `TensorOperation*` is an address into a heap `Schedule.ops`; addresses are
  handed out in allocation order (`Schedule.nops` is the next free address).
* `assert` failures and null dereferences make the embedded function return
  `none`.
* `int64_t` arithmetic is exact integer arithmetic; values stored in C `int`
  variables are reduced into the signed 32-bit range by `wrap32`.
* `std::sort` is a parameter of the embedding (any implementation of the
  library contract); `sortDesc` is one concrete implementation.
-/

namespace CTF

/-! ## Data model -/

/-- The operation kinds of `TensorOperationTypes`. -/
inductive TensorOperationTypes
  | TENSOR_OP_NONE
  | TENSOR_OP_SET
  | TENSOR_OP_SUM
  | TENSOR_OP_SUBTRACT
  | TENSOR_OP_MULTIPLY
  deriving DecidableEq, Repr

open TensorOperationTypes

/-- The right-hand expression tree, seen through the interface the scheduler
consumes: the tensors `get_inputs` inserts, the value of `estimate_cost`, and
the value the expression denotes in a tensor state. -/
structure Term where
  inputs : List Nat
  cost : Int
  eval : (Nat → Int) → Int

/-- An indexed tensor handle; `parent` is the underlying tensor (may be null). -/
structure Idx_Tensor where
  parent : Option Nat
  deriving DecidableEq, Repr

/-- A `TensorOperation` object.  `lhs` and `rhs` are pointers and may be null. -/
structure TensorOperation where
  op : TensorOperationTypes
  lhs : Option Idx_Tensor
  rhs : Option Term
  successors : List Nat
  reads : List Nat
  dependency_count : Int
  dependency_left : Int

/-- The constructor `TensorOperation(op, lhs, rhs)`: no successors, no readers,
`dependency_count(0)`. -/
def TensorOperation.new (op : TensorOperationTypes) (lhs : Option Idx_Tensor)
    (rhs : Option Term) : TensorOperation :=
  { op := op, lhs := lhs, rhs := rhs, successors := [], reads := [],
    dependency_count := 0, dependency_left := 0 }

/-- The test `is_dummy()`: the operation kind is `TENSOR_OP_NONE`. -/
def TensorOperation.is_dummy (o : TensorOperation) : Bool :=
  decide (o.op = TENSOR_OP_NONE)

/-- Insertion into a `std::set` ordered by tid. -/
def setInsert (t : Nat) : List Nat → List Nat
  | [] => [t]
  | x :: xs =>
    if t < x then t :: x :: xs
    else if t = x then x :: xs
    else x :: setInsert t xs

/-- The call `rhs->get_inputs(inputs_set)`: every tensor the expression reads is inserted. -/
def Term.get_inputs (r : Term) (inputs_set : List Nat) : List Nat :=
  r.inputs.foldl (fun acc t => setInsert t acc) inputs_set

/-- `TensorOperation::get_outputs`: asserts `lhs->parent`, inserts it. -/
def TensorOperation.get_outputs (o : TensorOperation) (outputs_set : List Nat) :
    Option (List Nat) :=
  match o.lhs with
  | none => none
  | some l =>
    match l.parent with
    | none => none
    | some t => some (setInsert t outputs_set)

/-- `TensorOperation::get_inputs`: the inputs of `rhs`, plus `lhs->parent` for
the read-modify-write kinds; any other kind hits `assert(false)`. -/
def TensorOperation.get_inputs (o : TensorOperation) (inputs_set : List Nat) :
    Option (List Nat) :=
  match o.rhs with
  | none => none
  | some r =>
    let inputs_set := r.get_inputs inputs_set
    match o.op with
    | TENSOR_OP_SET => some inputs_set
    | TENSOR_OP_SUM | TENSOR_OP_SUBTRACT | TENSOR_OP_MULTIPLY =>
      match o.lhs with
      | none => none
      | some l =>
        match l.parent with
        | none => none
        | some t => some (setInsert t inputs_set)
    | TENSOR_OP_NONE => none

/-- `TensorOperation::estimate_cost`: asserts `rhs` and `lhs` non-null and the
estimate positive.  The memo `cached_estimated_cost` is not kept: the estimate of
an expression is deterministic, so the cached and the recomputed value agree. -/
def TensorOperation.estimate_cost (o : TensorOperation) : Option Int :=
  match o.rhs, o.lhs with
  | some r, some _ => if r.cost > 0 then some r.cost else none
  | _, _ => none

/-- `TensorOperation::execute` on the tensor state: the assignment performed on
`lhs->parent`. -/
def TensorOperation.execute (o : TensorOperation) (σ : Nat → Int) : Option (Nat → Int) :=
  match o.op with
  | TENSOR_OP_NONE => some σ
  | k =>
    match o.lhs, o.rhs with
    | some l, some r =>
      match l.parent with
      | none => none
      | some t =>
        let v := r.eval σ
        some (Function.update σ t
          (match k with
           | TENSOR_OP_SET => v
           | TENSOR_OP_SUM => σ t + v
           | TENSOR_OP_SUBTRACT => σ t - v
           | TENSOR_OP_MULTIPLY => σ t * v
           | TENSOR_OP_NONE => σ t))
    | _, _ => none

/-- The `Schedule` object together with the heap of the operations it owns. -/
structure Schedule where
  ops : Nat → TensorOperation
  nops : Nat
  partitions : Int
  steps_original : List Nat
  root_tasks : List Nat
  ready_tasks : List Nat
  latest_write : Nat → Option Nat

/-- A freshly constructed schedule. -/
def Schedule.empty (partitions : Int) : Schedule :=
  { ops := fun _ => TensorOperation.new TENSOR_OP_NONE none none
    nops := 0
    partitions := partitions
    steps_original := []
    root_tasks := []
    ready_tasks := []
    latest_write := fun _ => none }

/-- In-place modification of the operation at address `p`. -/
def Schedule.modify (s : Schedule) (p : Nat) (f : TensorOperation → TensorOperation) :
    Schedule :=
  { s with ops := Function.update s.ops p (f (s.ops p)) }

/-- Allocation of a new operation object at the next free address. -/
def Schedule.alloc (s : Schedule) (o : TensorOperation) : Schedule :=
  { s with ops := Function.update s.ops s.nops o, nops := s.nops + 1 }

/-! ## Recording: `Schedule::add_operation_typed` -/

/-- Lines 311-313: `dep_op->successors.push_back(op); dep_op->reads.push_back(op);
op->dependency_count++`. -/
def Schedule.push_dep (s : Schedule) (dep_op op : Nat) : Schedule :=
  (s.modify dep_op (fun o =>
      { o with successors := o.successors ++ [op], reads := o.reads ++ [op] })).modify op
    (fun o => { o with dependency_count := o.dependency_count + 1 })

/-- One iteration of the loop over `op_deps` (lines 296-314). -/
def Schedule.wire_dep (op : Nat) (s : Schedule) (dep : Nat) : Schedule :=
  match s.latest_write dep with
  | some dep_op => s.push_dep dep_op op
  | none =>
    let dep_op := s.nops
    let s1 := s.alloc (TensorOperation.new TENSOR_OP_NONE none none)
    let s2 : Schedule :=
      { s1 with
        latest_write := Function.update s1.latest_write dep (some dep_op)
        root_tasks := s1.root_tasks ++ [dep_op]
        steps_original := s1.steps_original ++ [dep_op] }
    s2.push_dep dep_op op

/-- One iteration of the loop over `prev_reads` (lines 321-326). -/
def Schedule.wire_prev (op : Nat) (s : Schedule) (prev : Nat) : Schedule :=
  if prev ≠ op then
    (s.modify prev (fun o => { o with successors := o.successors ++ [op] })).modify op
      (fun o => { o with dependency_count := o.dependency_count + 1 })
  else s

/-- The state after the loop over `op_deps`. -/
def Schedule.wire_deps (op : Nat) (s : Schedule) (op_deps : List Nat) : Schedule :=
  op_deps.foldl (Schedule.wire_dep op) s

/-- Lines 315-327: the write-after-read edges from the readers of the previous
writer of `op_lhs`. -/
def Schedule.wire_prevs (op : Nat) (s : Schedule) (op_lhs : Nat) : Schedule :=
  match s.latest_write op_lhs with
  | some prev => ((s.ops prev).reads).foldl (Schedule.wire_prev op) s
  | none => s

/-- `Schedule::add_operation_typed(op)`, for an operation object `o` that the
caller has just constructed; its address is the next free one. -/
def Schedule.add_operation_typed (s : Schedule) (o : TensorOperation) : Option Schedule :=
  let op := s.nops
  let s0 := s.alloc o
  let s0 : Schedule := { s0 with steps_original := s0.steps_original ++ [op] }
  match o.get_outputs [] with
  | none => none
  | some op_lhs_set =>
    match op_lhs_set with
    | [op_lhs] =>
      match o.get_inputs [] with
      | none => none
      | some op_deps =>
        let s1 := s0.wire_deps op op_deps
        let s2 := s1.wire_prevs op op_lhs
        some { s2 with latest_write := Function.update s2.latest_write op_lhs (some op) }
    | _ => none

/-- The arguments of one recorded assignment: kind, `lhs` and `rhs`. -/
structure Assignment where
  op : TensorOperationTypes
  lhs : Option Idx_Tensor
  rhs : Option Term

/-- `Schedule::add_operation` applied to a newly constructed operation. -/
def Schedule.add_operation (s : Schedule) (a : Assignment) : Option Schedule :=
  s.add_operation_typed (TensorOperation.new a.op a.lhs a.rhs)

/-- Recording a sequence of assignments, in order, into `s`. -/
def Schedule.record_from : Schedule → List Assignment → Option Schedule
  | s, [] => some s
  | s, a :: rest =>
    match s.add_operation a with
    | none => none
    | some s1 => s1.record_from rest

/-- Recording a sequence of assignments into an empty schedule. -/
def record (partitions : Int) (calls : List Assignment) : Option Schedule :=
  (Schedule.empty partitions).record_from calls

/-! ## The partitioner of `Schedule::partition_and_execute` -/

/-- Narrowing of an integer into a C `int` (signed 32-bit, wrapping). -/
def wrap32 (x : Int) : Int := (x + 2 ^ 31) % 2 ^ 32 - 2 ^ 31

/-- Lines 59-62: the bound on the number of concurrent tasks. -/
def max_colors (size : Nat) (R : Nat) (partitions : Int) : Int :=
  let mc : Int := if size ≤ R then (size : Int) else (R : Int)
  if partitions > 0 ∧ mc > partitions then partitions else mc

/-- The inner loop of the window search (lines 80-94), run over the costs of
the tasks `i = starting_task, starting_task + 1, ...`; `k` is `i - starting_task`.
Returns the final `(num_tasks, sum_cost)`. -/
def sweep (size : Nat) (max_colors : Int) :
    List Int → Nat → Int → Int → Nat → Nat × Int
  | [], _, sum_cost, _, num_tasks => (num_tasks, sum_cost)
  | this_cost :: rest, k, sum_cost, min_cost, num_tasks =>
    let min_cost := if min_cost = 0 ∨ this_cost < min_cost then this_cost else min_cost
    if min_cost < (this_cost + sum_cost).tdiv (size : Int) then (num_tasks, sum_cost)
    else
      let num_tasks := k + 1
      let sum_cost := sum_cost + this_cost
      if (num_tasks : Int) ≥ max_colors then (num_tasks, sum_cost)
      else sweep size max_colors rest (k + 1) sum_cost min_cost num_tasks

/-- The variables `max_starting_task`, `max_num_tasks`, `max_cost` (lines 72-74). -/
structure Window where
  max_starting_task : Nat
  max_num_tasks : Nat
  max_cost : Int
  deriving DecidableEq, Repr

/-- One iteration of the outer loop of the window search (lines 76-101). -/
def window_step (size : Nat) (max_colors : Int) (costs : List Int) (w : Window)
    (starting_task : Nat) : Window :=
  let r := sweep size max_colors (costs.drop starting_task) 0 0 0 0
  if r.1 > w.max_num_tasks then
    { max_starting_task := starting_task, max_num_tasks := r.1, max_cost := wrap32 r.2 }
  else w

/-- The window search (lines 72-101) over the costs of the sorted ready queue. -/
def find_window (size : Nat) (max_colors : Int) (costs : List Int) : Window :=
  (List.range costs.length).foldl (window_step size max_colors costs)
    { max_starting_task := 0, max_num_tasks := 0, max_cost := 0 }

/-- The loop of lines 108-115 over the costs of the chosen window: the current
index `i`, the remaining `color_sample_point` and the current `my_color`. -/
def color_loop : List Int → Nat → Int → Nat → Nat
  | [], _, _, my_color => my_color
  | c :: rest, i, color_sample_point, _ =>
    if color_sample_point < c then i
    else color_loop rest (i + 1) (wrap32 (color_sample_point - c)) i

/-- Lines 106-115: the colour of process `rank`. -/
def my_color (size rank : Nat) (max_cost : Int) (window_costs : List Int) : Nat :=
  let color_sample_point : Int :=
    wrap32 ((max_cost.tdiv (size : Int)) * (rank : Int) + (max_cost.tdiv (size : Int)).tdiv 2)
  color_loop window_costs 0 color_sample_point 0

/-- Lines 141-143: `num` erasures at the constant index `start`. -/
def erase_loop {α : Type} (start : Nat) : Nat → List α → List α
  | 0, l => l
  | num + 1, l => erase_loop start num (l.eraseIdx start)

/-! ## Releasing successors and the executor -/

/-- The body of the loop of `schedule_op_successors` (lines 18-22). -/
def Schedule.release_step (s : Schedule) (q : Nat) : Option Schedule :=
  let left := (s.ops q).dependency_left - 1
  if left < 0 then none
  else
    let s1 := s.modify q (fun o => { o with dependency_left := left })
    some (if left = 0 then { s1 with ready_tasks := s1.ready_tasks ++ [q] } else s1)

/-- The loop of `schedule_op_successors` over a list of successors. -/
def Schedule.release_list : Schedule → List Nat → Option Schedule
  | s, [] => some s
  | s, q :: rest =>
    match s.release_step q with
    | none => none
    | some s1 => s1.release_list rest

/-- `Schedule::schedule_op_successors(op)`. -/
def Schedule.schedule_op_successors (s : Schedule) (op : Nat) : Option Schedule :=
  if (s.ops op).dependency_left = 0 then s.release_list (s.ops op).successors
  else none

/-- Lines 223-228: `schedule_op_successors` for every packaged operation. -/
def Schedule.release_ops : Schedule → List Nat → Option Schedule
  | s, [] => some s
  | s, op :: rest =>
    match s.schedule_op_successors op with
    | none => none
    | some s1 => s1.release_ops rest

/-- The estimated costs of a list of operations; `none` when an assertion of
`estimate_cost` fails for one of them. -/
def Schedule.costs (s : Schedule) : List Nat → Option (List (Nat × Int))
  | [] => some []
  | p :: rest =>
    match (s.ops p).estimate_cost, s.costs rest with
    | some c, some cs => some ((p, c) :: cs)
    | _, _ => none

/-- What one call of `partition_and_execute` decides: the sorted ready queue, the
window, and the operations packaged into `comm_ops` (one per colour). -/
structure Wave where
  sorted : List (Nat × Int)
  max_colors : Int
  window : Window
  comm_ops : List Nat

/-- `Schedule::partition_and_execute` on a communicator of `size` processes:
sort, choose the window, package the operations, erase them from the ready
queue, and (after they ran) release their successors. -/
def Schedule.partition_and_execute (srt : List (Nat × Int) → List (Nat × Int))
    (size : Nat) (s : Schedule) : Option (Schedule × Wave) :=
  match s.costs s.ready_tasks with
  | none => none
  | some tasks =>
    let mc := max_colors size s.ready_tasks.length s.partitions
    let sorted := srt tasks
    let ready := sorted.map Prod.fst
    let w := find_window size mc (sorted.map Prod.snd)
    let comm_ops := (ready.drop w.max_starting_task).take w.max_num_tasks
    let s1 : Schedule :=
      { s with ready_tasks := erase_loop w.max_starting_task w.max_num_tasks ready }
    match s1.release_ops comm_ops with
    | none => none
    | some s2 => some (s2, { sorted := sorted, max_colors := mc, window := w, comm_ops := comm_ops })

/-- How a run of `execute` ended: the ready queue became empty, an assertion
failed, or the bound on the number of loop iterations was reached. -/
inductive Status
  | finished
  | aborted
  | out_of_fuel
  deriving DecidableEq, Repr

/-- The dummy pre-drain (lines 262-269), at most `fuel` iterations.  Returns the
state, the dummies popped, and whether the loop ended. -/
def Schedule.predrain : Nat → Schedule → Schedule × List Nat × Status
  | 0, s => (s, [], Status.out_of_fuel)
  | fuel + 1, s =>
    match s.ready_tasks with
    | [] => (s, [], Status.finished)
    | front :: _ =>
      if (s.ops front).is_dummy then
        match s.schedule_op_successors front with
        | none => (s, [], Status.aborted)
        | some s1 =>
          let r := Schedule.predrain fuel { s1 with ready_tasks := s1.ready_tasks.tail }
          (r.1, front :: r.2.1, r.2.2)
      else (s, [], Status.finished)

/-- The main loop (lines 271-279), at most `fuel` waves. -/
def Schedule.main_loop (srt : List (Nat × Int) → List (Nat × Int)) (size : Nat) :
    Nat → Schedule → Schedule × List Wave × Status
  | 0, s => (s, [], if s.ready_tasks = [] then Status.finished else Status.out_of_fuel)
  | fuel + 1, s =>
    if s.ready_tasks = [] then (s, [], Status.finished)
    else
      match s.partition_and_execute srt size with
      | none => (s, [], Status.aborted)
      | some (s1, wave) =>
        let r := Schedule.main_loop srt size fuel s1
        (r.1, wave :: r.2.1, r.2.2)

/-- Lines 256-259: every `dependency_left` is reset to `dependency_count` and the
ready queue is seeded with `root_tasks`. -/
def Schedule.reset (s : Schedule) : Schedule :=
  { (s.steps_original.foldl
      (fun s p => s.modify p (fun o => { o with dependency_left := o.dependency_count })) s) with
    ready_tasks := s.root_tasks }

/-- The record of one run of `execute`. -/
structure Run where
  final : Schedule
  predrained : List Nat
  waves : List Wave
  status : Status

/-- `Schedule::execute` on a communicator of `size` processes; each of its two
loops runs at most `fuel` iterations. -/
def Schedule.execute (srt : List (Nat × Int) → List (Nat × Int)) (size : Nat)
    (fuel : Nat) (s : Schedule) : Run :=
  let p := (s.reset).predrain fuel
  match p.2.2 with
  | Status.finished =>
    let m := p.1.main_loop srt size fuel
    { final := m.1, predrained := p.2.1, waves := m.2.1, status := m.2.2 }
  | st => { final := p.1, predrained := p.2.1, waves := [], status := st }

/-- One implementation of `std::sort` with the comparator
`tensor_op_cost_greater`: insertion sort by descending cost. -/
def sortDesc (l : List (Nat × Int)) : List (Nat × Int) :=
  l.insertionSort (fun a b => a.2 ≥ b.2)

/-! ## Auxiliary notions used in the statements -/

/-- The number of edges into `q`: the occurrences of `q` in the successor lists
of all allocated operations, counted with multiplicity. -/
def Schedule.in_degree (s : Schedule) (q : Nat) : Int :=
  ∑ p ∈ Finset.range s.nops, (((s.ops p).successors.count q : Nat) : Int)

/-- The predecessor set of `q`: the distinct operations that have `q` among their
successors. -/
def Schedule.predecessors (s : Schedule) (q : Nat) : List Nat :=
  (List.range s.nops).filter (fun p => decide (q ∈ (s.ops p).successors))

/-- The edge relation of the dependency graph. -/
def Schedule.edge (s : Schedule) (p q : Nat) : Prop := q ∈ (s.ops p).successors

/-- Appending `op` to the readers of `dep_op` (line 312 alone). -/
def Schedule.push_read (s : Schedule) (dep_op op : Nat) : Schedule :=
  s.modify dep_op (fun o => { o with reads := o.reads ++ [op] })

/-- Appending `op` to the successors of `a` and counting the new dependency
(lines 311 and 313, or lines 323-324). -/
def Schedule.add_edge (s : Schedule) (a op : Nat) : Schedule :=
  (s.modify a (fun o => { o with successors := o.successors ++ [op] })).modify op
    (fun o => { o with dependency_count := o.dependency_count + 1 })

/-- Lines 305-308: a dummy root is allocated and registered as the writer of `dep`. -/
def Schedule.new_dummy (s : Schedule) (dep : Nat) : Schedule :=
  let s1 := s.alloc (TensorOperation.new TENSOR_OP_NONE none none)
  { s1 with
    latest_write := Function.update s1.latest_write dep (some s.nops)
    root_tasks := s1.root_tasks ++ [s.nops]
    steps_original := s1.steps_original ++ [s.nops] }

/-- Well-formedness of a recorded dependency graph. -/
structure Schedule.WF (s : Schedule) : Prop where
  succ_lt : ∀ p q, q ∈ (s.ops p).successors → p < s.nops ∧ q < s.nops
  succ_kind : ∀ p q, q ∈ (s.ops p).successors → (s.ops q).op ≠ TENSOR_OP_NONE
  succ_order : ∀ p q, q ∈ (s.ops p).successors →
    p < q ∨ ((s.ops p).op = TENSOR_OP_NONE ∧
      ∀ x, q < x → x ≤ p → (s.ops x).op = TENSOR_OP_NONE)
  reads_lt : ∀ p q, q ∈ (s.ops p).reads → p < s.nops ∧ q < s.nops
  lw_lt : ∀ t w, s.latest_write t = some w → w < s.nops
  root_iff : ∀ d, d ∈ s.root_tasks ↔ (d < s.nops ∧ (s.ops d).op = TENSOR_OP_NONE)
  root_nodup : s.root_tasks.Nodup
  count_eq : ∀ q, q < s.nops → (s.ops q).dependency_count = s.in_degree q
  steps : s.steps_original = List.range s.nops

/-- The invariant of the two loops of `add_operation_typed` while `op` is wired. -/
structure Schedule.Mid (s : Schedule) (op : Nat) : Prop where
  wf : s.WF
  op_lt : op < s.nops
  op_kind : (s.ops op).op ≠ TENSOR_OP_NONE
  lw_ne : ∀ t w, s.latest_write t = some w → w ≠ op
  reads_le : ∀ p q, q ∈ (s.ops p).reads → q ≤ op
  later_dummy : ∀ x, op < x → x < s.nops → (s.ops x).op = TENSOR_OP_NONE

/-- The rank of an operation in the dependency graph: dummies come first, the
recorded operations follow in record order. -/
def Schedule.rank (s : Schedule) (p : Nat) : Nat :=
  if (s.ops p).op = TENSOR_OP_NONE then 0 else p + 1

/-- An assignment `kind`, `lhs.parent = l`, whose right-hand side reads the
tensors `ins`, has estimated cost `c` and evaluates to the sum of its inputs. -/
def assign (kind : TensorOperationTypes) (l : Nat) (ins : List Nat) (c : Int) : Assignment :=
  { op := kind
    lhs := some { parent := some l }
    rhs := some { inputs := ins, cost := c, eval := fun σ => (ins.map σ).sum } }

/-- The record `B = A; A = B` over the tensors `A = 0` and `B = 1`. -/
def swap_calls : List Assignment :=
  [assign TENSOR_OP_SET 1 [0] 1, assign TENSOR_OP_SET 0 [1] 1]

/-- The number of edges into `q` from operations that are not yet in `done`. -/
def Schedule.pending_in (g : Schedule) (done : List Nat) (q : Nat) : Int :=
  ∑ p ∈ (Finset.range g.nops).filter (fun p => p ∉ done),
    (((g.ops p).successors.count q : Nat) : Int)

/-- The invariant of a run of `execute` on the recorded graph `g`: `done` are the
operations whose successors were released, `pending` the operations packaged
for the current wave and not yet released, `rest` the successors that the
current call of `schedule_op_successors` still has to visit. -/
structure Schedule.Exec (g s : Schedule) (done pending rest : List Nat) : Prop where
  nops_eq : s.nops = g.nops
  partitions_eq : s.partitions = g.partitions
  succ_eq : ∀ p, (s.ops p).successors = (g.ops p).successors
  kind_eq : ∀ p, (s.ops p).op = (g.ops p).op
  nodup : (done ++ pending ++ s.ready_tasks).Nodup
  zero : ∀ q, q ∈ done ++ pending ++ s.ready_tasks →
    (s.ops q).dependency_left = 0 ∧ q < g.nops
  left_eq : ∀ q, q < g.nops →
    (s.ops q).dependency_left = g.pending_in done q + ((rest.count q : Nat) : Int)

/-- The state `s` with `x` put back at the front of the ready queue. -/
def Schedule.push_front (s : Schedule) (x : Nat) : Schedule :=
  { s with ready_tasks := x :: s.ready_tasks }

/-- The record `A = B; A = C` over the tensors `A = 0`, `B = 1`, `C = 2`, the
second assignment being estimated as the more expensive one. -/
def overwrite_calls : List Assignment :=
  [assign TENSOR_OP_SET 0 [1] 1, assign TENSOR_OP_SET 0 [2] 2]

/-- The record `A = B; C += A` over the tensors `A = 0`, `B = 1`, `C = 2`. -/
def chain_calls : List Assignment :=
  [assign TENSOR_OP_SET 0 [1] 100, assign TENSOR_OP_SUM 2 [0] 100]

/-- One wave on the tensor state: every packaged operation runs on clones of
the tensors as they are when the wave starts, and its output is written back
in colour order (every colour is taken to own a process, as it does on a
communicator of size 1). -/
def Schedule.apply_wave (s : Schedule) (σ : Nat → Int) :
    List Nat → (Nat → Int) → Option (Nat → Int)
  | [], acc => some acc
  | p :: rest, acc =>
    match (s.ops p).execute σ, (s.ops p).get_outputs [] with
    | some σp, some [t] => s.apply_wave σ rest (Function.update acc t (σp t))
    | _, _ => none

/-- The tensor state after the waves of a run of `execute`. -/
def Schedule.run_waves (s : Schedule) : List Wave → (Nat → Int) → Option (Nat → Int)
  | [], σ => some σ
  | wave :: rest, σ =>
    match s.apply_wave σ wave.comm_ops σ with
    | none => none
    | some σ1 => s.run_waves rest σ1

/-- The tensor state after executing the given operations one after another. -/
def Schedule.run_in_order (s : Schedule) : List Nat → (Nat → Int) → Option (Nat → Int)
  | [], σ => some σ
  | p :: rest, σ =>
    match (s.ops p).execute σ with
    | none => none
    | some σ1 => s.run_in_order rest σ1

/-- Executing the recorded operations directly, in record order. -/
def Schedule.run_serial (s : Schedule) (σ : Nat → Int) : Option (Nat → Int) :=
  s.run_in_order s.steps_original σ

/-- The record `A = 7; C = B` over the tensors `A = 0`, `B = 1`, `C = 2`: the
right-hand side of the first assignment reads no tensor. -/
def constant_calls : List Assignment :=
  [{ op := TENSOR_OP_SET, lhs := some { parent := some 0 },
     rhs := some { inputs := [], cost := 1, eval := fun _ => 7 } },
   assign TENSOR_OP_SET 2 [1] 1]

/-- The colour of a process as the specification words it: the least index `j`
with `strip_mid - (c_0 + ... + c_(j-1)) < c_j`, where
`strip_mid = (S/P) * rank + S/(2P)` and `S` is the total cost of the window;
`n - 1` if there is no such index. -/
def spec_color (size rank : Nat) (costs : List Int) : Nat :=
  let S := costs.sum
  let strip_mid := (S.tdiv (size : Int)) * (rank : Int) + S.tdiv (2 * (size : Int))
  match (List.range costs.length).find?
      (fun j => decide (strip_mid - (costs.take j).sum < costs.getD j 0)) with
  | some j => j
  | none => costs.length - 1

/-- The schedule recorded from `chain_calls`. -/
def chain_schedule : Schedule :=
  (record 0 chain_calls).getD (Schedule.empty 0)

/-- The second wave of `chain_schedule` on four processes. -/
def chain_wave : Wave :=
  (chain_schedule.execute sortDesc 4 10).waves.getD 1
    { sorted := [], max_colors := 0,
      window := { max_starting_task := 0, max_num_tasks := 0, max_cost := 0 },
      comm_ops := [] }

/-- The schedule after recording `B = A` (tensors `A = 0`, `B = 1`). -/
def swap_first : Schedule :=
  (record 0 [assign TENSOR_OP_SET 1 [0] 1]).getD (Schedule.empty 0)

/-- The schedule after recording `A = B` into `swap_first`. -/
def swap_second : Schedule :=
  (swap_first.add_operation (assign TENSOR_OP_SET 0 [1] 1)).getD (Schedule.empty 0)

/-- The expression of line 106: the point a process samples, held in an `int`. -/
def color_sample_point (size rank : Nat) (max_cost : Int) : Int :=
  wrap32 ((max_cost.tdiv (size : Int)) * (rank : Int) + (max_cost.tdiv (size : Int)).tdiv 2)

/-- The sample point as the specification words it, computed exactly:
`(sum_cost/P) * rank + sum_cost/(2P)`. -/
def spec_sample_point (size rank : Nat) (sum_cost : Int) : Int :=
  (sum_cost.tdiv (size : Int)) * (rank : Int) + sum_cost.tdiv (2 * (size : Int))

/-- The costs of the window `w` of a queue with costs `costs`. -/
def window_costs (costs : List Int) (w : Window) : List Int :=
  (costs.drop w.max_starting_task).take w.max_num_tasks

/-- The record `A = B; C = D; E = F; G = E` over seven distinct tensors, with
estimated costs 2, 2, 1 and 1. -/
def uncovered_calls : List Assignment :=
  [assign TENSOR_OP_SET 0 [1] 2, assign TENSOR_OP_SET 2 [3] 2,
   assign TENSOR_OP_SET 4 [5] 1, assign TENSOR_OP_SET 6 [4] 1]

/-- The record `C = A; D = A; A = B` over the tensors `A`, `B`, `C`, `D`, with
estimated costs `c1`, `c2`, `c3`. -/
def war_calls (A B C D : Nat) (c1 c2 c3 : Int) : List Assignment :=
  [assign TENSOR_OP_SET C [A] c1, assign TENSOR_OP_SET D [A] c2, assign TENSOR_OP_SET A [B] c3]

/-- What a release leaves unchanged: the cost estimates, the kinds and the
`partitions` value; the ready queue only grows, at its end, by operations of `l`. -/
structure Schedule.Frame (s s1 : Schedule) (l : List Nat) : Prop where
  cost_eq : ∀ p, (s1.ops p).estimate_cost = (s.ops p).estimate_cost
  pushed : ∃ pushed, s1.ready_tasks = s.ready_tasks ++ pushed ∧ ∀ x, x ∈ pushed → x ∈ l

/-- The schedule recorded from `swap_calls`. -/
def swap_schedule : Schedule :=
  (record 0 swap_calls).getD (Schedule.empty 0)

/-- The window choice applied to the state: the erasures and the release of
the packaged operations, for a given sorted queue and window. -/
def Schedule.advance (s : Schedule) (ready : List Nat) (w : Window) : Option Schedule :=
  Schedule.release_ops
    { s with ready_tasks := erase_loop w.max_starting_task w.max_num_tasks ready }
    ((ready.drop w.max_starting_task).take w.max_num_tasks)

/-- The operands an operation object was constructed with: the kind, `lhs` and
`rhs`. -/
def TensorOperation.operands (o : TensorOperation) :
    TensorOperationTypes × Option Idx_Tensor × Option Term :=
  (o.op, o.lhs, o.rhs)

/-- Every operation other than a dummy carries operands on which `get_outputs`
and `get_inputs` succeed, as `add_operation_typed` required when it was
recorded. -/
def Schedule.Operands (s : Schedule) : Prop :=
  ∀ p, (s.ops p).op ≠ TENSOR_OP_NONE →
    ((s.ops p).get_outputs []).isSome = true ∧ ((s.ops p).get_inputs []).isSome = true

/-! ## Input and output sets -/

theorem mem_setInsert (t x : Nat) (l : List Nat) : x ∈ setInsert t l ↔ x = t ∨ x ∈ l := by
  induction l with
  | nil => simp [setInsert]
  | cons y ys ih =>
    unfold setInsert
    by_cases h1 : t < y
    · simp [h1]
    · by_cases h2 : t = y
      · subst h2
        simp
      · simp only [h1, h2, if_false, List.mem_cons, ih]
        tauto

theorem setInsert_sorted (t : Nat) (l : List Nat) (h : l.Sorted (· < ·)) :
    (setInsert t l).Sorted (· < ·) := by
  induction l with
  | nil => simp [setInsert]
  | cons y ys ih =>
    have hy := List.sorted_cons.mp h
    unfold setInsert
    by_cases h1 : t < y
    · simp only [h1, if_true]
      refine List.sorted_cons.mpr ⟨?_, h⟩
      intro b hb
      rcases List.mem_cons.mp hb with rfl | hb
      · exact h1
      · exact lt_trans h1 (hy.1 b hb)
    · by_cases h2 : t = y
      · simp [h1, h2, h]
      · simp only [h1, h2, if_false]
        refine List.sorted_cons.mpr ⟨?_, ih hy.2⟩
        intro b hb
        rcases (mem_setInsert t b ys).mp hb with rfl | hb
        · omega
        · exact hy.1 b hb

theorem mem_term_get_inputs (r : Term) (x : Nat) (set : List Nat) :
    x ∈ r.get_inputs set ↔ x ∈ r.inputs ∨ x ∈ set := by
  unfold Term.get_inputs
  induction r.inputs generalizing set with
  | nil => simp
  | cons y ys ih =>
    simp only [List.foldl_cons, ih, mem_setInsert, List.mem_cons]
    tauto

theorem term_get_inputs_sorted (r : Term) (set : List Nat) (h : set.Sorted (· < ·)) :
    (r.get_inputs set).Sorted (· < ·) := by
  unfold Term.get_inputs
  induction r.inputs generalizing set with
  | nil => simpa using h
  | cons y ys ih =>
    simp only [List.foldl_cons]
    exact ih _ (setInsert_sorted y set h)

/-- C10, counterexample: for the `SET` operation `A = f(A)` (tensor 0 on both
sides) `get_inputs` yields the tensor `lhs.parent`, which is therefore an input
as well as the output. -/
theorem set_lhs_parent_can_be_input :
    (TensorOperation.new TENSOR_OP_SET (some ⟨some 0⟩)
        (some { inputs := [0], cost := 1, eval := fun σ => σ 0 })).get_inputs [] = some [0] ∧
    (TensorOperation.new TENSOR_OP_SET (some ⟨some 0⟩)
        (some { inputs := [0], cost := 1, eval := fun σ => σ 0 })).get_outputs [] = some [0] := by
  constructor <;> rfl

/-- C10, amended: for an operation with non-null `lhs.parent = t` (and an `rhs`),
`get_outputs` yields exactly the one tensor `t`; for `SUM`, `SUBTRACT` and
`MULTIPLY`, `get_inputs` yields the inputs of `rhs` together with `t`; for `SET`
it yields exactly the inputs of `rhs`, so `t` is an input of a `SET` operation
only when the right-hand side itself reads it. -/
theorem get_outputs_get_inputs_spec (o : TensorOperation) (l : Idx_Tensor) (t : Nat)
    (r : Term) (hl : o.lhs = some l) (ht : l.parent = some t) (hr : o.rhs = some r) :
    o.get_outputs [] = some [t] ∧
    ((o.op = TENSOR_OP_SUM ∨ o.op = TENSOR_OP_SUBTRACT ∨ o.op = TENSOR_OP_MULTIPLY) →
      ∃ ins, o.get_inputs [] = some ins ∧ ins.Sorted (· < ·) ∧
        (∀ x, x ∈ ins ↔ (x ∈ r.inputs ∨ x = t)) ∧ t ∈ ins) ∧
    (o.op = TENSOR_OP_SET →
      ∃ ins, o.get_inputs [] = some ins ∧ ins.Sorted (· < ·) ∧
        (∀ x, x ∈ ins ↔ x ∈ r.inputs) ∧ (t ∈ ins ↔ t ∈ r.inputs)) := by
  refine ⟨?_, ?_, ?_⟩
  · simp [TensorOperation.get_outputs, hl, ht, setInsert]
  · intro hk
    have hs : (setInsert t (r.get_inputs [])).Sorted (· < ·) :=
      setInsert_sorted t _ (term_get_inputs_sorted r [] (by simp))
    have hm : ∀ x, x ∈ setInsert t (r.get_inputs []) ↔ (x ∈ r.inputs ∨ x = t) := by
      intro x
      rw [mem_setInsert, mem_term_get_inputs]
      simp only [List.not_mem_nil, or_false]
      tauto
    refine ⟨setInsert t (r.get_inputs []), ?_, hs, hm, (hm t).mpr (Or.inr rfl)⟩
    rcases hk with hk | hk | hk <;> simp [TensorOperation.get_inputs, hl, ht, hr, hk]
  · intro hk
    have hm : ∀ x, x ∈ r.get_inputs [] ↔ x ∈ r.inputs := by
      intro x
      rw [mem_term_get_inputs]
      simp
    exact ⟨r.get_inputs [], by simp [TensorOperation.get_inputs, hr, hk],
      term_get_inputs_sorted r [] (by simp), hm, hm t⟩

/-- C10, witness: the operation `A += B` (tensors 0 and 1). -/
theorem get_outputs_get_inputs_spec_witness :
    (TensorOperation.new TENSOR_OP_SUM (some ⟨some 0⟩)
        (some { inputs := [1], cost := 1, eval := fun σ => σ 1 })).get_outputs [] = some [0] ∧
    ((TENSOR_OP_SUM = TENSOR_OP_SUM ∨ TENSOR_OP_SUM = TENSOR_OP_SUBTRACT ∨
        TENSOR_OP_SUM = TENSOR_OP_MULTIPLY) →
      ∃ ins, (TensorOperation.new TENSOR_OP_SUM (some ⟨some 0⟩)
          (some { inputs := [1], cost := 1, eval := fun σ => σ 1 })).get_inputs [] = some ins ∧
        ins.Sorted (· < ·) ∧ (∀ x, x ∈ ins ↔ (x ∈ [1] ∨ x = 0)) ∧ 0 ∈ ins) ∧
    (TENSOR_OP_SUM = TENSOR_OP_SET →
      ∃ ins, (TensorOperation.new TENSOR_OP_SUM (some ⟨some 0⟩)
          (some { inputs := [1], cost := 1, eval := fun σ => σ 1 })).get_inputs [] = some ins ∧
        ins.Sorted (· < ·) ∧ (∀ x, x ∈ ins ↔ x ∈ [1]) ∧ (0 ∈ ins ↔ 0 ∈ [1])) :=
  get_outputs_get_inputs_spec
    (TensorOperation.new TENSOR_OP_SUM (some ⟨some 0⟩)
      (some { inputs := [1], cost := 1, eval := fun σ => σ 1 }))
    ⟨some 0⟩ 0 { inputs := [1], cost := 1, eval := fun σ => σ 1 } rfl rfl rfl



/-! ## The window search -/

theorem max_colors_eq (size R : Nat) (partitions : Int) :
    max_colors size R partitions =
      min (size : Int) (min (R : Int) (if partitions > 0 then partitions else (size : Int))) := by
  unfold max_colors
  by_cases h1 : size ≤ R <;> by_cases h2 : partitions > 0 <;>
    simp only [h1, h2, if_true, if_false, true_and, false_and] <;>
    omega

theorem max_colors_pos (size R : Nat) (partitions : Int) (hP : 1 ≤ size) (hR : 1 ≤ R) :
    1 ≤ max_colors size R partitions := by
  rw [max_colors_eq]
  split_ifs <;> omega

theorem sweep_le_colors (size : Nat) (mc : Int) (l : List Int) (k : Nat) (sum mn : Int)
    (nt : Nat) (hk : (k : Int) < mc) (hnt : (nt : Int) ≤ mc) :
    ((sweep size mc l k sum mn nt).1 : Int) ≤ mc := by
  induction l generalizing k sum mn nt with
  | nil => simpa [sweep] using hnt
  | cons c cs ih =>
    simp only [sweep]
    generalize (if mn = 0 ∨ c < mn then c else mn) = mn1
    by_cases h1 : mn1 < (c + sum).tdiv (size : Int)
    · simpa [h1] using hnt
    · by_cases h2 : ((k + 1 : Nat) : Int) ≥ mc
      · simp only [h1, h2, if_true, if_false]
        push_cast
        omega
      · simp only [h1, h2, if_false]
        apply ih
        · push_cast at h2 ⊢
          omega
        · push_cast at h2 ⊢
          omega

theorem sweep_le_length (size : Nat) (mc : Int) (l : List Int) (k : Nat) (sum mn : Int)
    (nt : Nat) (hnt : nt ≤ k) :
    (sweep size mc l k sum mn nt).1 ≤ k + l.length := by
  induction l generalizing k sum mn nt with
  | nil => simpa [sweep] using hnt
  | cons c cs ih =>
    simp only [sweep, List.length_cons]
    generalize (if mn = 0 ∨ c < mn then c else mn) = mn1
    by_cases h1 : mn1 < (c + sum).tdiv (size : Int)
    · simp only [h1, if_true]
      omega
    · by_cases h2 : ((k + 1 : Nat) : Int) ≥ mc
      · simp only [h1, h2, if_true, if_false]
        omega
      · simp only [h1, h2, if_false]
        have := ih (k + 1) (sum + c) mn1 (k + 1) (le_refl _)
        omega

theorem window_step_bounds (size : Nat) (mc : Int) (costs : List Int) (w : Window)
    (st : Nat) (hmc : 1 ≤ mc) (hst : st ≤ costs.length)
    (hw : (w.max_num_tasks : Int) ≤ mc ∧ w.max_starting_task + w.max_num_tasks ≤ costs.length) :
    ((window_step size mc costs w st).max_num_tasks : Int) ≤ mc ∧
      (window_step size mc costs w st).max_starting_task +
        (window_step size mc costs w st).max_num_tasks ≤ costs.length := by
  simp only [window_step]
  split_ifs with h
  · refine ⟨sweep_le_colors size mc _ 0 0 0 0 (by simpa using hmc) (by simpa using (by omega : (0 : Int) ≤ mc)), ?_⟩
    have := sweep_le_length size mc (costs.drop st) 0 0 0 0 (le_refl _)
    simp only [List.length_drop] at this
    simp only
    omega
  · exact hw

theorem find_window_bounds (size : Nat) (mc : Int) (costs : List Int) (hmc : 1 ≤ mc) :
    ((find_window size mc costs).max_num_tasks : Int) ≤ mc ∧
      (find_window size mc costs).max_starting_task +
        (find_window size mc costs).max_num_tasks ≤ costs.length := by
  unfold find_window
  have key : ∀ (l : List Nat) (w : Window), (∀ x ∈ l, x ≤ costs.length) →
      ((w.max_num_tasks : Int) ≤ mc ∧ w.max_starting_task + w.max_num_tasks ≤ costs.length) →
      (((l.foldl (window_step size mc costs) w).max_num_tasks : Int) ≤ mc ∧
        (l.foldl (window_step size mc costs) w).max_starting_task +
          (l.foldl (window_step size mc costs) w).max_num_tasks ≤ costs.length) := by
    intro l
    induction l with
    | nil => intro w _ hw; simpa using hw
    | cons x xs ih =>
      intro w hl hw
      simp only [List.foldl_cons]
      apply ih
      · intro y hy
        exact hl y (List.mem_cons_of_mem _ hy)
      · exact window_step_bounds size mc costs w x hmc (hl x (List.mem_cons_self _ _)) hw
  apply key
  · intro x hx
    exact le_of_lt (List.mem_range.mp hx)
  · simp
    omega

/-- C7: for a non-empty ready queue with costs `costs` (so `R = costs.length`),
`P = size ≥ 1` and any `partitions`, the bound computed by the code is
`max_colors = min(P, R, cap)` with `cap = partitions` if `partitions > 0` and `P`
otherwise, the number of chosen tasks never exceeds it, and the chosen window
lies inside the queue. -/
theorem window_within_max_colors (size : Nat) (partitions : Int) (costs : List Int)
    (hP : 1 ≤ size) (hR : costs ≠ []) :
    max_colors size costs.length partitions =
        min (size : Int)
          (min (costs.length : Int) (if partitions > 0 then partitions else (size : Int))) ∧
      ((find_window size (max_colors size costs.length partitions) costs).max_num_tasks : Int) ≤
        max_colors size costs.length partitions ∧
      (find_window size (max_colors size costs.length partitions) costs).max_starting_task +
        (find_window size (max_colors size costs.length partitions) costs).max_num_tasks ≤
          costs.length := by
  have hlen : 1 ≤ costs.length := by
    cases costs with
    | nil => exact absurd rfl hR
    | cons c cs => simp
  exact ⟨max_colors_eq _ _ _,
    find_window_bounds size _ costs (max_colors_pos size costs.length partitions hP hlen)⟩

/-- C7, witness: costs {100, 100, 1} on four processes with `partitions = 0`. -/
theorem window_within_max_colors_witness :
    (1 ≤ 4 ∧ ([100, 100, 1] : List Int) ≠ []) ∧
    (max_colors 4 ([100, 100, 1] : List Int).length 0 =
        min ((4 : Nat) : Int)
          (min (([100, 100, 1] : List Int).length : Int)
            (if (0 : Int) > 0 then (0 : Int) else ((4 : Nat) : Int))) ∧
      ((find_window 4 (max_colors 4 ([100, 100, 1] : List Int).length 0)
          [100, 100, 1]).max_num_tasks : Int) ≤
        max_colors 4 ([100, 100, 1] : List Int).length 0 ∧
      (find_window 4 (max_colors 4 ([100, 100, 1] : List Int).length 0)
          [100, 100, 1]).max_starting_task +
        (find_window 4 (max_colors 4 ([100, 100, 1] : List Int).length 0)
          [100, 100, 1]).max_num_tasks ≤ ([100, 100, 1] : List Int).length) :=
  ⟨⟨by decide, by decide⟩, window_within_max_colors 4 0 [100, 100, 1] (by decide) (by decide)⟩

/-! ## Field projections of the primitive state updates -/

@[simp] theorem modify_ops (s : Schedule) (p q : Nat) (f : TensorOperation → TensorOperation) :
    (s.modify p f).ops q = if q = p then f (s.ops p) else s.ops q := by
  by_cases h : q = p
  · subst h; simp [Schedule.modify]
  · simp [Schedule.modify, Function.update_noteq h, h]

@[simp] theorem modify_nops (s : Schedule) (p : Nat) (f : TensorOperation → TensorOperation) :
    (s.modify p f).nops = s.nops := rfl

@[simp] theorem modify_latest_write (s : Schedule) (p : Nat)
    (f : TensorOperation → TensorOperation) :
    (s.modify p f).latest_write = s.latest_write := rfl

@[simp] theorem modify_root_tasks (s : Schedule) (p : Nat)
    (f : TensorOperation → TensorOperation) :
    (s.modify p f).root_tasks = s.root_tasks := rfl

@[simp] theorem modify_steps_original (s : Schedule) (p : Nat)
    (f : TensorOperation → TensorOperation) :
    (s.modify p f).steps_original = s.steps_original := rfl

@[simp] theorem modify_ready_tasks (s : Schedule) (p : Nat)
    (f : TensorOperation → TensorOperation) :
    (s.modify p f).ready_tasks = s.ready_tasks := rfl

@[simp] theorem modify_partitions (s : Schedule) (p : Nat)
    (f : TensorOperation → TensorOperation) :
    (s.modify p f).partitions = s.partitions := rfl

@[simp] theorem add_edge_successors (s : Schedule) (a op q : Nat) :
    ((s.add_edge a op).ops q).successors =
      if q = a then (s.ops q).successors ++ [op] else (s.ops q).successors := by
  unfold Schedule.add_edge
  simp only [modify_ops]
  split_ifs <;> simp_all

@[simp] theorem add_edge_dependency_count (s : Schedule) (a op q : Nat) :
    ((s.add_edge a op).ops q).dependency_count =
      if q = op then (s.ops q).dependency_count + 1 else (s.ops q).dependency_count := by
  unfold Schedule.add_edge
  simp only [modify_ops]
  split_ifs <;> simp_all

@[simp] theorem add_edge_reads (s : Schedule) (a op q : Nat) :
    ((s.add_edge a op).ops q).reads = (s.ops q).reads := by
  unfold Schedule.add_edge
  simp only [modify_ops]
  split_ifs <;> simp_all

@[simp] theorem add_edge_op (s : Schedule) (a op q : Nat) :
    ((s.add_edge a op).ops q).op = (s.ops q).op := by
  unfold Schedule.add_edge
  simp only [modify_ops]
  split_ifs <;> simp_all

@[simp] theorem add_edge_nops (s : Schedule) (a op : Nat) : (s.add_edge a op).nops = s.nops := rfl
@[simp] theorem add_edge_latest_write (s : Schedule) (a op : Nat) : (s.add_edge a op).latest_write = s.latest_write := rfl
@[simp] theorem add_edge_root_tasks (s : Schedule) (a op : Nat) : (s.add_edge a op).root_tasks = s.root_tasks := rfl
@[simp] theorem add_edge_steps_original (s : Schedule) (a op : Nat) :
    (s.add_edge a op).steps_original = s.steps_original := rfl
@[simp] theorem add_edge_partitions (s : Schedule) (a op : Nat) : (s.add_edge a op).partitions = s.partitions := rfl

@[simp] theorem push_read_successors (s : Schedule) (a op q : Nat) :
    ((s.push_read a op).ops q).successors = (s.ops q).successors := by
  unfold Schedule.push_read
  by_cases h : q = a <;> simp [h]

@[simp] theorem push_read_dependency_count (s : Schedule) (a op q : Nat) :
    ((s.push_read a op).ops q).dependency_count = (s.ops q).dependency_count := by
  unfold Schedule.push_read
  by_cases h : q = a <;> simp [h]

@[simp] theorem push_read_reads (s : Schedule) (a op q : Nat) :
    ((s.push_read a op).ops q).reads =
      if q = a then (s.ops q).reads ++ [op] else (s.ops q).reads := by
  unfold Schedule.push_read
  by_cases h : q = a <;> simp [h]

@[simp] theorem push_read_op (s : Schedule) (a op q : Nat) :
    ((s.push_read a op).ops q).op = (s.ops q).op := by
  unfold Schedule.push_read
  by_cases h : q = a <;> simp [h]

@[simp] theorem push_read_nops (s : Schedule) (a op : Nat) : (s.push_read a op).nops = s.nops := rfl
@[simp] theorem push_read_latest_write (s : Schedule) (a op : Nat) :
    (s.push_read a op).latest_write = s.latest_write := rfl
@[simp] theorem push_read_root_tasks (s : Schedule) (a op : Nat) : (s.push_read a op).root_tasks = s.root_tasks := rfl
@[simp] theorem push_read_steps_original (s : Schedule) (a op : Nat) :
    (s.push_read a op).steps_original = s.steps_original := rfl
@[simp] theorem push_read_partitions (s : Schedule) (a op : Nat) : (s.push_read a op).partitions = s.partitions := rfl

theorem push_dep_eq (s : Schedule) (a op : Nat) : s.push_dep a op = (s.push_read a op).add_edge a op := by
  unfold Schedule.push_dep Schedule.add_edge Schedule.push_read Schedule.modify
  congr 1
  funext q
  simp only [Function.update_apply]
  split_ifs <;> simp_all

theorem wire_prev_eq (s : Schedule) (op prev : Nat) :
    Schedule.wire_prev op s prev = if prev ≠ op then s.add_edge prev op else s := rfl

theorem wire_dep_eq (s : Schedule) (op dep : Nat) :
    Schedule.wire_dep op s dep =
      match s.latest_write dep with
      | some dep_op => s.push_dep dep_op op
      | none => (s.new_dummy dep).push_dep s.nops op := rfl


/-! ## Preservation of well-formedness by recording -/

@[simp] theorem alloc_ops (s : Schedule) (o : TensorOperation) (q : Nat) :
    (s.alloc o).ops q = if q = s.nops then o else s.ops q := by
  simp [Schedule.alloc, Function.update_apply]

@[simp] theorem alloc_nops (s : Schedule) (o : TensorOperation) :
    (s.alloc o).nops = s.nops + 1 := rfl

@[simp] theorem new_dummy_ops (s : Schedule) (dep q : Nat) :
    ((s.new_dummy dep).ops q) =
      if q = s.nops then TensorOperation.new TENSOR_OP_NONE none none else s.ops q := by
  simp [Schedule.new_dummy]

@[simp] theorem new_dummy_nops (s : Schedule) (dep : Nat) :
    (s.new_dummy dep).nops = s.nops + 1 := rfl

@[simp] theorem new_dummy_latest_write (s : Schedule) (dep t : Nat) :
    (s.new_dummy dep).latest_write t = if t = dep then some s.nops else s.latest_write t := by
  simp [Schedule.new_dummy, Schedule.alloc, Function.update_apply]

@[simp] theorem new_dummy_root_tasks (s : Schedule) (dep : Nat) :
    (s.new_dummy dep).root_tasks = s.root_tasks ++ [s.nops] := rfl

@[simp] theorem new_dummy_steps_original (s : Schedule) (dep : Nat) :
    (s.new_dummy dep).steps_original = s.steps_original ++ [s.nops] := rfl

@[simp] theorem new_dummy_partitions (s : Schedule) (dep : Nat) :
    (s.new_dummy dep).partitions = s.partitions := rfl

theorem in_degree_add_edge (s : Schedule) (a op q : Nat) (ha : a < s.nops) :
    (s.add_edge a op).in_degree q = s.in_degree q + if q = op then 1 else 0 := by
  unfold Schedule.in_degree
  simp only [add_edge_nops, add_edge_successors]
  have h : ∀ p ∈ Finset.range s.nops,
      (((if p = a then (s.ops p).successors ++ [op] else (s.ops p).successors).count q : Nat) : Int)
        = (((s.ops p).successors.count q : Nat) : Int) +
            (if p = a then (if q = op then 1 else 0) else 0) := by
    intro p _
    by_cases hp : p = a
    · by_cases hq : q = op
      · subst hq
        simp [hp, List.count_append]
      · have hq2 : ¬ (op = q) := fun h => hq h.symm
        simp [hp, List.count_append, List.count_singleton, hq, hq2]
    · simp [hp]
  rw [Finset.sum_congr rfl h, Finset.sum_add_distrib, Finset.sum_ite_eq']
  simp [ha]

theorem in_degree_push_read (s : Schedule) (a op q : Nat) :
    (s.push_read a op).in_degree q = s.in_degree q := by
  unfold Schedule.in_degree
  simp

theorem in_degree_alloc (s : Schedule) (o : TensorOperation) (q : Nat)
    (ho : o.successors = []) : (s.alloc o).in_degree q = s.in_degree q := by
  unfold Schedule.in_degree
  rw [alloc_nops, Finset.sum_range_succ]
  have h : ∀ p ∈ Finset.range s.nops,
      ((((s.alloc o).ops p).successors.count q : Nat) : Int) =
        (((s.ops p).successors.count q : Nat) : Int) := by
    intro p hp
    have : p ≠ s.nops := ne_of_lt (Finset.mem_range.mp hp)
    simp [this]
  rw [Finset.sum_congr rfl h]
  simp [ho]

theorem in_degree_new_dummy (s : Schedule) (dep q : Nat) :
    (s.new_dummy dep).in_degree q = s.in_degree q := by
  have := in_degree_alloc s (TensorOperation.new TENSOR_OP_NONE none none) q rfl
  unfold Schedule.in_degree at this ⊢
  simpa [Schedule.new_dummy] using this

theorem in_degree_eq_zero (s : Schedule) (q : Nat)
    (h : ∀ p, p < s.nops → q ∉ (s.ops p).successors) : s.in_degree q = 0 := by
  unfold Schedule.in_degree
  apply Finset.sum_eq_zero
  intro p hp
  have := h p (Finset.mem_range.mp hp)
  simp [List.count_eq_zero_of_not_mem this]

theorem mid_push_read (s : Schedule) (a op : Nat) (h : s.Mid op) (ha : a < s.nops) :
    (s.push_read a op).Mid op := by
  obtain ⟨wf, op_lt, op_kind, lw_ne, reads_le, later⟩ := h
  refine ⟨⟨?_, ?_, ?_, ?_, ?_, ?_, ?_, ?_, ?_⟩, ?_, ?_, ?_, ?_, ?_⟩
  · simpa using wf.succ_lt
  · simpa using wf.succ_kind
  · simpa using wf.succ_order
  · intro p q hq
    simp only [push_read_reads, push_read_nops] at hq ⊢
    split_ifs at hq with hp
    · rcases List.mem_append.mp hq with hq | hq
      · exact wf.reads_lt p q hq
      · simp at hq; omega
    · exact wf.reads_lt p q hq
  · simpa using wf.lw_lt
  · simpa using wf.root_iff
  · simpa using wf.root_nodup
  · intro q hq
    simpa [in_degree_push_read] using wf.count_eq q hq
  · simpa using wf.steps
  · simpa using op_lt
  · simpa using op_kind
  · simpa using lw_ne
  · intro p q hq
    simp only [push_read_reads] at hq
    split_ifs at hq with hp
    · rcases List.mem_append.mp hq with hq | hq
      · exact reads_le p q hq
      · simp at hq; omega
    · exact reads_le p q hq
  · simpa using later

theorem mid_add_edge (s : Schedule) (a op : Nat) (h : s.Mid op) (ha : a < s.nops)
    (hne : a ≠ op) : (s.add_edge a op).Mid op := by
  obtain ⟨wf, op_lt, op_kind, lw_ne, reads_le, later⟩ := h
  have hmem : ∀ p q, q ∈ ((s.add_edge a op).ops p).successors →
      q ∈ (s.ops p).successors ∨ (p = a ∧ q = op) := by
    intro p q hq
    simp only [add_edge_successors] at hq
    split_ifs at hq with hp
    · rcases List.mem_append.mp hq with hq | hq
      · exact Or.inl hq
      · simp at hq; exact Or.inr ⟨hp, hq⟩
    · exact Or.inl hq
  refine ⟨⟨?_, ?_, ?_, ?_, ?_, ?_, ?_, ?_, ?_⟩, ?_, ?_, ?_, ?_, ?_⟩
  · intro p q hq
    rcases hmem p q hq with hq | ⟨rfl, rfl⟩
    · simpa using wf.succ_lt p q hq
    · simpa using ⟨ha, op_lt⟩
  · intro p q hq
    rcases hmem p q hq with hq | ⟨rfl, rfl⟩
    · simpa using wf.succ_kind p q hq
    · simpa using op_kind
  · intro p q hq
    simp only [add_edge_op]
    rcases hmem p q hq with hq | ⟨rfl, rfl⟩
    · exact wf.succ_order p q hq
    · rcases Nat.lt_or_gt_of_ne hne with hlt | hgt
      · exact Or.inl hlt
      · refine Or.inr ⟨later p hgt ha, ?_⟩
        intro x hx1 hx2
        exact later x hx1 (by omega)
  · simpa using wf.reads_lt
  · simpa using wf.lw_lt
  · simpa using wf.root_iff
  · simpa using wf.root_nodup
  · intro q hq
    simp only [add_edge_nops] at hq
    rw [in_degree_add_edge s a op q ha, add_edge_dependency_count, ← wf.count_eq q hq]
    split_ifs <;> simp
  · simpa using wf.steps
  · simpa using op_lt
  · simpa using op_kind
  · simpa using lw_ne
  · simpa using reads_le
  · simpa using later

theorem mid_new_dummy (s : Schedule) (dep op : Nat) (h : s.Mid op) :
    (s.new_dummy dep).Mid op := by
  obtain ⟨wf, op_lt, op_kind, lw_ne, reads_le, later⟩ := h
  have hsucc : ∀ p, ((s.new_dummy dep).ops p).successors = (s.ops p).successors := by
    intro p
    simp only [new_dummy_ops]
    split_ifs with hp
    · subst hp
      have : (s.ops s.nops).successors = [] := by
        cases hs : (s.ops s.nops).successors with
        | nil => rfl
        | cons q qs =>
          have := (wf.succ_lt s.nops q (by simp [hs])).1
          omega
      simp [this, TensorOperation.new]
    · rfl
  have hkind : ∀ p, p < s.nops → ((s.new_dummy dep).ops p).op = (s.ops p).op := by
    intro p hp
    have : p ≠ s.nops := ne_of_lt hp
    simp [this]
  have hreads : ∀ p q, q ∈ ((s.new_dummy dep).ops p).reads → q ∈ (s.ops p).reads := by
    intro p q hq
    simp only [new_dummy_ops] at hq
    split_ifs at hq with hp
    · simp [TensorOperation.new] at hq
    · exact hq
  refine ⟨⟨?_, ?_, ?_, ?_, ?_, ?_, ?_, ?_, ?_⟩, ?_, ?_, ?_, ?_, ?_⟩
  · intro p q hq
    rw [hsucc] at hq
    have := wf.succ_lt p q hq
    simp only [new_dummy_nops]
    omega
  · intro p q hq
    rw [hsucc] at hq
    rw [hkind q (wf.succ_lt p q hq).2]
    exact wf.succ_kind p q hq
  · intro p q hq
    rw [hsucc] at hq
    have hlt := wf.succ_lt p q hq
    rw [hkind p hlt.1]
    rcases wf.succ_order p q hq with h1 | ⟨h1, h2⟩
    · exact Or.inl h1
    · refine Or.inr ⟨h1, ?_⟩
      intro x hx1 hx2
      rw [hkind x (by omega)]
      exact h2 x hx1 hx2
  · intro p q hq
    have := wf.reads_lt p q (hreads p q hq)
    simp only [new_dummy_nops]
    omega
  · intro t w hw
    simp only [new_dummy_latest_write, new_dummy_nops] at hw ⊢
    split_ifs at hw with ht
    · simp at hw; omega
    · have := wf.lw_lt t w hw
      omega
  · intro d
    simp only [new_dummy_root_tasks, new_dummy_nops, List.mem_append, List.mem_singleton,
      new_dummy_ops]
    by_cases hd : d = s.nops
    · subst hd
      simp [TensorOperation.new]
    · simp only [hd, or_false, if_false, wf.root_iff d]
      constructor
      · rintro ⟨h1, h2⟩
        exact ⟨by omega, h2⟩
      · rintro ⟨h1, h2⟩
        exact ⟨by omega, h2⟩
  · simp only [new_dummy_root_tasks]
    apply List.Nodup.append wf.root_nodup (List.nodup_singleton _)
    intro d hd1 hd2
    simp at hd2
    subst hd2
    have := ((wf.root_iff _).mp hd1).1
    omega
  · intro q hq
    simp only [new_dummy_nops] at hq
    rw [in_degree_new_dummy]
    by_cases hq2 : q = s.nops
    · subst hq2
      rw [in_degree_eq_zero]
      · simp [TensorOperation.new]
      · intro p _ hmem
        have := (wf.succ_lt p _ hmem).2
        omega
    · have hq3 : q < s.nops := by omega
      simp only [new_dummy_ops, hq2, if_false]
      exact wf.count_eq q hq3
  · simp only [new_dummy_steps_original, new_dummy_nops, wf.steps, List.range_succ]
  · simp only [new_dummy_nops]; omega
  · rw [hkind op op_lt]; exact op_kind
  · intro t w hw
    simp only [new_dummy_latest_write] at hw
    split_ifs at hw with ht
    · simp at hw; omega
    · exact lw_ne t w hw
  · intro p q hq
    exact reads_le p q (hreads p q hq)
  · intro x hx1 hx2
    simp only [new_dummy_nops] at hx2
    by_cases hx : x = s.nops
    · subst hx
      simp [TensorOperation.new]
    · rw [hkind x (by omega)]
      exact later x hx1 (by omega)

theorem mid_push_dep (s : Schedule) (a op : Nat) (h : s.Mid op) (ha : a < s.nops)
    (hne : a ≠ op) : (s.push_dep a op).Mid op := by
  rw [push_dep_eq]
  exact mid_add_edge _ a op (mid_push_read s a op h ha) (by simpa using ha) hne

theorem mid_wire_dep (s : Schedule) (op dep : Nat) (h : s.Mid op) :
    (Schedule.wire_dep op s dep).Mid op := by
  rw [wire_dep_eq]
  cases hw : s.latest_write dep with
  | some w => exact mid_push_dep s w op h (h.wf.lw_lt dep w hw) (h.lw_ne dep w hw)
  | none =>
    have := h.op_lt
    exact mid_push_dep _ s.nops op (mid_new_dummy s dep op h) (by simp) (by omega)

theorem mid_wire_deps (s : Schedule) (op : Nat) (deps : List Nat) (h : s.Mid op) :
    (s.wire_deps op deps).Mid op := by
  unfold Schedule.wire_deps
  induction deps generalizing s with
  | nil => simpa using h
  | cons d ds ih =>
    simp only [List.foldl_cons]
    exact ih _ (mid_wire_dep s op d h)

theorem mid_wire_prev (s : Schedule) (op prev : Nat) (h : s.Mid op) (hp : prev ≤ op) :
    (Schedule.wire_prev op s prev).Mid op := by
  rw [wire_prev_eq]
  split_ifs with hne
  · have := h.op_lt
    exact mid_add_edge s prev op h (by omega) hne
  · exact h

theorem mid_wire_prev_list (s : Schedule) (op : Nat) (rs : List Nat) (h : s.Mid op)
    (hrs : ∀ r ∈ rs, r ≤ op) : (rs.foldl (Schedule.wire_prev op) s).Mid op := by
  induction rs generalizing s with
  | nil => simpa using h
  | cons r rest ih =>
    simp only [List.foldl_cons]
    exact ih _ (mid_wire_prev s op r h (hrs r (List.mem_cons_self _ _)))
      (fun x hx => hrs x (List.mem_cons_of_mem _ hx))

theorem mid_wire_prevs (s : Schedule) (op op_lhs : Nat) (h : s.Mid op) :
    (s.wire_prevs op op_lhs).Mid op := by
  unfold Schedule.wire_prevs
  cases hw : s.latest_write op_lhs with
  | none => exact h
  | some prev => exact mid_wire_prev_list s op _ h (fun r hr => h.reads_le prev r hr)

/-- The state in which the loops of `add_operation_typed` start. -/
theorem mid_start (s : Schedule) (o : TensorOperation) (h : s.WF)
    (hk : o.op ≠ TENSOR_OP_NONE) (hs : o.successors = []) (hr : o.reads = [])
    (hc : o.dependency_count = 0) :
    Schedule.Mid
      { s.alloc o with steps_original := (s.alloc o).steps_original ++ [s.nops] } s.nops := by
  have hsucc : ∀ p, ((s.alloc o).ops p).successors = (s.ops p).successors := by
    intro p
    simp only [alloc_ops]
    split_ifs with hp
    · subst hp
      have : (s.ops s.nops).successors = [] := by
        cases hs2 : (s.ops s.nops).successors with
        | nil => rfl
        | cons q qs =>
          have := (h.succ_lt s.nops q (by simp [hs2])).1
          omega
      rw [hs, this]
    · rfl
  have hkind : ∀ p, p < s.nops → ((s.alloc o).ops p).op = (s.ops p).op := by
    intro p hp
    have : p ≠ s.nops := ne_of_lt hp
    simp [this]
  have hreads : ∀ p q, q ∈ ((s.alloc o).ops p).reads → q ∈ (s.ops p).reads := by
    intro p q hq
    simp only [alloc_ops] at hq
    split_ifs at hq with hp
    · simp [hr] at hq
    · exact hq
  refine ⟨⟨?_, ?_, ?_, ?_, ?_, ?_, ?_, ?_, ?_⟩, ?_, ?_, ?_, ?_, ?_⟩
  · intro p q hq
    have := h.succ_lt p q ((hsucc p) ▸ hq)
    show p < s.nops + 1 ∧ q < s.nops + 1
    omega
  · intro p q hq
    have hq2 : q ∈ (s.ops p).successors := (hsucc p) ▸ hq
    show ((s.alloc o).ops q).op ≠ TENSOR_OP_NONE
    rw [hkind q (h.succ_lt p q hq2).2]
    exact h.succ_kind p q hq2
  · intro p q hq
    have hq2 : q ∈ (s.ops p).successors := (hsucc p) ▸ hq
    have hlt := h.succ_lt p q hq2
    show p < q ∨ (((s.alloc o).ops p).op = TENSOR_OP_NONE ∧
      ∀ x, q < x → x ≤ p → ((s.alloc o).ops x).op = TENSOR_OP_NONE)
    rw [hkind p hlt.1]
    rcases h.succ_order p q hq2 with h1 | ⟨h1, h2⟩
    · exact Or.inl h1
    · refine Or.inr ⟨h1, ?_⟩
      intro x hx1 hx2
      rw [hkind x (by omega)]
      exact h2 x hx1 hx2
  · intro p q hq
    have := h.reads_lt p q (hreads p q hq)
    show p < s.nops + 1 ∧ q < s.nops + 1
    omega
  · intro t w hw
    have := h.lw_lt t w hw
    show w < s.nops + 1
    omega
  · intro d
    show d ∈ s.root_tasks ↔ (d < s.nops + 1 ∧ ((s.alloc o).ops d).op = TENSOR_OP_NONE)
    by_cases hd : d = s.nops
    · subst hd
      simp only [alloc_ops, if_true]
      constructor
      · intro hmem
        have := ((h.root_iff _).mp hmem).1
        omega
      · rintro ⟨_, h2⟩
        exact absurd h2 hk
    · simp only [alloc_ops, hd, if_false, h.root_iff d]
      constructor
      · rintro ⟨h1, h2⟩
        exact ⟨by omega, h2⟩
      · rintro ⟨h1, h2⟩
        exact ⟨by omega, h2⟩
  · exact h.root_nodup
  · intro q hq
    have hq1 : q < s.nops + 1 := hq
    show ((s.alloc o).ops q).dependency_count = Schedule.in_degree (s.alloc o) q
    rw [in_degree_alloc s o q hs]
    by_cases hq2 : q = s.nops
    · subst hq2
      rw [in_degree_eq_zero]
      · simp [hc]
      · intro p _ hmem
        have := (h.succ_lt p _ hmem).2
        omega
    · simp only [alloc_ops, hq2, if_false]
      exact h.count_eq q (by omega)
  · show s.steps_original ++ [s.nops] = List.range (s.nops + 1)
    rw [h.steps, List.range_succ]
  · show s.nops < s.nops + 1
    omega
  · show ((s.alloc o).ops s.nops).op ≠ TENSOR_OP_NONE
    simpa using hk
  · intro t w hw
    have := h.lw_lt t w hw
    omega
  · intro p q hq
    have := h.reads_lt p q (hreads p q hq)
    omega
  · intro x hx1 hx2
    have hx3 : x < s.nops + 1 := hx2
    omega

theorem wf_set_latest_write (s : Schedule) (op t : Nat) (h : s.Mid op) :
    Schedule.WF { s with latest_write := Function.update s.latest_write t (some op) } := by
  obtain ⟨wf, op_lt, -, -, -, -⟩ := h
  refine ⟨wf.succ_lt, wf.succ_kind, wf.succ_order, wf.reads_lt, ?_, wf.root_iff,
    wf.root_nodup, wf.count_eq, wf.steps⟩
  intro t2 w hw
  simp only [Function.update_apply] at hw
  split_ifs at hw with ht
  · simp at hw
    subst hw
    exact op_lt
  · exact wf.lw_lt t2 w hw

theorem get_inputs_kind (o : TensorOperation) (set ins : List Nat)
    (h : o.get_inputs set = some ins) : o.op ≠ TENSOR_OP_NONE := by
  intro hk
  unfold TensorOperation.get_inputs at h
  cases hr : o.rhs with
  | none => simp [hr] at h
  | some r => simp [hr, hk] at h

/-- The shape of a successful `add_operation_typed`. -/
theorem add_operation_typed_eq (s s1 : Schedule) (o : TensorOperation)
    (h : s.add_operation_typed o = some s1) :
    ∃ op_lhs op_deps, o.get_outputs [] = some [op_lhs] ∧ o.get_inputs [] = some op_deps ∧
      s1 = { (Schedule.wire_prevs s.nops
              (Schedule.wire_deps s.nops
                { s.alloc o with steps_original := (s.alloc o).steps_original ++ [s.nops] }
                op_deps) op_lhs) with
             latest_write := Function.update
               (Schedule.wire_prevs s.nops
                 (Schedule.wire_deps s.nops
                   { s.alloc o with steps_original := (s.alloc o).steps_original ++ [s.nops] }
                   op_deps) op_lhs).latest_write op_lhs (some s.nops) } := by
  unfold Schedule.add_operation_typed at h
  cases hout : o.get_outputs [] with
  | none => simp [hout] at h
  | some outs =>
    cases hin : o.get_inputs [] with
    | none =>
      rcases outs with _ | ⟨x, _ | ⟨y, ys⟩⟩ <;> simp [hout, hin] at h
    | some deps =>
      rcases outs with _ | ⟨x, _ | ⟨y, ys⟩⟩
      · simp [hout] at h
      · simp only [hout, hin, Option.some.injEq] at h
        exact ⟨x, deps, rfl, rfl, h.symm⟩
      · simp [hout] at h

theorem wf_add_operation_typed (s s1 : Schedule) (o : TensorOperation) (h : s.WF)
    (hs : o.successors = []) (hr : o.reads = []) (hc : o.dependency_count = 0)
    (hadd : s.add_operation_typed o = some s1) : s1.WF := by
  obtain ⟨op_lhs, op_deps, -, hin, rfl⟩ := add_operation_typed_eq s s1 o hadd
  apply wf_set_latest_write
  apply mid_wire_prevs
  apply mid_wire_deps
  exact mid_start s o h (get_inputs_kind o [] op_deps hin) hs hr hc

theorem wf_add_operation (s s1 : Schedule) (a : Assignment) (h : s.WF)
    (hadd : s.add_operation a = some s1) : s1.WF :=
  wf_add_operation_typed s s1 _ h rfl rfl rfl hadd

theorem wf_empty (partitions : Int) : (Schedule.empty partitions).WF := by
  refine ⟨?_, ?_, ?_, ?_, ?_, ?_, ?_, ?_, ?_⟩ <;>
    simp [Schedule.empty, TensorOperation.new]

theorem wf_record_from (s s1 : Schedule) (calls : List Assignment) (h : s.WF)
    (hrec : s.record_from calls = some s1) : s1.WF := by
  induction calls generalizing s with
  | nil =>
    simp only [Schedule.record_from, Option.some.injEq] at hrec
    exact hrec ▸ h
  | cons a rest ih =>
    simp only [Schedule.record_from] at hrec
    cases hadd : s.add_operation a with
    | none => simp [hadd] at hrec
    | some s2 =>
      simp only [hadd] at hrec
      exact ih s2 (wf_add_operation s s2 a h hadd) hrec

theorem wf_record (partitions : Int) (calls : List Assignment) (s : Schedule)
    (hrec : record partitions calls = some s) : s.WF :=
  wf_record_from _ s calls (wf_empty partitions) hrec

/-! ## The recorded graph: dependency counts and acyclicity -/

/-- C5, counterexample: after recording `B = A; A = B` the operation `A = B`
(address 2) has `dependency_count == 2`, but its predecessor set is the single
operation `B = A` (address 0), which occurs twice in the successor lists. -/
theorem dependency_count_exceeds_predecessor_set :
    (record 0 swap_calls).map
        (fun s => ((s.ops 2).dependency_count, s.predecessors 2, (s.ops 0).successors)) =
      some (2, [0], [2, 2]) := by
  decide

/-- C5, amended: after any sequence of `add_operation` calls, for every operation
`q` of the schedule, `dependency_count` equals the number of edges into `q`, that
is the number of occurrences of `q` in the successor lists of all operations,
counted with multiplicity. -/
theorem dependency_count_eq_in_degree (partitions : Int) (calls : List Assignment)
    (s : Schedule) (hrec : record partitions calls = some s) (q : Nat) (hq : q < s.nops) :
    (s.ops q).dependency_count =
      ∑ p ∈ Finset.range s.nops, (((s.ops p).successors.count q : Nat) : Int) :=
  (wf_record partitions calls s hrec).count_eq q hq

/-- C5, witness: the operation `A = B` of the record `B = A; A = B`. -/
theorem dependency_count_eq_in_degree_witness :
    ∃ s, record 0 swap_calls = some s ∧ 2 < s.nops ∧
      (s.ops 2).dependency_count =
        ∑ p ∈ Finset.range s.nops, (((s.ops p).successors.count 2 : Nat) : Int) :=
  ⟨(record 0 swap_calls).get rfl, (Option.some_get _).symm, by decide,
    dependency_count_eq_in_degree 0 swap_calls _ (Option.some_get _).symm 2 (by decide)⟩

theorem rank_lt_of_edge (s : Schedule) (h : s.WF) (p q : Nat) (hpq : s.edge p q) :
    s.rank p < s.rank q := by
  unfold Schedule.rank
  have hk := h.succ_kind p q hpq
  rcases h.succ_order p q hpq with h1 | ⟨h1, _⟩
  · simp only [hk, if_false]
    split_ifs <;> omega
  · simp [hk, h1]

theorem rank_lt_of_transGen (s : Schedule) (h : s.WF) (p q : Nat)
    (hpq : Relation.TransGen s.edge p q) : s.rank p < s.rank q := by
  induction hpq with
  | single hab => exact rank_lt_of_edge s h _ _ hab
  | tail _ hbc ih => exact lt_trans ih (rank_lt_of_edge s h _ _ hbc)

/-- C6: after any sequence of `add_operation` calls (addresses follow the record
order: `steps_original` is `0, 1, ..., nops - 1`), every edge `p → q` of the
successors relation goes from an operation recorded before `q`, or from a dummy
synthesized while `q` was added (only dummies lie between `q` and `p`), to `q`;
no operation is its own successor; and no operation is reachable from itself. -/
theorem successors_acyclic (partitions : Int) (calls : List Assignment) (s : Schedule)
    (hrec : record partitions calls = some s) :
    s.steps_original = List.range s.nops ∧
    (∀ p q, q ∈ (s.ops p).successors →
      p ≠ q ∧ p < s.nops ∧ q < s.nops ∧ (s.ops q).op ≠ TENSOR_OP_NONE ∧
      (p < q ∨ ((s.ops p).op = TENSOR_OP_NONE ∧
        ∀ x, q < x → x ≤ p → (s.ops x).op = TENSOR_OP_NONE))) ∧
    (∀ x, ¬ Relation.TransGen (fun p q => q ∈ (s.ops p).successors) x x) := by
  have h := wf_record partitions calls s hrec
  refine ⟨h.steps, ?_, ?_⟩
  · intro p q hq
    refine ⟨?_, (h.succ_lt p q hq).1, (h.succ_lt p q hq).2, h.succ_kind p q hq,
      h.succ_order p q hq⟩
    intro hpq
    subst hpq
    exact lt_irrefl _ (rank_lt_of_edge s h p p hq)
  · intro x hx
    exact lt_irrefl _ (rank_lt_of_transGen s h x x hx)

/-- C6, witness: the record `B = A; A = B`. -/
theorem successors_acyclic_witness :
    ∃ s, record 0 swap_calls = some s ∧
      (s.steps_original = List.range s.nops ∧
      (∀ p q, q ∈ (s.ops p).successors →
        p ≠ q ∧ p < s.nops ∧ q < s.nops ∧ (s.ops q).op ≠ TENSOR_OP_NONE ∧
        (p < q ∨ ((s.ops p).op = TENSOR_OP_NONE ∧
          ∀ x, q < x → x ≤ p → (s.ops x).op = TENSOR_OP_NONE))) ∧
      (∀ x, ¬ Relation.TransGen (fun p q => q ∈ (s.ops p).successors) x x)) :=
  ⟨(record 0 swap_calls).get rfl, (Option.some_get _).symm,
    successors_acyclic 0 swap_calls _ (Option.some_get _).symm⟩

/-! ## The edges added by one `add_operation` -/

theorem push_dep_successors (s : Schedule) (a op p q : Nat) :
    q ∈ ((s.push_dep a op).ops p).successors ↔
      q ∈ (s.ops p).successors ∨ (q = op ∧ p = a) := by
  rw [push_dep_eq]
  simp only [add_edge_successors, push_read_successors]
  split_ifs with hp
  · simp [hp]
  · simp [hp]

theorem push_dep_reads (s : Schedule) (a op p q : Nat) :
    q ∈ ((s.push_dep a op).ops p).reads ↔ q ∈ (s.ops p).reads ∨ (q = op ∧ p = a) := by
  rw [push_dep_eq]
  simp only [add_edge_reads, push_read_reads]
  split_ifs with hp
  · simp [hp]
  · simp [hp]

theorem push_dep_latest_write (s : Schedule) (a op : Nat) :
    (s.push_dep a op).latest_write = s.latest_write := rfl

theorem push_dep_nops (s : Schedule) (a op : Nat) : (s.push_dep a op).nops = s.nops := rfl

theorem new_dummy_successors (s : Schedule) (h : s.WF) (dep p : Nat) :
    ((s.new_dummy dep).ops p).successors = (s.ops p).successors := by
  simp only [new_dummy_ops]
  split_ifs with hp
  · subst hp
    cases hs : (s.ops s.nops).successors with
    | nil => rfl
    | cons q qs =>
      have := (h.succ_lt s.nops q (by simp [hs])).1
      omega
  · rfl

theorem new_dummy_reads (s : Schedule) (h : s.WF) (dep p : Nat) :
    ((s.new_dummy dep).ops p).reads = (s.ops p).reads := by
  simp only [new_dummy_ops]
  split_ifs with hp
  · subst hp
    cases hs : (s.ops s.nops).reads with
    | nil => rfl
    | cons q qs =>
      have := (h.reads_lt s.nops q (by simp [hs])).1
      omega
  · rfl

/-- What one iteration of the loop over `op_deps` does. -/
theorem wire_dep_step (s : Schedule) (op d : Nat) (h : s.WF) :
    ∃ w, (Schedule.wire_dep op s d).latest_write d = some w ∧
      (s.latest_write d = some w ∨ (s.latest_write d = none ∧ w = s.nops)) ∧
      (∀ t, t ≠ d → (Schedule.wire_dep op s d).latest_write t = s.latest_write t) ∧
      (∀ p q, q ∈ ((Schedule.wire_dep op s d).ops p).successors ↔
        q ∈ (s.ops p).successors ∨ (q = op ∧ p = w)) ∧
      (∀ p q, q ∈ ((Schedule.wire_dep op s d).ops p).reads ↔
        q ∈ (s.ops p).reads ∨ (q = op ∧ p = w)) ∧
      s.nops ≤ (Schedule.wire_dep op s d).nops := by
  rw [wire_dep_eq]
  cases hw : s.latest_write d with
  | some w =>
    refine ⟨w, ?_, Or.inl rfl, ?_, ?_, ?_, ?_⟩
    · simp [push_dep_latest_write, hw]
    · intro t _
      simp [push_dep_latest_write]
    · intro p q
      exact push_dep_successors s w op p q
    · intro p q
      exact push_dep_reads s w op p q
    · simp [push_dep_nops]
  | none =>
    refine ⟨s.nops, ?_, Or.inr ⟨rfl, rfl⟩, ?_, ?_, ?_, ?_⟩
    · simp [push_dep_latest_write]
    · intro t ht
      simp [push_dep_latest_write, ht]
    · intro p q
      rw [push_dep_successors, new_dummy_successors s h]
    · intro p q
      rw [push_dep_reads, new_dummy_reads s h]
    · simp [push_dep_nops]

/-- What the loop over `op_deps` does. -/
theorem wire_deps_spec (op : Nat) (deps : List Nat) (s : Schedule) (h : s.Mid op) :
    (∀ t w, s.latest_write t = some w → (s.wire_deps op deps).latest_write t = some w) ∧
    (∀ t w, (s.wire_deps op deps).latest_write t = some w →
      s.latest_write t = some w ∨ (s.latest_write t = none ∧ s.nops ≤ w ∧ t ∈ deps)) ∧
    (∀ t, t ∈ deps → ∃ w, (s.wire_deps op deps).latest_write t = some w) ∧
    (∀ p q, q ∈ ((s.wire_deps op deps).ops p).successors ↔
      q ∈ (s.ops p).successors ∨
        (q = op ∧ ∃ t, t ∈ deps ∧ (s.wire_deps op deps).latest_write t = some p)) ∧
    (∀ p q, q ∈ ((s.wire_deps op deps).ops p).reads ↔
      q ∈ (s.ops p).reads ∨
        (q = op ∧ ∃ t, t ∈ deps ∧ (s.wire_deps op deps).latest_write t = some p)) ∧
    s.nops ≤ (s.wire_deps op deps).nops := by
  induction deps generalizing s with
  | nil =>
    simp [Schedule.wire_deps]
  | cons d ds ih =>
    obtain ⟨w1, hw1, hold, hframe, hsucc, hreads, hn⟩ := wire_dep_step s op d h.wf
    obtain ⟨iA, iB, iC, iD, iE, iF⟩ := ih (Schedule.wire_dep op s d) (mid_wire_dep s op d h)
    have hfold : s.wire_deps op (d :: ds) = (Schedule.wire_dep op s d).wire_deps op ds := rfl
    rw [hfold]
    have hstep : ∀ t w, s.latest_write t = some w →
        (Schedule.wire_dep op s d).latest_write t = some w := by
      intro t w ht
      by_cases htd : t = d
      · subst htd
        rcases hold with ho | ⟨ho, _⟩
        · rw [hw1, ← ho, ht]
        · rw [ho] at ht; exact absurd ht (by simp)
      · rw [hframe t htd, ht]
    refine ⟨?_, ?_, ?_, ?_, ?_, ?_⟩
    · intro t w ht
      exact iA t w (hstep t w ht)
    · intro t w ht
      rcases iB t w ht with h1 | ⟨h1, h2, h3⟩
      · by_cases htd : t = d
        · subst htd
          rw [hw1] at h1
          simp only [Option.some.injEq] at h1
          subst h1
          rcases hold with ho | ⟨ho, hwn⟩
          · exact Or.inl ho
          · exact Or.inr ⟨ho, by omega, List.mem_cons_self _ _⟩
        · rw [hframe t htd] at h1
          exact Or.inl h1
      · have htd : t ≠ d := by
          intro htd
          subst htd
          rw [hw1] at h1
          exact absurd h1 (by simp)
        rw [hframe t htd] at h1
        exact Or.inr ⟨h1, by omega, List.mem_cons_of_mem _ h3⟩
    · intro t ht
      rcases List.mem_cons.mp ht with rfl | ht
      · exact ⟨w1, iA _ w1 hw1⟩
      · exact iC t ht
    · intro p q
      rw [iD p q, hsucc p q]
      constructor
      · rintro (( h1 | ⟨h1, h2⟩) | ⟨h1, t, ht, h2⟩)
        · exact Or.inl h1
        · exact Or.inr ⟨h1, d, List.mem_cons_self _ _, h2 ▸ iA d w1 hw1⟩
        · exact Or.inr ⟨h1, t, List.mem_cons_of_mem _ ht, h2⟩
      · rintro (h1 | ⟨h1, t, ht, h2⟩)
        · exact Or.inl (Or.inl h1)
        · rcases List.mem_cons.mp ht with rfl | ht
          · have := iA _ w1 hw1
            rw [h2] at this
            simp only [Option.some.injEq] at this
            exact Or.inl (Or.inr ⟨h1, this⟩)
          · exact Or.inr ⟨h1, t, ht, h2⟩
    · intro p q
      rw [iE p q, hreads p q]
      constructor
      · rintro (( h1 | ⟨h1, h2⟩) | ⟨h1, t, ht, h2⟩)
        · exact Or.inl h1
        · exact Or.inr ⟨h1, d, List.mem_cons_self _ _, h2 ▸ iA d w1 hw1⟩
        · exact Or.inr ⟨h1, t, List.mem_cons_of_mem _ ht, h2⟩
      · rintro (h1 | ⟨h1, t, ht, h2⟩)
        · exact Or.inl (Or.inl h1)
        · rcases List.mem_cons.mp ht with rfl | ht
          · have := iA _ w1 hw1
            rw [h2] at this
            simp only [Option.some.injEq] at this
            exact Or.inl (Or.inr ⟨h1, this⟩)
          · exact Or.inr ⟨h1, t, ht, h2⟩
    · omega

/-- What the loop over `prev_reads` does. -/
theorem wire_prev_list_spec (op : Nat) (rs : List Nat) (s : Schedule) :
    (rs.foldl (Schedule.wire_prev op) s).latest_write = s.latest_write ∧
    (rs.foldl (Schedule.wire_prev op) s).nops = s.nops ∧
    (∀ p, ((rs.foldl (Schedule.wire_prev op) s).ops p).reads = (s.ops p).reads) ∧
    (∀ p, ((rs.foldl (Schedule.wire_prev op) s).ops p).op = (s.ops p).op) ∧
    (∀ p q, q ∈ ((rs.foldl (Schedule.wire_prev op) s).ops p).successors ↔
      q ∈ (s.ops p).successors ∨ (q = op ∧ p ∈ rs ∧ p ≠ op)) := by
  induction rs generalizing s with
  | nil => simp
  | cons r rest ih =>
    simp only [List.foldl_cons]
    obtain ⟨i1, i2, i3, i4, i5⟩ := ih (Schedule.wire_prev op s r)
    rw [wire_prev_eq] at i1 i2 i3 i4 i5 ⊢
    by_cases hr : r = op
    · simp only [hr, ne_eq, not_true_eq_false, if_false] at i1 i2 i3 i4 i5 ⊢
      refine ⟨i1, i2, i3, i4, ?_⟩
      intro p q
      rw [i5 p q]
      simp only [List.mem_cons]
      constructor
      · rintro (h1 | ⟨h1, h2, h3⟩)
        · exact Or.inl h1
        · exact Or.inr ⟨h1, Or.inr h2, h3⟩
      · rintro (h1 | ⟨h1, h2 | h2, h3⟩)
        · exact Or.inl h1
        · exact absurd h2 h3
        · exact Or.inr ⟨h1, h2, h3⟩
    · simp only [ne_eq, hr, not_false_eq_true, if_true] at i1 i2 i3 i4 i5 ⊢
      refine ⟨by simpa using i1, by simpa using i2, ?_, ?_, ?_⟩
      · intro p
        rw [i3 p]
        simp
      · intro p
        rw [i4 p]
        simp
      · intro p q
        rw [i5 p q]
        simp only [add_edge_successors, List.mem_cons]
        constructor
        · rintro (h1 | ⟨h1, h2, h3⟩)
          · split_ifs at h1 with hp
            · rcases List.mem_append.mp h1 with h1 | h1
              · exact Or.inl h1
              · simp at h1
                exact Or.inr ⟨h1, Or.inl hp, hp ▸ hr⟩
            · exact Or.inl h1
          · exact Or.inr ⟨h1, Or.inr h2, h3⟩
        · rintro (h1 | ⟨h1, h2 | h2, h3⟩)
          · left
            split_ifs
            · exact List.mem_append_left _ h1
            · exact h1
          · left
            simp [h2, h1]
          · exact Or.inr ⟨h1, h2, h3⟩

theorem wire_prevs_spec (op op_lhs : Nat) (s : Schedule) :
    (s.wire_prevs op op_lhs).latest_write = s.latest_write ∧
    (s.wire_prevs op op_lhs).nops = s.nops ∧
    (∀ p, ((s.wire_prevs op op_lhs).ops p).reads = (s.ops p).reads) ∧
    (∀ p, ((s.wire_prevs op op_lhs).ops p).op = (s.ops p).op) ∧
    (∀ p q, q ∈ ((s.wire_prevs op op_lhs).ops p).successors ↔
      q ∈ (s.ops p).successors ∨
        (q = op ∧ p ≠ op ∧ ∃ prev, s.latest_write op_lhs = some prev ∧
          p ∈ (s.ops prev).reads)) := by
  unfold Schedule.wire_prevs
  cases hw : s.latest_write op_lhs with
  | none => simp
  | some prev =>
    obtain ⟨i1, i2, i3, i4, i5⟩ := wire_prev_list_spec op (s.ops prev).reads s
    refine ⟨i1, i2, i3, i4, ?_⟩
    intro p q
    rw [i5 p q]
    simp only [Option.some.injEq, exists_eq_left']
    tauto

/-- C4: after `add_operation(op)` on a recorded schedule (`op` gets the address
`s.nops`, which occurs in no successor or reader list before), with
`writer t` the latest writer of the input tensor `t`:
(a) for each input `t`, `writer t` is the writer `t` had before, or, when `t` had
no writer, a freshly synthesized `NONE` dummy that is appended to `root_tasks`
and `steps_original` and recorded as `latest_write[t]`; each `writer t` gains
`op` in its reads list, and nobody else does;
(b) the operations that gained `op` in their successors list are exactly the
`writer t` and every reader `p ≠ op` in the reads list of the previous latest
writer of the output tensor; afterwards `latest_write[output] = op`. -/
theorem add_operation_edges (partitions : Int) (calls : List Assignment) (s s1 : Schedule)
    (a : Assignment) (hrec : record partitions calls = some s)
    (hadd : s.add_operation a = some s1) :
    ∃ (op_lhs : Nat) (op_deps : List Nat) (writer : Nat → Nat),
      (TensorOperation.new a.op a.lhs a.rhs).get_outputs [] = some [op_lhs] ∧
      (TensorOperation.new a.op a.lhs a.rhs).get_inputs [] = some op_deps ∧
      (∀ p, s.nops ∉ (s.ops p).successors ∧ s.nops ∉ (s.ops p).reads) ∧
      (∀ t, t ∈ op_deps →
        (s.latest_write t = some (writer t) ∨
          (s.latest_write t = none ∧ s.nops < writer t ∧
            (s1.ops (writer t)).op = TENSOR_OP_NONE ∧
            writer t ∈ s1.root_tasks ∧ writer t ∉ s.root_tasks ∧
            writer t ∈ s1.steps_original ∧ writer t ∉ s.steps_original ∧
            (t ≠ op_lhs → s1.latest_write t = some (writer t)))) ∧
        s.nops ∈ (s1.ops (writer t)).reads) ∧
      (∀ p, s.nops ∈ (s1.ops p).reads ↔ ∃ t, t ∈ op_deps ∧ writer t = p) ∧
      (∀ p, s.nops ∈ (s1.ops p).successors ↔
        ((∃ t, t ∈ op_deps ∧ writer t = p) ∨
          (p ≠ s.nops ∧ ∃ pw, s.latest_write op_lhs = some pw ∧ p ∈ (s1.ops pw).reads))) ∧
      s1.latest_write op_lhs = some s.nops := by
  have hwf := wf_record partitions calls s hrec
  have hwf1 := wf_add_operation s s1 a hwf hadd
  obtain ⟨op_lhs, op_deps, hout, hin, hs1⟩ := add_operation_typed_eq s s1 _ hadd
  have hmid0 := mid_start s (TensorOperation.new a.op a.lhs a.rhs) hwf
    (get_inputs_kind _ [] op_deps hin) rfl rfl rfl
  generalize hs0 : ({ s.alloc (TensorOperation.new a.op a.lhs a.rhs) with
      steps_original := (s.alloc (TensorOperation.new a.op a.lhs a.rhs)).steps_original ++
        [s.nops] } : Schedule) = s0 at hs1 hmid0
  have h0succ : ∀ p, (s0.ops p).successors = (s.ops p).successors := by
    intro p
    subst hs0
    show ((s.alloc _).ops p).successors = _
    simp only [alloc_ops]
    split_ifs with hp
    · subst hp
      cases hs : (s.ops s.nops).successors with
      | nil => rfl
      | cons q qs =>
        have := (hwf.succ_lt s.nops q (by simp [hs])).1
        omega
    · rfl
  have h0reads : ∀ p, (s0.ops p).reads = (s.ops p).reads := by
    intro p
    subst hs0
    show ((s.alloc _).ops p).reads = _
    simp only [alloc_ops]
    split_ifs with hp
    · subst hp
      cases hs : (s.ops s.nops).reads with
      | nil => rfl
      | cons q qs =>
        have := (hwf.reads_lt s.nops q (by simp [hs])).1
        omega
    · rfl
  have h0lw : s0.latest_write = s.latest_write := by subst hs0; rfl
  have h0n : s0.nops = s.nops + 1 := by subst hs0; rfl
  have hfresh_succ : ∀ p, s.nops ∉ (s.ops p).successors := by
    intro p hp
    have := (hwf.succ_lt p _ hp).2
    omega
  have hfresh_reads : ∀ p, s.nops ∉ (s.ops p).reads := by
    intro p hp
    have := (hwf.reads_lt p _ hp).2
    omega
  obtain ⟨dA, dB, dC, dD, dE, dF⟩ := wire_deps_spec s.nops op_deps s0 hmid0
  have hmidm := mid_wire_deps s0 s.nops op_deps hmid0
  generalize hsm : s0.wire_deps s.nops op_deps = sm at hs1 dA dB dC dD dE dF hmidm
  obtain ⟨pA, pB, pC, pD, pE⟩ := wire_prevs_spec s.nops op_lhs sm
  generalize hs2 : sm.wire_prevs s.nops op_lhs = s2 at hs1 pA pB pC pD pE
  have h1ops : s1.ops = s2.ops := by rw [hs1]
  have h1n : s1.nops = sm.nops := by rw [hs1]; exact pB
  have h1lw : ∀ t, s1.latest_write t = if t = op_lhs then some s.nops else sm.latest_write t := by
    intro t
    rw [hs1]
    simp only [Function.update_apply, pA]
  have h1reads : ∀ p, (s1.ops p).reads = (sm.ops p).reads := by
    intro p; rw [h1ops]; exact pC p
  have h1kind : ∀ p, (s1.ops p).op = (sm.ops p).op := by
    intro p; rw [h1ops]; exact pD p
  have hwriter : ∀ t, t ∈ op_deps →
      sm.latest_write t = some ((sm.latest_write t).getD 0) := by
    intro t ht
    obtain ⟨w, hw⟩ := dC t ht
    rw [hw]
    rfl
  refine ⟨op_lhs, op_deps, fun t => (sm.latest_write t).getD 0, hout, hin,
    fun p => ⟨hfresh_succ p, hfresh_reads p⟩, ?_, ?_, ?_, ?_⟩
  · intro t ht
    have hw := hwriter t ht
    beta_reduce
    generalize (sm.latest_write t).getD 0 = w at hw ⊢
    refine ⟨?_, ?_⟩
    · rcases dB t w hw with h1 | ⟨h1, h2, _⟩
      · left
        rw [← h0lw]
        exact h1
      · right
        have hwlt : w < sm.nops := hmidm.wf.lw_lt t w hw
        have hkind : (s1.ops w).op = TENSOR_OP_NONE := by
          rw [h1kind]
          exact hmidm.later_dummy w (by omega) hwlt
        refine ⟨by rw [← h0lw]; exact h1, by omega, hkind, ?_, ?_, ?_, ?_, ?_⟩
        · exact (hwf1.root_iff w).mpr ⟨by omega, hkind⟩
        · intro hmem
          have := ((hwf.root_iff w).mp hmem).1
          omega
        · rw [hwf1.steps, List.mem_range]
          omega
        · rw [hwf.steps, List.mem_range]
          omega
        · intro hne
          rw [h1lw t, if_neg hne]
          exact hw
    · rw [h1reads, dE]
      exact Or.inr ⟨rfl, t, ht, hw⟩
  · intro p
    rw [h1reads, dE, h0reads]
    constructor
    · rintro (h1 | ⟨_, t, ht, h2⟩)
      · exact absurd h1 (hfresh_reads p)
      · refine ⟨t, ht, ?_⟩
        simp only [h2, Option.getD_some]
    · rintro ⟨t, ht, h2⟩
      refine Or.inr ⟨rfl, t, ht, ?_⟩
      rw [← h2]
      exact hwriter t ht
  · intro p
    have h1succ : (s1.ops p).successors = (s2.ops p).successors := by rw [h1ops]
    rw [h1succ, pE, dD, h0succ]
    constructor
    · rintro ((h1 | ⟨_, t, ht, h2⟩) | ⟨_, hne, prev, h2, h3⟩)
      · exact absurd h1 (hfresh_succ p)
      · left
        refine ⟨t, ht, ?_⟩
        simp only [h2, Option.getD_some]
      · right
        refine ⟨hne, ?_⟩
        rcases dB op_lhs prev h2 with h4 | ⟨h4, h5, _⟩
        · refine ⟨prev, by rw [← h0lw]; exact h4, ?_⟩
          rw [h1reads]
          exact h3
        · exfalso
          rcases (dE prev p).mp h3 with h6 | ⟨h6, _⟩
          · rw [h0reads] at h6
            have := (hwf.reads_lt prev p h6).1
            omega
          · exact hne h6
    · rintro (⟨t, ht, h2⟩ | ⟨hne, pw, h2, h3⟩)
      · left
        refine Or.inr ⟨rfl, t, ht, ?_⟩
        rw [← h2]
        exact hwriter t ht
      · right
        refine ⟨rfl, hne, pw, dA op_lhs pw (by rw [h0lw]; exact h2), ?_⟩
        rw [h1reads] at h3
        exact h3
  · rw [h1lw]
    simp

/-! ## The executor: releasing successors -/

theorem pending_in_nonneg (g : Schedule) (done : List Nat) (q : Nat) :
    0 ≤ g.pending_in done q := by
  unfold Schedule.pending_in
  apply Finset.sum_nonneg
  intro p _
  exact Int.ofNat_nonneg _

theorem pending_in_snoc (g : Schedule) (done : List Nat) (a q : Nat) (ha : a < g.nops)
    (hd : a ∉ done) :
    g.pending_in done q =
      g.pending_in (done ++ [a]) q + (((g.ops a).successors.count q : Nat) : Int) := by
  unfold Schedule.pending_in
  have hfilter : (Finset.range g.nops).filter (fun p => p ∉ done ++ [a]) =
      ((Finset.range g.nops).filter (fun p => p ∉ done)).erase a := by
    ext p
    simp only [Finset.mem_filter, Finset.mem_range, List.mem_append, List.mem_singleton,
      Finset.mem_erase, not_or]
    tauto
  have hmem : a ∈ (Finset.range g.nops).filter (fun p => p ∉ done) := by
    simp [ha, hd]
  rw [hfilter, ← Finset.sum_erase_add _ _ hmem]

theorem pending_in_eq_zero (g : Schedule) (done : List Nat) (q w : Nat)
    (h : g.pending_in done q = 0) (hw : w < g.nops) (hq : q ∈ (g.ops w).successors) :
    w ∈ done := by
  by_contra hnd
  unfold Schedule.pending_in at h
  have hz := (Finset.sum_eq_zero_iff_of_nonneg (fun p _ => Int.ofNat_nonneg _)).mp h w
    (by simp [hw, hnd])
  have hpos : 0 < (g.ops w).successors.count q := List.count_pos_iff.mpr hq
  omega

theorem release_step_spec (g s : Schedule) (done pending rest : List Nat) (q : Nat)
    (h : g.Exec s done pending (q :: rest)) (hq : q < g.nops) :
    ∃ s1, s.release_step q = some s1 ∧ g.Exec s1 done pending rest ∧
      (∀ x, x ∈ s.ready_tasks → x ∈ s1.ready_tasks) := by
  have hleft := h.left_eq q hq
  have hnn := pending_in_nonneg g done q
  simp only [List.count_cons_self, Nat.cast_add, Nat.cast_one] at hleft
  have hpos : 1 ≤ (s.ops q).dependency_left := by omega
  have hnotin : q ∉ done ++ pending ++ s.ready_tasks := by
    intro hmem
    have := (h.zero q hmem).1
    omega
  have hne : ∀ x, x ∈ done ++ pending ++ s.ready_tasks → x ≠ q := by
    intro x hx hxq
    exact hnotin (hxq ▸ hx)
  have hleft2 : ∀ x, x < g.nops →
      ((s.modify q (fun o => { o with dependency_left := (s.ops q).dependency_left - 1 })).ops
        x).dependency_left = g.pending_in done x + ((rest.count x : Nat) : Int) := by
    intro x hx
    simp only [modify_ops]
    by_cases hxq : x = q
    · subst hxq
      simp only [if_true]
      omega
    · have := h.left_eq x hx
      have hqx : q ≠ x := fun e => hxq e.symm
      have hc : List.count x (q :: rest) = List.count x rest := by
        simp [List.count_cons, hqx]
      rw [hc] at this
      simp only [hxq, if_false]
      exact this
  unfold Schedule.release_step
  simp only [show ¬ ((s.ops q).dependency_left - 1 < 0) by omega, if_false]
  by_cases hz : (s.ops q).dependency_left - 1 = 0
  · simp only [hz, if_true]
    refine ⟨_, rfl, ⟨?_, ?_, ?_, ?_, ?_, ?_, ?_⟩, ?_⟩
    · exact h.nops_eq
    · exact h.partitions_eq
    · intro p
      simp only [modify_ops]
      split_ifs with hp
      · subst hp; exact h.succ_eq p
      · exact h.succ_eq p
    · intro p
      simp only [modify_ops]
      split_ifs with hp
      · subst hp; exact h.kind_eq p
      · exact h.kind_eq p
    · show (done ++ pending ++ (s.ready_tasks ++ [q])).Nodup
      rw [← List.append_assoc]
      apply List.Nodup.append h.nodup (List.nodup_singleton _)
      intro x hx1 hx2
      simp at hx2
      exact hnotin (hx2 ▸ hx1)
    · intro x hx
      have hx2 : x ∈ done ++ pending ++ (s.ready_tasks ++ [q]) := hx
      rw [← List.append_assoc, List.mem_append] at hx2
      simp only [modify_ops]
      rcases hx2 with hx2 | hx2
      · simp only [hne x hx2, if_false]
        exact h.zero x hx2
      · simp only [List.mem_singleton] at hx2
        rw [hx2]
        simp only [if_true]
        exact ⟨trivial, hq⟩
    · intro x hx
      have := hleft2 x hx
      rw [hz] at this
      exact this
    · intro x hx
      show x ∈ s.ready_tasks ++ [q]
      exact List.mem_append_left _ hx
  · simp only [hz, if_false]
    refine ⟨_, rfl, ⟨?_, ?_, ?_, ?_, ?_, ?_, ?_⟩, ?_⟩
    · exact h.nops_eq
    · exact h.partitions_eq
    · intro p
      simp only [modify_ops]
      split_ifs with hp
      · subst hp; exact h.succ_eq p
      · exact h.succ_eq p
    · intro p
      simp only [modify_ops]
      split_ifs with hp
      · subst hp; exact h.kind_eq p
      · exact h.kind_eq p
    · exact h.nodup
    · intro x hx
      have hx2 : x ∈ done ++ pending ++ s.ready_tasks := hx
      simp only [modify_ops, hne x hx2, if_false]
      exact h.zero x hx2
    · exact hleft2
    · intro x hx
      exact hx

theorem release_list_spec (g : Schedule) (done pending : List Nat) (l : List Nat)
    (s : Schedule) (h : g.Exec s done pending l) (hl : ∀ x, x ∈ l → x < g.nops) :
    ∃ s1, s.release_list l = some s1 ∧ g.Exec s1 done pending [] ∧
      (∀ x, x ∈ s.ready_tasks → x ∈ s1.ready_tasks) := by
  induction l generalizing s with
  | nil => exact ⟨s, rfl, h, fun _ hx => hx⟩
  | cons q rest ih =>
    obtain ⟨s1, h1, h2, h3⟩ :=
      release_step_spec g s done pending rest q h (hl q (List.mem_cons_self _ _))
    obtain ⟨s2, h4, h5, h6⟩ := ih s1 h2 (fun x hx => hl x (List.mem_cons_of_mem _ hx))
    refine ⟨s2, ?_, h5, fun x hx => h6 x (h3 x hx)⟩
    simp only [Schedule.release_list, h1]
    exact h4

theorem schedule_op_successors_spec (g s : Schedule) (hg : g.WF) (done pending : List Nat)
    (a : Nat) (h : g.Exec s done (a :: pending) []) :
    ∃ s1, s.schedule_op_successors a = some s1 ∧ g.Exec s1 (done ++ [a]) pending [] ∧
      (∀ x, x ∈ s.ready_tasks → x ∈ s1.ready_tasks) := by
  have hamem : a ∈ done ++ (a :: pending) ++ s.ready_tasks := by simp
  have hz := h.zero a hamem
  have hnd : a ∉ done := by
    intro hd
    have := h.nodup
    rw [List.append_assoc] at this
    have hdis := (List.nodup_append.mp this).2.2
    exact hdis hd (by simp) 
  have hexec : g.Exec s (done ++ [a]) pending (g.ops a).successors := by
    refine ⟨h.nops_eq, h.partitions_eq, h.succ_eq, h.kind_eq, ?_, ?_, ?_⟩
    · have := h.nodup
      simpa [List.append_assoc] using this
    · intro q hq
      apply h.zero q
      simpa [List.append_assoc] using hq
    · intro q hq
      have := h.left_eq q hq
      rw [this, pending_in_snoc g done a q hz.2 hnd]
      simp
  unfold Schedule.schedule_op_successors
  simp only [hz.1, if_true, h.succ_eq a]
  exact release_list_spec g (done ++ [a]) pending _ s hexec
    (fun x hx => (hg.succ_lt a x hx).2)

theorem release_ops_spec (g : Schedule) (hg : g.WF) (pending : List Nat) (s : Schedule)
    (done : List Nat) (h : g.Exec s done pending []) :
    ∃ s1, s.release_ops pending = some s1 ∧ g.Exec s1 (done ++ pending) [] [] ∧
      (∀ x, x ∈ s.ready_tasks → x ∈ s1.ready_tasks) := by
  induction pending generalizing s done with
  | nil => exact ⟨s, rfl, by simpa using h, fun _ hx => hx⟩
  | cons a rest ih =>
    obtain ⟨s1, h1, h2, h3⟩ := schedule_op_successors_spec g s hg done rest a h
    obtain ⟨s2, h4, h5, h6⟩ := ih s1 (done ++ [a]) h2
    refine ⟨s2, ?_, by simpa [List.append_assoc] using h5, fun x hx => h6 x (h3 x hx)⟩
    simp only [Schedule.release_ops, h1]
    exact h4

/-! ## The executor: one wave -/

theorem costs_fst (s : Schedule) (l : List Nat) (tasks : List (Nat × Int))
    (h : s.costs l = some tasks) : tasks.map Prod.fst = l := by
  induction l generalizing tasks with
  | nil =>
    simp only [Schedule.costs, Option.some.injEq] at h
    subst h
    rfl
  | cons p rest ih =>
    simp only [Schedule.costs] at h
    cases hc : (s.ops p).estimate_cost with
    | none => simp [hc] at h
    | some c =>
      cases hr : s.costs rest with
      | none => simp [hc, hr] at h
      | some cs =>
        simp only [hc, hr, Option.some.injEq] at h
        subst h
        simp [ih cs hr]

theorem erase_loop_eq {α : Type} (start num : Nat) (l : List α)
    (h : start + num ≤ l.length) :
    erase_loop start num l = l.take start ++ l.drop (start + num) := by
  induction num generalizing l with
  | zero => simp [erase_loop]
  | succ n ih =>
    simp only [erase_loop]
    have hlen : (l.eraseIdx start).length = l.length - 1 := by
      rw [List.length_eraseIdx]
      simp only [show start < l.length by omega, if_true]
    rw [ih (l.eraseIdx start) (by rw [hlen]; omega), List.eraseIdx_eq_take_drop_succ]
    have h1 : (List.take start l).length = start := by
      rw [List.length_take]; omega
    rw [List.take_append_eq_append_take, List.drop_append_eq_append_drop, h1]
    simp only [List.take_take, min_self, Nat.sub_self, List.take_zero, List.append_nil,
      List.drop_drop]
    have h2 : List.drop (start + n) (List.take start l) = [] := by
      apply List.drop_eq_nil_of_le
      rw [h1]; omega
    rw [h2]
    simp only [List.nil_append, Nat.add_sub_cancel_left]
    congr 2
    omega

theorem find_window_inside (size : Nat) (mc : Int) (costs : List Int) :
    (find_window size mc costs).max_starting_task +
      (find_window size mc costs).max_num_tasks ≤ costs.length := by
  unfold find_window
  have key : ∀ (l : List Nat) (w : Window), (∀ x ∈ l, x ≤ costs.length) →
      w.max_starting_task + w.max_num_tasks ≤ costs.length →
      (l.foldl (window_step size mc costs) w).max_starting_task +
        (l.foldl (window_step size mc costs) w).max_num_tasks ≤ costs.length := by
    intro l
    induction l with
    | nil => intro w _ hw; simpa using hw
    | cons x xs ih =>
      intro w hl hw
      simp only [List.foldl_cons]
      apply ih
      · intro y hy
        exact hl y (List.mem_cons_of_mem _ hy)
      · simp only [window_step]
        split_ifs with hgt
        · have := sweep_le_length size mc (costs.drop x) 0 0 0 0 (le_refl _)
          have hx := hl x (List.mem_cons_self _ _)
          simp only [List.length_drop] at this
          simp only
          omega
        · exact hw
  apply key
  · intro x hx
    exact le_of_lt (List.mem_range.mp hx)
  · simp

theorem window_split {α : Type} (start num : Nat) (l : List α) (h : start + num ≤ l.length) :
    ((l.drop start).take num ++ erase_loop start num l).Perm l := by
  rw [erase_loop_eq start num l h]
  have h1 : l = l.take start ++ ((l.drop start).take num ++ (l.drop start).drop num) := by
    rw [List.take_append_drop, List.take_append_drop]
  have h2 : (l.drop start).drop num = l.drop (start + num) := by
    rw [List.drop_drop]
  rw [h2] at h1
  conv_rhs => rw [h1]
  exact List.perm_append_comm_assoc _ _ _

/-- One call of `partition_and_execute` from a state that satisfies the
invariant: the packaged operations come from the ready queue, and the invariant
holds again with these operations released. -/
theorem partition_and_execute_spec (g s s1 : Schedule) (hg : g.WF) (done : List Nat)
    (srt : List (Nat × Int) → List (Nat × Int)) (hsrt : ∀ l, (srt l).Perm l) (size : Nat)
    (wave : Wave) (h : g.Exec s done [] [])
    (hpe : s.partition_and_execute srt size = some (s1, wave)) :
    (∀ x, x ∈ wave.comm_ops → x ∈ s.ready_tasks) ∧ g.Exec s1 (done ++ wave.comm_ops) [] [] := by
  unfold Schedule.partition_and_execute at hpe
  cases hc : s.costs s.ready_tasks with
  | none => simp [hc] at hpe
  | some tasks =>
    simp only [hc] at hpe
    have hperm : ((srt tasks).map Prod.fst).Perm s.ready_tasks := by
      have := (hsrt tasks).map Prod.fst
      rwa [costs_fst s _ tasks hc] at this
    generalize hw : find_window size (max_colors size s.ready_tasks.length s.partitions)
      ((srt tasks).map Prod.snd) = w at hpe
    have hin : w.max_starting_task + w.max_num_tasks ≤ ((srt tasks).map Prod.fst).length := by
      have := find_window_inside size (max_colors size s.ready_tasks.length s.partitions)
        ((srt tasks).map Prod.snd)
      rw [hw] at this
      simpa using this
    have hsplit := window_split w.max_starting_task w.max_num_tasks _ hin
    generalize hW : (((srt tasks).map Prod.fst).drop w.max_starting_task).take
      w.max_num_tasks = W at hpe hsplit
    generalize hQ : erase_loop w.max_starting_task w.max_num_tasks
      ((srt tasks).map Prod.fst) = Q at hpe hsplit
    have hWQ : (W ++ Q).Perm s.ready_tasks := hsplit.trans hperm
    have hexec : g.Exec { s with ready_tasks := Q } done W [] := by
      refine ⟨h.nops_eq, h.partitions_eq, h.succ_eq, h.kind_eq, ?_, ?_, h.left_eq⟩
      · show (done ++ W ++ Q).Nodup
        have h1 : (done ++ W ++ Q).Perm (done ++ [] ++ s.ready_tasks) := by
          simp only [List.append_assoc, List.nil_append]
          exact List.Perm.append_left done hWQ
        exact h1.nodup_iff.mpr h.nodup
      · intro q hq
        have hq2 : q ∈ done ++ W ++ Q := hq
        have h1 : (done ++ W ++ Q).Perm (done ++ [] ++ s.ready_tasks) := by
          simp only [List.append_assoc, List.nil_append]
          exact List.Perm.append_left done hWQ
        have := h.zero q (h1.mem_iff.mp hq2)
        exact this
    obtain ⟨s2, hr1, hr2, _⟩ := release_ops_spec g hg W { s with ready_tasks := Q } done hexec
    simp only [hr1, Option.some.injEq, Prod.mk.injEq] at hpe
    obtain ⟨hs, hwave⟩ := hpe
    subst hs
    subst hwave
    refine ⟨?_, hr2⟩
    intro x hx
    exact hWQ.mem_iff.mp (List.mem_append_left _ hx)

/-! ## The executor: reset, pre-drain and main loop -/

theorem reset_fold_spec (l : List Nat) (s : Schedule) :
    (l.foldl (fun s p => s.modify p (fun o => { o with dependency_left := o.dependency_count }))
        s).nops = s.nops ∧
    (l.foldl (fun s p => s.modify p (fun o => { o with dependency_left := o.dependency_count }))
        s).partitions = s.partitions ∧
    (∀ p, ((l.foldl
        (fun s p => s.modify p (fun o => { o with dependency_left := o.dependency_count }))
        s).ops p).successors = (s.ops p).successors) ∧
    (∀ p, ((l.foldl
        (fun s p => s.modify p (fun o => { o with dependency_left := o.dependency_count }))
        s).ops p).op = (s.ops p).op) ∧
    (∀ p, ((l.foldl
        (fun s p => s.modify p (fun o => { o with dependency_left := o.dependency_count }))
        s).ops p).dependency_count = (s.ops p).dependency_count) ∧
    (∀ p, ((l.foldl
        (fun s p => s.modify p (fun o => { o with dependency_left := o.dependency_count }))
        s).ops p).dependency_left =
          if p ∈ l then (s.ops p).dependency_count else (s.ops p).dependency_left) := by
  induction l generalizing s with
  | nil => simp
  | cons a rest ih =>
    simp only [List.foldl_cons]
    obtain ⟨i1, i2, i3, i4, i5, i6⟩ :=
      ih (s.modify a (fun o => { o with dependency_left := o.dependency_count }))
    have hc : ∀ p, ((s.modify a
        (fun o => { o with dependency_left := o.dependency_count })).ops p).dependency_count =
          (s.ops p).dependency_count := by
      intro p
      simp only [modify_ops]
      split_ifs with hp
      · subst hp; rfl
      · rfl
    refine ⟨i1, i2, ?_, ?_, ?_, ?_⟩
    · intro p
      rw [i3 p]
      simp only [modify_ops]
      split_ifs with hp
      · subst hp; rfl
      · rfl
    · intro p
      rw [i4 p]
      simp only [modify_ops]
      split_ifs with hp
      · subst hp; rfl
      · rfl
    · intro p
      rw [i5 p, hc p]
    · intro p
      rw [i6 p, hc p]
      simp only [modify_ops, List.mem_cons]
      by_cases hmem : p ∈ rest
      · simp [hmem]
      · by_cases hpa : p = a
        · subst hpa
          simp [hmem]
        · simp [hmem, hpa]

theorem pending_in_nil (g : Schedule) (q : Nat) : g.pending_in [] q = g.in_degree q := by
  unfold Schedule.pending_in Schedule.in_degree
  simp

theorem exec_reset (g : Schedule) (hg : g.WF) : g.Exec g.reset [] [] [] := by
  obtain ⟨i1, i2, i3, i4, i5, i6⟩ := reset_fold_spec g.steps_original g
  have hleft : ∀ q, q < g.nops → (g.reset.ops q).dependency_left = g.in_degree q := by
    intro q hq
    have hmem : q ∈ g.steps_original := by
      rw [hg.steps]
      exact List.mem_range.mpr hq
    have := i6 q
    rw [if_pos hmem, hg.count_eq q hq] at this
    exact this
  refine ⟨i1, i2, i3, i4, ?_, ?_, ?_⟩
  · show ([] ++ [] ++ g.root_tasks).Nodup
    simpa using hg.root_nodup
  · intro q hq
    have hq2 : q ∈ g.root_tasks := by
      have : q ∈ [] ++ [] ++ g.root_tasks := hq
      simpa using this
    obtain ⟨hlt, hk⟩ := (hg.root_iff q).mp hq2
    refine ⟨?_, hlt⟩
    rw [hleft q hlt]
    apply in_degree_eq_zero
    intro p _ hmem
    exact hg.succ_kind p q hmem hk
  · intro q hq
    rw [hleft q hq, pending_in_nil]
    simp

theorem release_step_push_front (s : Schedule) (x q : Nat) :
    (s.push_front x).release_step q = (s.release_step q).map (fun t => t.push_front x) := by
  unfold Schedule.release_step
  by_cases h1 : (s.ops q).dependency_left - 1 < 0
  · simp [Schedule.push_front, h1]
  · by_cases h2 : (s.ops q).dependency_left - 1 = 0
    · simp [Schedule.push_front, Schedule.modify, h2]
    · simp [Schedule.push_front, Schedule.modify, h1, h2]

theorem release_list_push_front (l : List Nat) (s : Schedule) (x : Nat) :
    (s.push_front x).release_list l = (s.release_list l).map (fun t => t.push_front x) := by
  induction l generalizing s with
  | nil => rfl
  | cons q rest ih =>
    simp only [Schedule.release_list, release_step_push_front]
    cases h : s.release_step q with
    | none => rfl
    | some s1 =>
      simp only [Option.map_some']
      exact ih s1

theorem schedule_op_successors_push_front (s : Schedule) (x a : Nat) :
    (s.push_front x).schedule_op_successors a =
      (s.schedule_op_successors a).map (fun t => t.push_front x) := by
  unfold Schedule.schedule_op_successors
  have h1 : (s.push_front x).ops = s.ops := rfl
  rw [h1]
  split_ifs
  · exact release_list_push_front _ s x
  · rfl

/-- The dummy pre-drain keeps the invariant; what it pops are `NONE` dummies. -/
theorem predrain_spec (g : Schedule) (hg : g.WF) (fuel : Nat) (s : Schedule)
    (done : List Nat) (h : g.Exec s done [] []) :
    g.Exec (s.predrain fuel).1 (done ++ (s.predrain fuel).2.1) [] [] ∧
      (∀ d, d ∈ (s.predrain fuel).2.1 → (g.ops d).op = TENSOR_OP_NONE) := by
  induction fuel generalizing s done with
  | zero => exact ⟨by simpa [Schedule.predrain] using h, by simp [Schedule.predrain]⟩
  | succ n ih =>
    unfold Schedule.predrain
    cases hq : s.ready_tasks with
    | nil => exact ⟨by simpa using h, by simp⟩
    | cons front rest =>
      simp only
      by_cases hd : (s.ops front).is_dummy = true
      · simp only [hd, if_true]
        have hs : s = Schedule.push_front { s with ready_tasks := rest } front := by
          cases s
          simp only [Schedule.push_front] at hq ⊢
          simp [hq]
        have hexec : g.Exec { s with ready_tasks := rest } done [front] [] := by
          refine ⟨h.nops_eq, h.partitions_eq, h.succ_eq, h.kind_eq, ?_, ?_, h.left_eq⟩
          · have := h.nodup
            rw [hq] at this
            simpa [List.append_assoc] using this
          · intro q hq2
            apply h.zero q
            rw [hq]
            simpa [List.append_assoc] using hq2
        obtain ⟨s1, h1, h2, _⟩ :=
          schedule_op_successors_spec g _ hg done [] front hexec
        have h3 : s.schedule_op_successors front = some (s1.push_front front) := by
          conv_lhs => rw [hs]
          rw [schedule_op_successors_push_front, h1]
          rfl
        simp only [h3]
        have h4 : ({ s1.push_front front with
            ready_tasks := (s1.push_front front).ready_tasks.tail } : Schedule) = s1 := by
          cases s1
          rfl
        rw [h4]
        obtain ⟨i1, i2⟩ := ih s1 (done ++ [front]) h2
        refine ⟨by simpa [List.append_assoc] using i1, ?_⟩
        intro d hd2
        rcases List.mem_cons.mp hd2 with rfl | hd2
        · rw [← h.kind_eq]
          simpa [TensorOperation.is_dummy] using hd
        · exact i2 d hd2
      · simp only [hd]
        exact ⟨by simpa using h, by simp⟩

/-- In the main loop every packaged operation has all its predecessors among
the operations released before its wave. -/
theorem main_loop_spec (g : Schedule) (hg : g.WF)
    (srt : List (Nat × Int) → List (Nat × Int)) (hsrt : ∀ l, (srt l).Perm l) (size : Nat)
    (fuel : Nat) (s : Schedule) (done : List Nat) (h : g.Exec s done [] [])
    (j : Nat) (wave : Wave) (hj : (s.main_loop srt size fuel).2.1[j]? = some wave)
    (r w : Nat) (hr : r ∈ wave.comm_ops) (hw : r ∈ (g.ops w).successors) :
    w ∈ done ∨ ∃ i wv, i < j ∧ (s.main_loop srt size fuel).2.1[i]? = some wv ∧
      w ∈ wv.comm_ops := by
  induction fuel generalizing s done j with
  | zero => simp [Schedule.main_loop] at hj
  | succ n ih =>
    unfold Schedule.main_loop at hj ⊢
    by_cases he : s.ready_tasks = []
    · simp [he] at hj
    · simp only [he, if_false] at hj ⊢
      cases hpe : s.partition_and_execute srt size with
      | none => simp [hpe] at hj
      | some res =>
        obtain ⟨s1, wave0⟩ := res
        simp only [hpe] at hj ⊢
        obtain ⟨hsub, hexec⟩ := partition_and_execute_spec g s s1 hg done srt hsrt size wave0 h hpe
        cases j with
        | zero =>
          simp only [List.getElem?_cons_zero, Option.some.injEq] at hj
          subst hj
          left
          have hmem : r ∈ done ++ [] ++ s.ready_tasks := by
            simp only [List.append_nil]
            exact List.mem_append_right _ (hsub r hr)
          obtain ⟨hz, hlt⟩ := h.zero r hmem
          have hl := h.left_eq r hlt
          rw [hz] at hl
          simp only [List.count_nil, Nat.cast_zero, add_zero] at hl
          exact pending_in_eq_zero g done r w hl.symm (hg.succ_lt w r hw).1 hw
        | succ j2 =>
          simp only [List.getElem?_cons_succ] at hj
          rcases ih s1 (done ++ wave0.comm_ops) hexec j2 hj with h1 | ⟨i, wv, h1, h2, h3⟩
          · rcases List.mem_append.mp h1 with h1 | h1
            · exact Or.inl h1
            · exact Or.inr ⟨0, wave0, Nat.succ_pos _, by simp, h1⟩
          · exact Or.inr ⟨i + 1, wv, by omega, by simpa using h2, h3⟩

/-! ## Statements about `execute` -/

theorem sortDesc_perm (l : List (Nat × Int)) : (sortDesc l).Perm l :=
  List.perm_insertionSort _ l

/-- C2: for a schedule built by `add_operation` and an edge `(w, r)`, that is
`r ∈ w.successors`: whenever `execute` (on any communicator size, with any
implementation of the sort, after any number of loop iterations) selects `r`
into wave `j`, then `w` is a `NONE` dummy released in the pre-drain or was
selected in a strictly earlier wave `i < j`. -/
theorem successor_selected_after_predecessor (partitions : Int) (calls : List Assignment)
    (s : Schedule) (hrec : record partitions calls = some s)
    (srt : List (Nat × Int) → List (Nat × Int)) (hsrt : ∀ l, (srt l).Perm l)
    (size fuel : Nat) (w r j : Nat) (wave : Wave)
    (hedge : r ∈ (s.ops w).successors)
    (hj : (s.execute srt size fuel).waves[j]? = some wave) (hr : r ∈ wave.comm_ops) :
    ((s.ops w).op = TENSOR_OP_NONE ∧ w ∈ (s.execute srt size fuel).predrained) ∨
      ∃ i wv, i < j ∧ (s.execute srt size fuel).waves[i]? = some wv ∧ w ∈ wv.comm_ops := by
  have hg := wf_record partitions calls s hrec
  obtain ⟨hexec, hdummy⟩ := predrain_spec s hg fuel s.reset [] (exec_reset s hg)
  unfold Schedule.execute at hj ⊢
  cases hst : (s.reset.predrain fuel).2.2 with
  | finished =>
    simp only [hst] at hj ⊢
    rcases main_loop_spec s hg srt hsrt size fuel _ _ hexec j wave hj r w hr hedge with
      h1 | h1
    · left
      simp only [List.nil_append] at h1
      exact ⟨hdummy w h1, h1⟩
    · exact Or.inr h1
  | aborted => simp [hst] at hj
  | out_of_fuel => simp [hst] at hj

/-- C2, witness: in the record `A = B; C += A`, run on four processes, `C += A`
(address 2) is a successor of `A = B` (address 0) and is selected in wave 1. -/
theorem successor_selected_after_predecessor_witness :
    record 0 chain_calls = some chain_schedule ∧ (∀ l, (sortDesc l).Perm l) ∧
      2 ∈ (chain_schedule.ops 0).successors ∧
      (chain_schedule.execute sortDesc 4 10).waves[1]? = some chain_wave ∧
      2 ∈ chain_wave.comm_ops ∧
      (((chain_schedule.ops 0).op = TENSOR_OP_NONE ∧
          0 ∈ (chain_schedule.execute sortDesc 4 10).predrained) ∨
        ∃ i wv, i < 1 ∧ (chain_schedule.execute sortDesc 4 10).waves[i]? = some wv ∧
          0 ∈ wv.comm_ops) :=
  ⟨rfl, sortDesc_perm, by decide, rfl, by decide,
    successor_selected_after_predecessor 0 chain_calls chain_schedule rfl sortDesc
      sortDesc_perm 4 10 0 2 1 chain_wave (by decide) rfl (by decide)⟩

/-- C1, the code at the failing input: the record `A = B; A = C` (tensors 0, 1,
2 holding the values 0, 1, 2; `A = C` estimated as the more expensive), executed
on a world of size 1 with `partitions = 1`.  Both writes of `A` are ready after
the pre-drain; the first wave selects `A = C` (address 2), the second `A = B`
(address 0), and `A` ends with the value of `B`, whereas executing the
operations in record order leaves the value of `C` in `A`. -/
theorem serial_execute_reorders_writes :
    (record 1 overwrite_calls).bind
        (fun s => ((s.run_waves (s.execute sortDesc 1 10).waves (fun t => (t : Int))).map
          (fun σ => ((s.execute sortDesc 1 10).status,
            (s.execute sortDesc 1 10).waves.map (fun wv => wv.comm_ops), σ 0)))) =
      some (Status.finished, [[2], [0]], 1) ∧
    (record 1 overwrite_calls).bind
        (fun s => (s.run_serial (fun t => (t : Int))).map (fun σ => σ 0)) = some 2 := by
  constructor <;> decide

/-- C3, the code at the failing input: in the record `A = 7; C = B` the
operation `A = 7` (address 0, kind `SET`) has no dependency, is never put into
`root_tasks`, and `execute` returns with an empty ready queue after the single
wave `C = B` (address 1) without having selected it. -/
theorem operation_without_inputs_never_selected :
    (record 0 constant_calls).map
        (fun s => (s.steps_original, (s.ops 0).is_dummy, s.root_tasks)) =
      some ([0, 1, 2], false, [2]) ∧
    (record 0 constant_calls).map
        (fun s => ((s.execute sortDesc 4 10).predrained,
          (s.execute sortDesc 4 10).waves.map (fun wv => wv.comm_ops))) =
      some ([2], [[1]]) ∧
    (record 0 constant_calls).map
        (fun s => ((s.execute sortDesc 4 10).final.ready_tasks,
          (s.execute sortDesc 4 10).status)) =
      some ([], Status.finished) := by
  refine ⟨by decide, by decide, by decide⟩

/-- C9, the code at the failing input: in the record `A = 7; C = B`, when the
first wave starts (after the pre-drain) the ready queue is `[1]`, although the
operation `A = 7` (address 0, not a dummy, not pre-drained, not executed) has
`dependency_left == 0`. -/
theorem ready_queue_misses_operation_without_inputs :
    (record 0 constant_calls).map
        (fun s => ((s.reset.predrain 10).2.2, (s.reset.predrain 10).2.1,
          (s.reset.predrain 10).1.ready_tasks)) =
      some (Status.finished, [2], [1]) ∧
    (record 0 constant_calls).map
        (fun s => (((s.reset.predrain 10).1.ops 0).dependency_left,
          ((s.reset.predrain 10).1.ops 0).is_dummy)) =
      some (0, false) ∧
    (record 0 constant_calls).bind
        (fun s => ((s.reset.predrain 10).1.partition_and_execute sortDesc 4).map
          (fun r => r.2.comm_ops)) =
      some [1] := by
  refine ⟨by decide, by decide, by decide⟩

/-- C8, the code at the failing input: two tasks of cost `2^32` on two
processes.  The window holds both tasks, its cost `2^33` is stored in the `int`
variable `max_cost` as 0, so process 1 samples the point 0 and gets colour 0,
whereas the least index `j` with `strip_mid - (c_0 + ... + c_(j-1)) < c_j` for
`strip_mid = (S/P) * rank + S/(2P) = 2^32 + 2^31` is 1. -/
theorem my_color_narrowed_window_cost :
    find_window 2 (max_colors 2 2 0) [2 ^ 32, 2 ^ 32] =
      { max_starting_task := 0, max_num_tasks := 2, max_cost := 0 } ∧
    my_color 2 1 (find_window 2 (max_colors 2 2 0) [2 ^ 32, 2 ^ 32]).max_cost
      [2 ^ 32, 2 ^ 32] = 0 ∧
    spec_color 2 1 [2 ^ 32, 2 ^ 32] = 1 := by
  refine ⟨by decide, by decide, by decide⟩

/-- C4, witness: recording `A = B` after `B = A`; the new operation reads `B`,
written by `B = A`, and overwrites `A`, which `B = A` reads. -/
theorem add_operation_edges_witness :
    record 0 [assign TENSOR_OP_SET 1 [0] 1] = some swap_first ∧
    swap_first.add_operation (assign TENSOR_OP_SET 0 [1] 1) = some swap_second ∧
    (∃ (op_lhs : Nat) (op_deps : List Nat) (writer : Nat → Nat),
      (TensorOperation.new (assign TENSOR_OP_SET 0 [1] 1).op (assign TENSOR_OP_SET 0 [1] 1).lhs
        (assign TENSOR_OP_SET 0 [1] 1).rhs).get_outputs [] = some [op_lhs] ∧
      (TensorOperation.new (assign TENSOR_OP_SET 0 [1] 1).op (assign TENSOR_OP_SET 0 [1] 1).lhs
        (assign TENSOR_OP_SET 0 [1] 1).rhs).get_inputs [] = some op_deps ∧
      (∀ p, swap_first.nops ∉ (swap_first.ops p).successors ∧ swap_first.nops ∉ (swap_first.ops p).reads) ∧
      (∀ t, t ∈ op_deps →
        (swap_first.latest_write t = some (writer t) ∨
          (swap_first.latest_write t = none ∧ swap_first.nops < writer t ∧
            (swap_second.ops (writer t)).op = TENSOR_OP_NONE ∧
            writer t ∈ swap_second.root_tasks ∧ writer t ∉ swap_first.root_tasks ∧
            writer t ∈ swap_second.steps_original ∧ writer t ∉ swap_first.steps_original ∧
            (t ≠ op_lhs → swap_second.latest_write t = some (writer t)))) ∧
        swap_first.nops ∈ (swap_second.ops (writer t)).reads) ∧
      (∀ p, swap_first.nops ∈ (swap_second.ops p).reads ↔ ∃ t, t ∈ op_deps ∧ writer t = p) ∧
      (∀ p, swap_first.nops ∈ (swap_second.ops p).successors ↔
        ((∃ t, t ∈ op_deps ∧ writer t = p) ∨
          (p ≠ swap_first.nops ∧ ∃ pw, swap_first.latest_write op_lhs = some pw ∧ p ∈ (swap_second.ops pw).reads))) ∧
      swap_second.latest_write op_lhs = some swap_first.nops) :=
  ⟨rfl, rfl, add_operation_edges 0 [assign TENSOR_OP_SET 1 [0] 1] swap_first swap_second
    (assign TENSOR_OP_SET 0 [1] 1) rfl rfl⟩

/-! ## The colour of a process when the window cost fits in an `int` -/

theorem wrap32_of_range (x : Int) (h0 : 0 ≤ x) (h1 : x < 2 ^ 31) : wrap32 x = x := by
  unfold wrap32
  have h2 : (x + 2 ^ 31) % 2 ^ 32 = x + 2 ^ 31 := by
    apply Int.emod_eq_of_lt
    · omega
    · omega
  rw [h2]
  omega

theorem color_loop_eq_find (l : List Int) (i : Nat) (csp : Int) (mc : Nat)
    (hl : ∀ c, c ∈ l → 0 ≤ c) (h0 : 0 ≤ csp) (h1 : csp < 2 ^ 31) :
    color_loop l i csp mc =
      match (List.range l.length).find?
          (fun j => decide (csp - (l.take j).sum < l.getD j 0)) with
      | some j => i + j
      | none => if l = [] then mc else i + (l.length - 1) := by
  induction l generalizing i csp mc with
  | nil => simp [color_loop]
  | cons c cs ih =>
    have hc : 0 ≤ c := hl c (List.mem_cons_self _ _)
    simp only [color_loop, List.length_cons, List.range_succ_eq_map, List.find?_cons]
    by_cases hlt : csp < c
    · simp [hlt]
    · have hlt2 : c ≤ csp := not_lt.mp hlt
      simp only [hlt, if_false, List.take_zero, List.sum_nil, sub_zero, List.getD_cons_zero,
        decide_False]
      rw [wrap32_of_range (csp - c) (by omega) (by omega),
        ih (i + 1) (csp - c) i (fun x hx => hl x (List.mem_cons_of_mem _ hx)) (by omega)
          (by omega), List.find?_map]
      have hfun : ((fun j => decide (csp - (List.take j (c :: cs)).sum < (c :: cs).getD j 0)) ∘
          Nat.succ) = (fun j => decide (csp - c - (List.take j cs).sum < cs.getD j 0)) := by
        funext j
        simp only [Function.comp, List.take_succ_cons, List.sum_cons, List.getD_cons_succ]
        congr 1
        apply propext
        constructor <;> intro h <;> omega
      rw [hfun]
      cases hf : (List.range cs.length).find?
          (fun j => decide (csp - c - (List.take j cs).sum < cs.getD j 0)) with
      | some j =>
        simp only [Option.map_some', Nat.succ_eq_add_one]
        ring
      | none =>
        simp only [Option.map_none']
        cases cs with
        | nil => simp
        | cons d ds => simp; omega

/-- When the window cost `S` fits in an `int` and the costs are not negative,
the colour computed by the code is the colour of the specification. -/
theorem my_color_eq_spec_color (size rank : Nat) (costs : List Int)
    (hP : 1 ≤ size) (hr : rank < size) (hl : ∀ c, c ∈ costs → 0 ≤ c)
    (hS : costs.sum < 2 ^ 31) :
    my_color size rank (wrap32 costs.sum) costs = spec_color size rank costs := by
  have hS0 : 0 ≤ costs.sum := List.sum_nonneg hl
  have hsz : (0 : Int) < (size : Int) := by exact_mod_cast hP
  unfold my_color spec_color
  simp only
  rw [wrap32_of_range costs.sum hS0 hS]
  have hq0 : 0 ≤ costs.sum / (size : Int) := Int.ediv_nonneg hS0 (le_of_lt hsz)
  have hd1 : costs.sum.tdiv (size : Int) = costs.sum / (size : Int) :=
    Int.tdiv_eq_ediv hS0 (le_of_lt hsz)
  have hd2 : (costs.sum / (size : Int)).tdiv 2 = costs.sum / (size : Int) / 2 :=
    Int.tdiv_eq_ediv hq0 (by omega)
  have hd3 : costs.sum.tdiv (2 * (size : Int)) = costs.sum / (size : Int) / 2 := by
    rw [Int.tdiv_eq_ediv hS0 (by omega)]
    obtain ⟨n, hn⟩ := Int.eq_ofNat_of_zero_le hS0
    rw [hn]
    have h2 : (2 * (size : Int)) = ((size * 2 : Nat) : Int) := by push_cast; ring
    rw [h2]
    norm_cast
    rw [Nat.div_div_eq_div_mul]
  rw [hd1, hd2, hd3]
  have hmul : costs.sum / (size : Int) * (size : Int) ≤ costs.sum :=
    Int.ediv_mul_le _ (ne_of_gt hsz)
  have hrank : costs.sum / (size : Int) * (rank : Int) + costs.sum / (size : Int) ≤
      costs.sum / (size : Int) * (size : Int) := by
    have hr2 : (rank : Int) + 1 ≤ (size : Int) := by exact_mod_cast hr
    have := mul_le_mul_of_nonneg_left hr2 hq0
    linarith
  have hhalf : costs.sum / (size : Int) / 2 ≤ costs.sum / (size : Int) := by omega
  have hhalf0 : 0 ≤ costs.sum / (size : Int) / 2 := by omega
  have hr0 : 0 ≤ costs.sum / (size : Int) * (rank : Int) :=
    mul_nonneg hq0 (Int.ofNat_nonneg _)
  generalize hcsp : costs.sum / (size : Int) * (rank : Int) + costs.sum / (size : Int) / 2 = csp
  have hc0 : 0 ≤ csp := by omega
  have hc1 : csp < 2 ^ 31 := by omega
  rw [wrap32_of_range csp hc0 hc1, color_loop_eq_find costs 0 csp 0 hl hc0 hc1]
  cases hf : (List.range costs.length).find?
      (fun j => decide (csp - (List.take j costs).sum < costs.getD j 0)) with
  | some j => simp
  | none =>
    cases costs with
    | nil => simp
    | cons d ds => simp

/-- The two scenarios of the specification: costs {300, 100} and {100, 100} on
four processes. -/
theorem my_color_scenarios :
    find_window 4 (max_colors 4 2 0) [300, 100] =
      { max_starting_task := 0, max_num_tasks := 2, max_cost := 400 } ∧
    (List.range 4).map (fun rank => my_color 4 rank 400 [300, 100]) = [0, 0, 0, 1] ∧
    (List.range 4).map (fun rank => spec_color 4 rank [300, 100]) = [0, 0, 0, 1] ∧
    find_window 4 (max_colors 4 2 0) [100, 100] =
      { max_starting_task := 0, max_num_tasks := 2, max_cost := 200 } ∧
    (List.range 4).map (fun rank => my_color 4 rank 200 [100, 100]) = [0, 0, 1, 1] ∧
    (List.range 4).map (fun rank => spec_color 4 rank [100, 100]) = [0, 0, 1, 1] := by
  refine ⟨by decide, by decide, by decide, by decide, by decide, by decide⟩

/-! ## The erasures of a wave and the range of the colour -/

/-- C18: with the cost-sorted ready queue `sorted` (operations paired with
their costs) and the window the partitioner chooses for it, the
`max_num_tasks` erasures at the constant index `max_starting_task` leave the
queue without its positions `[max_starting_task, max_starting_task +
max_num_tasks)`: what is cut out is exactly the list packaged into `comm_ops`,
and the operations before and behind it stay, in unchanged order. -/
theorem erasures_remove_window (size : Nat) (mc : Int) (sorted : List (Nat × Int)) :
    erase_loop (find_window size mc (sorted.map Prod.snd)).max_starting_task
        (find_window size mc (sorted.map Prod.snd)).max_num_tasks (sorted.map Prod.fst) =
      (sorted.map Prod.fst).take (find_window size mc (sorted.map Prod.snd)).max_starting_task ++
        (sorted.map Prod.fst).drop
          ((find_window size mc (sorted.map Prod.snd)).max_starting_task +
            (find_window size mc (sorted.map Prod.snd)).max_num_tasks) ∧
    sorted.map Prod.fst =
      (sorted.map Prod.fst).take (find_window size mc (sorted.map Prod.snd)).max_starting_task ++
        (((sorted.map Prod.fst).drop
            (find_window size mc (sorted.map Prod.snd)).max_starting_task).take
          (find_window size mc (sorted.map Prod.snd)).max_num_tasks ++
        (sorted.map Prod.fst).drop
          ((find_window size mc (sorted.map Prod.snd)).max_starting_task +
            (find_window size mc (sorted.map Prod.snd)).max_num_tasks)) ∧
    (((sorted.map Prod.fst).drop
        (find_window size mc (sorted.map Prod.snd)).max_starting_task).take
      (find_window size mc (sorted.map Prod.snd)).max_num_tasks).length =
        (find_window size mc (sorted.map Prod.snd)).max_num_tasks := by
  have hin := find_window_inside size mc (sorted.map Prod.snd)
  generalize find_window size mc (sorted.map Prod.snd) = w at hin
  have hlen : w.max_starting_task + w.max_num_tasks ≤ (sorted.map Prod.fst).length := by
    simpa using hin
  generalize sorted.map Prod.fst = ready at hlen
  refine ⟨erase_loop_eq _ _ ready hlen, ?_, ?_⟩
  · have h1 : ready = ready.take w.max_starting_task ++
        ((ready.drop w.max_starting_task).take w.max_num_tasks ++
          (ready.drop w.max_starting_task).drop w.max_num_tasks) := by
      rw [List.take_append_drop, List.take_append_drop]
    rw [List.drop_drop] at h1
    exact h1
  · rw [List.length_take, List.length_drop]
    omega

theorem color_loop_bounds (l : List Int) (i : Nat) (csp : Int) (mc : Nat) (hl : l ≠ []) :
    i ≤ color_loop l i csp mc ∧ color_loop l i csp mc < i + l.length := by
  induction l generalizing i csp mc with
  | nil => exact absurd rfl hl
  | cons c cs ih =>
    simp only [color_loop, List.length_cons]
    split_ifs with h
    · omega
    · cases cs with
      | nil => simp [color_loop]
      | cons d ds =>
        have := ih (i + 1) (wrap32 (csp - c)) i (by simp)
        simp only [List.length_cons] at this ⊢
        omega

theorem color_loop_beyond (l : List Int) (i : Nat) (csp : Int) (mc : Nat)
    (hl : ∀ c, c ∈ l → 0 ≤ c) (h0 : l.sum ≤ csp) (h1 : csp < 2 ^ 31) :
    color_loop l i csp mc = if l = [] then mc else i + (l.length - 1) := by
  induction l generalizing i csp mc with
  | nil => simp [color_loop]
  | cons c cs ih =>
    have hc : 0 ≤ c := hl c (List.mem_cons_self _ _)
    have hcs : 0 ≤ cs.sum := List.sum_nonneg (fun x hx => hl x (List.mem_cons_of_mem _ hx))
    simp only [List.sum_cons] at h0
    simp only [color_loop, show ¬ csp < c by omega, if_false]
    rw [wrap32_of_range (csp - c) (by omega) (by omega),
      ih (i + 1) (csp - c) i (fun x hx => hl x (List.mem_cons_of_mem _ hx)) (by omega) (by omega)]
    cases cs with
    | nil => simp
    | cons d ds => simp; omega

theorem tdiv_le_self_of_pos (c : Int) (size : Nat) (hc : 0 ≤ c) : c.tdiv (size : Int) ≤ c := by
  rw [Int.tdiv_eq_ediv hc (Int.ofNat_nonneg _)]
  exact Int.ediv_le_self _ hc

theorem find_window_single (size : Nat) (mc : Int) (c : Int) (hc : 0 < c) :
    find_window size mc [c] =
      { max_starting_task := 0, max_num_tasks := 1, max_cost := wrap32 c } := by
  have hg : ¬ c < c.tdiv (size : Int) := not_lt.mpr (tdiv_le_self_of_pos c size (le_of_lt hc))
  have hr1 : List.range 1 = [0] := rfl
  simp only [find_window, List.length_singleton, hr1, List.foldl_cons,
    List.foldl_nil, window_step, List.drop_zero, sweep, true_or, if_true, add_zero, hg,
    if_false, zero_add]
  split_ifs <;> simp_all

/-- C17: for a chosen window of `n ≥ 1` tasks with costs `window_costs`, every
`P ≥ 1` and every rank in `[0, P)`, the computed `my_color` is below `n` (so
`comm_ops[my_color]` is a valid index); a sample point that is not below the
total of the (non-negative) costs yields `n - 1`; and when a single task (of
positive cost `c`, as `estimate_cost` asserts) is ready, `max_num_tasks == 1`
and every rank gets `my_color == 0`. -/
theorem my_color_in_range (size rank : Nat) (max_cost : Int) (window_costs : List Int)
    (hn : window_costs ≠ []) (_hP : 1 ≤ size) (_hr : rank < size) :
    my_color size rank max_cost window_costs < window_costs.length ∧
    (∀ csp : Int, (∀ c, c ∈ window_costs → 0 ≤ c) → window_costs.sum ≤ csp → csp < 2 ^ 31 →
      color_loop window_costs 0 csp 0 = window_costs.length - 1) ∧
    (∀ (c partitions : Int), 0 < c →
      (find_window size (max_colors size 1 partitions) [c]).max_starting_task = 0 ∧
      (find_window size (max_colors size 1 partitions) [c]).max_num_tasks = 1 ∧
      my_color size rank (find_window size (max_colors size 1 partitions) [c]).max_cost
        [c] = 0) := by
  refine ⟨?_, ?_, ?_⟩
  · have := (color_loop_bounds window_costs 0
      (wrap32 ((max_cost.tdiv (size : Int)) * (rank : Int) +
        (max_cost.tdiv (size : Int)).tdiv 2)) 0 hn).2
    simpa [my_color] using this
  · intro csp hl h0 h1
    rw [color_loop_beyond window_costs 0 csp 0 hl h0 h1]
    simp [hn]
  · intro c partitions hc
    rw [find_window_single size _ c hc]
    refine ⟨rfl, rfl, ?_⟩
    have := color_loop_bounds [c] 0
      (wrap32 (((wrap32 c).tdiv (size : Int)) * (rank : Int) +
        ((wrap32 c).tdiv (size : Int)).tdiv 2)) 0 (by simp)
    simp only [List.length_singleton, zero_add] at this
    exact Nat.lt_one_iff.mp this.2

/-- C17, witness: the window {300, 100} on four processes, rank 3. -/
theorem my_color_in_range_witness :
    (([300, 100] : List Int) ≠ [] ∧ 1 ≤ 4 ∧ 3 < 4) ∧
    (my_color 4 3 400 [300, 100] < ([300, 100] : List Int).length ∧
    (∀ csp : Int, (∀ c, c ∈ ([300, 100] : List Int) → 0 ≤ c) →
      ([300, 100] : List Int).sum ≤ csp → csp < 2 ^ 31 →
      color_loop [300, 100] 0 csp 0 = ([300, 100] : List Int).length - 1) ∧
    (∀ (c partitions : Int), 0 < c →
      (find_window 4 (max_colors 4 1 partitions) [c]).max_starting_task = 0 ∧
      (find_window 4 (max_colors 4 1 partitions) [c]).max_num_tasks = 1 ∧
      my_color 4 3 (find_window 4 (max_colors 4 1 partitions) [c]).max_cost [c] = 0)) :=
  ⟨⟨by decide, by decide, by decide⟩,
    my_color_in_range 4 3 400 [300, 100] (by decide) (by decide) (by decide)⟩

/-! ## The imbalance gate -/

theorem sweep_spec (size : Nat) (mc : Int) (l : List Int) (hpos : ∀ c, c ∈ l → 0 < c)
    (pre : List Int) (k : Nat) (sum mn : Int) (nt : Nat)
    (hk : pre.length = k) (hnt : nt = k) (hsum : sum = pre.sum)
    (hmn0 : mn = 0 → pre = []) (hmn : ∀ x, x ∈ pre → mn ≤ x) :
    k ≤ (sweep size mc l k sum mn nt).1 ∧
    (sweep size mc l k sum mn nt).1 ≤ k + l.length ∧
    (sweep size mc l k sum mn nt).2 = ((pre ++ l).take (sweep size mc l k sum mn nt).1).sum ∧
    (∀ m, k < m → m ≤ (sweep size mc l k sum mn nt).1 →
      ∀ x, x ∈ (pre ++ l).take m → ((pre ++ l).take m).sum.tdiv (size : Int) ≤ x) := by
  induction l generalizing pre k sum mn nt with
  | nil =>
    simp only [sweep, List.append_nil, List.length_nil, add_zero]
    refine ⟨by omega, by omega, ?_, ?_⟩
    · rw [hnt, ← hk, List.take_length, hsum]
    · intro m h1 h2
      omega
  | cons c cs ih =>
    have hc : 0 < c := hpos c (List.mem_cons_self _ _)
    simp only [sweep, List.length_cons]
    generalize hmn1 : (if mn = 0 ∨ c < mn then c else mn) = mn1
    have hmn1_ne : mn1 ≠ 0 := by
      rw [← hmn1]
      split_ifs with h
      · omega
      · intro h0
        exact h (Or.inl h0)
    have hmn1_le : ∀ x, x ∈ pre ++ [c] → mn1 ≤ x := by
      intro x hx
      rw [← hmn1]
      rcases List.mem_append.mp hx with hx | hx
      · split_ifs with h
        · rcases h with h | h
          · rw [hmn0 h] at hx
            exact absurd hx (List.not_mem_nil _)
          · exact le_of_lt (lt_of_lt_of_le h (hmn x hx))
        · exact hmn x hx
      · simp only [List.mem_singleton] at hx
        subst hx
        split_ifs with h
        · exact le_refl _
        · push_neg at h
          exact h.2
    have htake1 : (pre ++ c :: cs).take (k + 1) = pre ++ [c] := by
      rw [← hk, List.take_append_eq_append_take]
      simp
    by_cases hg : mn1 < (c + sum).tdiv (size : Int)
    · simp only [hg, if_true]
      refine ⟨by omega, by omega, ?_, ?_⟩
      · have : (pre ++ c :: cs).take nt = pre := by
          rw [hnt, ← hk]
          simp
        rw [this, hsum]
      · intro m h1 h2
        omega
    · have hgate : ∀ x, x ∈ pre ++ [c] → (pre ++ [c]).sum.tdiv (size : Int) ≤ x := by
        intro x hx
        have h1 := hmn1_le x hx
        have h2 : (pre ++ [c]).sum = c + sum := by
          rw [List.sum_append, hsum]
          simp [add_comm]
        rw [h2]
        omega
      by_cases hstop : ((k + 1 : Nat) : Int) ≥ mc
      · simp only [hg, hstop, if_true, if_false]
        refine ⟨by omega, by omega, ?_, ?_⟩
        · rw [htake1, List.sum_append, hsum]
          simp
        · intro m h1 h2
          have hm : m = k + 1 := by omega
          subst hm
          rw [htake1]
          exact hgate
      · simp only [hg, hstop, if_false]
        have happ : pre ++ c :: cs = (pre ++ [c]) ++ cs := by simp
        obtain ⟨i1, i2, i3, i4⟩ := ih (fun x hx => hpos x (List.mem_cons_of_mem _ hx))
          (pre ++ [c]) (k + 1) (sum + c) mn1 (k + 1) (by simp [hk]) rfl
          (by rw [List.sum_append, hsum]; simp)
          (fun h0 => absurd h0 hmn1_ne) hmn1_le
        rw [happ]
        refine ⟨by omega, by omega, i3, ?_⟩
        intro m h1 h2
        by_cases hm : m = k + 1
        · subst hm
          rw [← happ, htake1]
          exact hgate
        · exact i4 m (by omega) h2

/-- An induction principle for the outer loop of the window search. -/
theorem find_window_induct (size : Nat) (mc : Int) (costs : List Int) (P : Window → Prop)
    (h0 : P { max_starting_task := 0, max_num_tasks := 0, max_cost := 0 })
    (hstep : ∀ w st, st < costs.length → P w → P (window_step size mc costs w st)) :
    P (find_window size mc costs) := by
  unfold find_window
  have key : ∀ (l : List Nat) (w : Window), (∀ x ∈ l, x < costs.length) → P w →
      P (l.foldl (window_step size mc costs) w) := by
    intro l
    induction l with
    | nil => intro w _ hw; simpa using hw
    | cons x xs ih =>
      intro w hl hw
      simp only [List.foldl_cons]
      exact ih _ (fun y hy => hl y (List.mem_cons_of_mem _ hy))
        (hstep w x (hl x (List.mem_cons_self _ _)) hw)
  exact key _ _ (fun x hx => List.mem_range.mp hx) h0

/-- What the window search retains: the window lies in the queue, `max_cost` is
the narrowed sum of its costs, and every prefix of it passed the imbalance
gate. -/
theorem find_window_spec (size : Nat) (mc : Int) (costs : List Int)
    (hpos : ∀ c, c ∈ costs → 0 < c) :
    (find_window size mc costs).max_starting_task +
        (find_window size mc costs).max_num_tasks ≤ costs.length ∧
    (find_window size mc costs).max_cost =
        wrap32 (window_costs costs (find_window size mc costs)).sum ∧
    (∀ m, 1 ≤ m → m ≤ (find_window size mc costs).max_num_tasks →
      ∀ x, x ∈ (costs.drop (find_window size mc costs).max_starting_task).take m →
        ((costs.drop (find_window size mc costs).max_starting_task).take m).sum.tdiv
          (size : Int) ≤ x) := by
  apply find_window_induct size mc costs
    (fun w => w.max_starting_task + w.max_num_tasks ≤ costs.length ∧
      w.max_cost = wrap32 (window_costs costs w).sum ∧
      (∀ m, 1 ≤ m → m ≤ w.max_num_tasks →
        ∀ x, x ∈ (costs.drop w.max_starting_task).take m →
          ((costs.drop w.max_starting_task).take m).sum.tdiv (size : Int) ≤ x))
  · refine ⟨by simp, by simp [window_costs, wrap32], ?_⟩
    intro m h1 h2
    simp only at h2
    omega
  · intro w st hst hw
    obtain ⟨s1, s2, s3, s4⟩ := sweep_spec size mc (costs.drop st)
      (fun c hc => hpos c (List.mem_of_mem_drop hc)) [] 0 0 0 0 rfl rfl rfl
      (fun _ => rfl) (fun x hx => absurd hx (List.not_mem_nil _))
    simp only [window_step]
    split_ifs with hgt
    · simp only [List.nil_append, List.length_drop, zero_add] at s2 s3 s4
      refine ⟨by simp only; omega, ?_, ?_⟩
      · simp only [window_costs]
        rw [s3]
      · intro m h1 h2
        exact s4 m (by omega) h2
    · exact hw

theorem wrap32_le_self (x : Int) (h : 0 ≤ x) : wrap32 x ≤ x := by
  unfold wrap32
  omega

theorem wrap32_tdiv_le (x : Int) (size : Nat) (h : 0 ≤ x) :
    (wrap32 x).tdiv (size : Int) ≤ x.tdiv (size : Int) := by
  have hle := wrap32_le_self x h
  have hsz : (0 : Int) ≤ (size : Int) := Int.ofNat_nonneg _
  by_cases hy : 0 ≤ wrap32 x
  · rw [Int.tdiv_eq_ediv hy hsz, Int.tdiv_eq_ediv h hsz]
    rcases Nat.eq_zero_or_pos size with h0 | h0
    · subst h0
      simp
    · exact Int.ediv_le_ediv (by exact_mod_cast h0) hle
  · have h1 : (wrap32 x).tdiv (size : Int) = -((-(wrap32 x)).tdiv (size : Int)) := by
      rw [Int.neg_tdiv, neg_neg]
    have h2 : 0 ≤ (-(wrap32 x)).tdiv (size : Int) := Int.tdiv_nonneg (by omega) hsz
    have h3 : 0 ≤ x.tdiv (size : Int) := Int.tdiv_nonneg h hsz
    omega

/-- C16: for every ready queue of positive-cost tasks and every `P`, the window
chosen by the partitioner passes the imbalance gate at every step: for each
non-empty prefix of the window, every cost in the prefix (hence the minimum) is
at least (the sum of the prefix costs) / `P`, with truncating division; in
particular every task of the window has a cost of at least (window cost) / `P`,
for the exact window cost and for the value kept in `max_cost`.  For the costs
{100, 100, 1} on `P = 4` the window is the first two tasks; the third would not
pass the gate (`1 < 201 / 4`). -/
theorem window_passes_gate (size : Nat) (mc : Int) (costs : List Int)
    (hpos : ∀ c, c ∈ costs → 0 < c) :
    (∀ m, 1 ≤ m → m ≤ (find_window size mc costs).max_num_tasks →
      ∀ x, x ∈ (costs.drop (find_window size mc costs).max_starting_task).take m →
        ((costs.drop (find_window size mc costs).max_starting_task).take m).sum.tdiv
          (size : Int) ≤ x) ∧
    (∀ x, x ∈ window_costs costs (find_window size mc costs) →
      (window_costs costs (find_window size mc costs)).sum.tdiv (size : Int) ≤ x ∧
      (find_window size mc costs).max_cost.tdiv (size : Int) ≤ x) ∧
    (find_window 4 (max_colors 4 3 0) [100, 100, 1] =
        { max_starting_task := 0, max_num_tasks := 2, max_cost := 200 } ∧
      (1 : Int) < ((1 : Int) + 200).tdiv 4) := by
  obtain ⟨h1, h2, h3⟩ := find_window_spec size mc costs hpos
  refine ⟨h3, ?_, by decide, by decide⟩
  intro x hx
  have hnum : 1 ≤ (find_window size mc costs).max_num_tasks := by
    by_contra hlt
    have h0 : (find_window size mc costs).max_num_tasks = 0 := by omega
    simp [window_costs, h0] at hx
  have hfull := h3 _ hnum (le_refl _) x hx
  have hsum_nonneg : 0 ≤ (window_costs costs (find_window size mc costs)).sum := by
    apply List.sum_nonneg
    intro y hy
    exact le_of_lt (hpos y (List.mem_of_mem_drop (List.mem_of_mem_take hy)))
  refine ⟨hfull, ?_⟩
  rw [h2]
  exact le_trans (wrap32_tdiv_le _ size hsum_nonneg) hfull

/-- C16, witness: the costs {100, 100, 1} on four processes. -/
theorem window_passes_gate_witness :
    (∀ c, c ∈ ([100, 100, 1] : List Int) → 0 < c) ∧
    ((∀ m, 1 ≤ m → m ≤ (find_window 4 3 [100, 100, 1]).max_num_tasks →
      ∀ x, x ∈ (([100, 100, 1] : List Int).drop
          (find_window 4 3 [100, 100, 1]).max_starting_task).take m →
        ((([100, 100, 1] : List Int).drop
          (find_window 4 3 [100, 100, 1]).max_starting_task).take m).sum.tdiv
            ((4 : Nat) : Int) ≤ x) ∧
    (∀ x, x ∈ window_costs [100, 100, 1] (find_window 4 3 [100, 100, 1]) →
      (window_costs [100, 100, 1] (find_window 4 3 [100, 100, 1])).sum.tdiv
        ((4 : Nat) : Int) ≤ x ∧
      (find_window 4 3 [100, 100, 1]).max_cost.tdiv ((4 : Nat) : Int) ≤ x) ∧
    (find_window 4 (max_colors 4 3 0) [100, 100, 1] =
        { max_starting_task := 0, max_num_tasks := 2, max_cost := 200 } ∧
      (1 : Int) < ((1 : Int) + 200).tdiv 4)) :=
  ⟨by decide, window_passes_gate 4 3 [100, 100, 1] (by decide)⟩

/-! ## Narrowing of the window cost and uncovered colours -/

theorem my_color_eq_color_loop (size rank : Nat) (max_cost : Int) (costs : List Int) :
    my_color size rank max_cost costs =
      color_loop costs 0 (color_sample_point size rank max_cost) 0 := rfl

/-- When the window cost is below `2^31`, the partitioner retains the exact
window cost and every process samples the exact point. -/
theorem window_cost_exact_in_range (size rank : Nat) (mc : Int) (costs : List Int)
    (hP : 1 ≤ size) (hr : rank < size) (hpos : ∀ c, c ∈ costs → 0 < c)
    (hS : (window_costs costs (find_window size mc costs)).sum < 2 ^ 31) :
    (find_window size mc costs).max_cost =
        (window_costs costs (find_window size mc costs)).sum ∧
    color_sample_point size rank (find_window size mc costs).max_cost =
        spec_sample_point size rank (window_costs costs (find_window size mc costs)).sum := by
  obtain ⟨-, h2, -⟩ := find_window_spec size mc costs hpos
  have hS0 : 0 ≤ (window_costs costs (find_window size mc costs)).sum := by
    apply List.sum_nonneg
    intro y hy
    exact le_of_lt (hpos y (List.mem_of_mem_drop (List.mem_of_mem_take hy)))
  rw [h2, wrap32_of_range _ hS0 hS]
  refine ⟨rfl, ?_⟩
  generalize (window_costs costs (find_window size mc costs)).sum = S at hS hS0
  have hsz : (0 : Int) < (size : Int) := by exact_mod_cast hP
  unfold color_sample_point spec_sample_point
  have hq0 : 0 ≤ S / (size : Int) := Int.ediv_nonneg hS0 (le_of_lt hsz)
  have hd1 : S.tdiv (size : Int) = S / (size : Int) := Int.tdiv_eq_ediv hS0 (le_of_lt hsz)
  have hd2 : (S / (size : Int)).tdiv 2 = S / (size : Int) / 2 :=
    Int.tdiv_eq_ediv hq0 (by omega)
  have hd3 : S.tdiv (2 * (size : Int)) = S / (size : Int) / 2 := by
    rw [Int.tdiv_eq_ediv hS0 (by omega)]
    obtain ⟨n, hn⟩ := Int.eq_ofNat_of_zero_le hS0
    rw [hn]
    have h2 : (2 * (size : Int)) = ((size * 2 : Nat) : Int) := by push_cast; ring
    rw [h2]
    norm_cast
    rw [Nat.div_div_eq_div_mul]
  rw [hd1, hd2, hd3]
  have hmul : S / (size : Int) * (size : Int) ≤ S := Int.ediv_mul_le _ (ne_of_gt hsz)
  have hrank : S / (size : Int) * (rank : Int) + S / (size : Int) ≤
      S / (size : Int) * (size : Int) := by
    have hr2 : (rank : Int) + 1 ≤ (size : Int) := by exact_mod_cast hr
    have := mul_le_mul_of_nonneg_left hr2 hq0
    linarith
  have hr0 : 0 ≤ S / (size : Int) * (rank : Int) := mul_nonneg hq0 (Int.ofNat_nonneg _)
  exact wrap32_of_range _ (by omega) (by omega)

/-- C20, the code at the failing input: a single ready task of cost
3000000000 (a positive 64-bit integer) on two processes.  The window is this
task, but `max_cost` holds -1294967296 instead of the window cost 3000000000,
and process 1 samples the point -971225472 instead of
`(3000000000/2) * 1 + 3000000000/4 = 2250000000`. -/
theorem window_cost_narrowed_to_int :
    find_window 2 (max_colors 2 1 0) [3000000000] =
      { max_starting_task := 0, max_num_tasks := 1, max_cost := -1294967296 } ∧
    (window_costs [3000000000] (find_window 2 (max_colors 2 1 0) [3000000000])).sum =
      3000000000 ∧
    color_sample_point 2 1 (find_window 2 (max_colors 2 1 0) [3000000000]).max_cost =
      -971225472 ∧
    spec_sample_point 2 1 3000000000 = 2250000000 := by
  refine ⟨by decide, by decide, by decide, by decide⟩

/-- C19, the code at the failing input: three ready tasks of costs {2, 2, 1}
(sorted by descending cost) on four processes with `partitions = 0`.  The
window holds all three tasks (cost 5, strip width 1), the four processes sample
the points 0, 1, 2, 3 and get the colours 0, 0, 1, 1: no process has colour 2.
In the record `A = B; C = D; E = F; G = E` with these costs the first wave
packages the three assignments (addresses 0, 2, 4), `E = F` gets no process,
and its successor `G = E` (address 6) is released and runs in the next wave. -/
theorem colour_without_rank :
    find_window 4 (max_colors 4 3 0) [2, 2, 1] =
      { max_starting_task := 0, max_num_tasks := 3, max_cost := 5 } ∧
    (List.range 4).map (fun rank => color_sample_point 4 rank 5) = [0, 1, 2, 3] ∧
    (List.range 4).map (fun rank => my_color 4 rank 5 [2, 2, 1]) = [0, 0, 1, 1] ∧
    (∀ rank, rank < 4 → my_color 4 rank 5 [2, 2, 1] ≠ 2) ∧
    (record 0 uncovered_calls).map
        (fun s => (s.execute sortDesc 4 10).waves.map
          (fun wv => (wv.comm_ops, wv.sorted.map Prod.snd, wv.window.max_cost))) =
      some [([0, 2, 4], [2, 2, 1], 5), ([6], [1], 1)] := by
  refine ⟨by decide, by decide, by decide, by decide, by decide⟩

/-! ## Equal costs -/

theorem sweep_equal_costs (size : Nat) (mc : Int) (c : Int) (hc : 0 < c)
    (hmc : mc ≤ (size : Int)) (n k : Nat) (mn : Int) (sum : Int)
    (hsum : sum = (k : Int) * c) (hmn : (k = 0 ∧ mn = 0) ∨ (0 < k ∧ mn = c))
    (hk : (k : Int) < mc) (hn : mc ≤ (k : Int) + (n : Int)) :
    ((sweep size mc (List.replicate n c) k sum mn k).1 : Int) = mc := by
  induction n generalizing k mn sum with
  | zero =>
    simp only [Nat.cast_zero, add_zero] at hn
    omega
  | succ n ih =>
    have hmn1 : (if mn = 0 ∨ c < mn then c else mn) = c := by
      rcases hmn with ⟨_, h⟩ | ⟨_, h⟩
      · simp [h]
      · subst h
        simp
    have hsz : (0 : Int) < (size : Int) := by omega
    have hgate : ¬ c < (c + sum).tdiv (size : Int) := by
      have hnn : 0 ≤ c + sum := by
        rw [hsum]
        have := mul_nonneg (Int.ofNat_nonneg k) (le_of_lt hc)
        omega
      rw [Int.tdiv_eq_ediv hnn (le_of_lt hsz)]
      apply not_lt.mpr
      apply Int.ediv_le_of_le_mul hsz
      rw [hsum]
      have h1 : (k : Int) + 1 ≤ (size : Int) := by omega
      have := mul_le_mul_of_nonneg_right h1 (le_of_lt hc)
      linarith
    simp only [List.replicate_succ, sweep, hmn1, hgate, if_false]
    by_cases hstop : ((k + 1 : Nat) : Int) ≥ mc
    · simp only [hstop, if_true]
      push_cast at hstop ⊢
      omega
    · simp only [hstop, if_false]
      apply ih (k + 1) c (sum + c)
      · rw [hsum]
        push_cast
        ring
      · exact Or.inr ⟨Nat.succ_pos _, rfl⟩
      · push_cast at hstop ⊢
        omega
      · push_cast
        push_cast at hn
        omega

theorem foldl_window_step_full (size : Nat) (mc : Int) (costs : List Int) (hmc : 1 ≤ mc)
    (l : List Nat) (w : Window) (hw : (w.max_num_tasks : Int) = mc) :
    l.foldl (window_step size mc costs) w = w := by
  induction l with
  | nil => rfl
  | cons x xs ih =>
    simp only [List.foldl_cons]
    have hle := sweep_le_colors size mc (costs.drop x) 0 0 0 0 (by simpa using hmc)
      (by simpa using (by omega : (0 : Int) ≤ mc))
    have hstep : window_step size mc costs w x = w := by
      simp only [window_step]
      have : ¬ (sweep size mc (costs.drop x) 0 0 0 0).1 > w.max_num_tasks := by
        have h1 : ((sweep size mc (costs.drop x) 0 0 0 0).1 : Int) ≤ (w.max_num_tasks : Int) := by
          rw [hw]
          exact hle
        omega
      simp [this]
    rw [hstep]
    exact ih

/-- C13: for a non-empty ready queue of `R` tasks that all have the same
positive cost `c`, every `P ≥ 1` and every `partitions` value, the imbalance
gate never stops the sweep: the partitioner chooses exactly
`max_colors = min(P, R, cap)` tasks, starting at index 0. -/
theorem equal_costs_fill_max_colors (size R : Nat) (partitions : Int) (c : Int)
    (hP : 1 ≤ size) (hR : 1 ≤ R) (hc : 0 < c) :
    (find_window size (max_colors size R partitions) (List.replicate R c)).max_starting_task
      = 0 ∧
    ((find_window size (max_colors size R partitions) (List.replicate R c)).max_num_tasks : Int)
      = max_colors size R partitions ∧
    max_colors size R partitions =
      min (size : Int) (min (R : Int) (if partitions > 0 then partitions else (size : Int))) := by
  have hmc1 := max_colors_pos size R partitions hP hR
  have hmceq := max_colors_eq size R partitions
  have hmcP : max_colors size R partitions ≤ (size : Int) := by
    rw [hmceq]; exact min_le_left _ _
  have hmcR : max_colors size R partitions ≤ (R : Int) := by
    rw [hmceq]; exact le_trans (min_le_right _ _) (min_le_left _ _)
  generalize max_colors size R partitions = mc at hmc1 hmceq hmcP hmcR
  have hsw := sweep_equal_costs size mc c hc hmcP R 0 0 0 (by simp) (Or.inl ⟨rfl, rfl⟩)
    (by simpa using hmc1) (by simpa using hmcR)
  obtain ⟨R1, rfl⟩ : ∃ R1, R = R1 + 1 := ⟨R - 1, by omega⟩
  have hfw : find_window size mc (List.replicate (R1 + 1) c) =
      { max_starting_task := 0
        max_num_tasks := (sweep size mc (List.replicate (R1 + 1) c) 0 0 0 0).1
        max_cost := wrap32 (sweep size mc (List.replicate (R1 + 1) c) 0 0 0 0).2 } := by
    unfold find_window
    rw [List.length_replicate, List.range_succ_eq_map, List.foldl_cons]
    have h0 : window_step size mc (List.replicate (R1 + 1) c)
        { max_starting_task := 0, max_num_tasks := 0, max_cost := 0 } 0 =
        { max_starting_task := 0
          max_num_tasks := (sweep size mc (List.replicate (R1 + 1) c) 0 0 0 0).1
          max_cost := wrap32 (sweep size mc (List.replicate (R1 + 1) c) 0 0 0 0).2 } := by
      simp only [window_step, List.drop_zero]
      have : (sweep size mc (List.replicate (R1 + 1) c) 0 0 0 0).1 > 0 := by
        have : (0 : Int) < ((sweep size mc (List.replicate (R1 + 1) c) 0 0 0 0).1 : Int) := by
          rw [hsw]; omega
        omega
      simp [this]
    rw [h0]
    exact foldl_window_step_full size mc _ hmc1 _ _ hsw
  rw [hfw]
  exact ⟨rfl, hsw, hmceq⟩

/-- C13, witness: five tasks of cost 7 on three processes, `partitions = 2`. -/
theorem equal_costs_fill_max_colors_witness :
    (1 ≤ 3 ∧ 1 ≤ 5 ∧ (0 : Int) < 7) ∧
    ((find_window 3 (max_colors 3 5 2) (List.replicate 5 7)).max_starting_task = 0 ∧
    ((find_window 3 (max_colors 3 5 2) (List.replicate 5 7)).max_num_tasks : Int)
      = max_colors 3 5 2 ∧
    max_colors 3 5 2 =
      min ((3 : Nat) : Int) (min ((5 : Nat) : Int)
        (if (2 : Int) > 0 then (2 : Int) else ((3 : Nat) : Int)))) :=
  ⟨⟨by decide, by decide, by decide⟩,
    equal_costs_fill_max_colors 3 5 2 7 (by decide) (by decide) (by decide)⟩

/-! ## The write-after-read scenario -/

/-- C11, counterexample: after recording `C = A; D = A; A = B` over the
tensors `A = 0`, `B = 1`, `C = 2`, `D = 3`, the operation `A = B` (address 3)
has `dependency_count == 3`, not 2: its predecessors are the two readers of `A`
(addresses 0 and 2) and the dummy synthesized as writer of `B` (address 4). -/
theorem war_dependency_count_is_three :
    (record 0 (war_calls 0 1 2 3 1 1 1)).map
        (fun s => ((s.ops 3).dependency_count, s.predecessors 3, (s.ops 4).is_dummy)) =
      some (3, [0, 2, 4], true) := by
  decide

/-- C11, amended: after recording, into an empty schedule and over pairwise
distinct tensors `A`, `B`, `C`, `D`, the three operations `C = A`, `D = A`,
`A = B` in that order, the operation `A = B` (address 3) has
`dependency_count == 3`: its predecessors are the two readers of `A` (`C = A`
at address 0 and `D = A` at address 2) and the `NONE` dummy synthesized as the
writer of `B` (address 4). -/
theorem war_dependency_count (partitions : Int) (A B C D : Nat) (c1 c2 c3 : Int)
    (hAB : A ≠ B) (hAC : A ≠ C) (hAD : A ≠ D) (hBC : B ≠ C) (hBD : B ≠ D) (hCD : C ≠ D) :
    ∃ s, record partitions (war_calls A B C D c1 c2 c3) = some s ∧
      s.steps_original = [0, 1, 2, 3, 4] ∧
      (s.ops 0).lhs = some { parent := some C } ∧ (s.ops 2).lhs = some { parent := some D } ∧
      (s.ops 3).lhs = some { parent := some A } ∧
      A ∈ (((s.ops 0).get_inputs []).getD []) ∧ A ∈ (((s.ops 2).get_inputs []).getD []) ∧
      (s.ops 4).op = TENSOR_OP_NONE ∧ s.latest_write B = some 4 ∧
      (s.ops 3).dependency_count = 3 ∧
      (∀ p, 3 ∈ (s.ops p).successors ↔ (p = 0 ∨ p = 2 ∨ p = 4)) := by
  have hBA := hAB.symm
  have hCA := hAC.symm
  have hDA := hAD.symm
  have hCB := hBC.symm
  have hDB := hBD.symm
  have hDC := hCD.symm
  refine ⟨_, rfl, ?_, ?_, ?_, ?_, ?_, ?_, ?_, ?_, ?_, ?_⟩
  all_goals try intro p
  all_goals
    simp [Schedule.wire_prevs, Schedule.wire_deps, Schedule.wire_dep, Schedule.wire_prev,
      Schedule.push_dep, Schedule.alloc, Schedule.modify, Function.update_apply,
      TensorOperation.new, TensorOperation.get_inputs, Schedule.empty, setInsert,
      Term.get_inputs, assign, *]
  split_ifs <;> simp_all

/-- C11, witness: the tensors `A = 0`, `B = 1`, `C = 2`, `D = 3`. -/
theorem war_dependency_count_witness :
    ((0 : Nat) ≠ 1 ∧ (0 : Nat) ≠ 2 ∧ (0 : Nat) ≠ 3 ∧ (1 : Nat) ≠ 2 ∧ (1 : Nat) ≠ 3 ∧
      (2 : Nat) ≠ 3) ∧
    ∃ s, record 0 (war_calls 0 1 2 3 1 1 1) = some s ∧
      s.steps_original = [0, 1, 2, 3, 4] ∧
      (s.ops 0).lhs = some { parent := some 2 } ∧ (s.ops 2).lhs = some { parent := some 3 } ∧
      (s.ops 3).lhs = some { parent := some 0 } ∧
      0 ∈ (((s.ops 0).get_inputs []).getD []) ∧ 0 ∈ (((s.ops 2).get_inputs []).getD []) ∧
      (s.ops 4).op = TENSOR_OP_NONE ∧ s.latest_write 1 = some 4 ∧
      (s.ops 3).dependency_count = 3 ∧
      (∀ p, 3 ∈ (s.ops p).successors ↔ (p = 0 ∨ p = 2 ∨ p = 4)) :=
  ⟨⟨by decide, by decide, by decide, by decide, by decide, by decide⟩,
    war_dependency_count 0 0 1 2 3 1 1 1 (by decide) (by decide) (by decide) (by decide)
      (by decide) (by decide)⟩

/-! ## The executor: what a release leaves unchanged -/

theorem frame_refl (s : Schedule) (l : List Nat) : s.Frame s l :=
  ⟨fun _ => rfl, [], by simp, fun x hx => absurd hx (List.not_mem_nil _)⟩

theorem frame_trans (s s1 s2 : Schedule) (l1 l2 l : List Nat) (h1 : s.Frame s1 l1)
    (h2 : s1.Frame s2 l2) (hl1 : ∀ x, x ∈ l1 → x ∈ l) (hl2 : ∀ x, x ∈ l2 → x ∈ l) :
    s.Frame s2 l := by
  obtain ⟨c1, p1, hp1, hm1⟩ := h1
  obtain ⟨c2, p2, hp2, hm2⟩ := h2
  refine ⟨fun p => (c2 p).trans (c1 p), p1 ++ p2, ?_, ?_⟩
  · rw [hp2, hp1, List.append_assoc]
  · intro x hx
    rcases List.mem_append.mp hx with hx | hx
    · exact hl1 x (hm1 x hx)
    · exact hl2 x (hm2 x hx)

theorem release_step_frame (s s1 : Schedule) (q : Nat) (h : s.release_step q = some s1) :
    s.Frame s1 [q] := by
  unfold Schedule.release_step at h
  by_cases h1 : (s.ops q).dependency_left - 1 < 0
  · simp [h1] at h
  · simp only [h1, if_false, Option.some.injEq] at h
    subst h
    have hcost : ∀ p, ((s.modify q (fun o =>
        { o with dependency_left := (s.ops q).dependency_left - 1 })).ops p).estimate_cost =
        (s.ops p).estimate_cost := by
      intro p
      simp only [modify_ops]
      split_ifs with hp
      · subst hp; rfl
      · rfl
    split_ifs with h2
    · exact ⟨hcost, [q], rfl, fun x hx => hx⟩
    · exact ⟨hcost, [], by simp, fun x hx => absurd hx (List.not_mem_nil _)⟩

theorem release_list_frame (l : List Nat) (s s1 : Schedule) (h : s.release_list l = some s1) :
    s.Frame s1 l := by
  induction l generalizing s with
  | nil =>
    simp only [Schedule.release_list, Option.some.injEq] at h
    subst h
    exact frame_refl s []
  | cons q rest ih =>
    simp only [Schedule.release_list] at h
    cases h1 : s.release_step q with
    | none => simp [h1] at h
    | some s2 =>
      simp only [h1] at h
      exact frame_trans s s2 s1 [q] rest (q :: rest) (release_step_frame s s2 q h1) (ih s2 h)
        (fun x hx => by simp at hx; simp [hx]) (fun x hx => List.mem_cons_of_mem _ hx)

theorem schedule_op_successors_frame (s s1 : Schedule) (a : Nat)
    (h : s.schedule_op_successors a = some s1) : s.Frame s1 (s.ops a).successors := by
  unfold Schedule.schedule_op_successors at h
  split_ifs at h with h0
  exact release_list_frame _ s s1 h

theorem costs_congr (s s1 : Schedule) (l : List Nat)
    (h : ∀ p, (s1.ops p).estimate_cost = (s.ops p).estimate_cost) : s1.costs l = s.costs l := by
  induction l with
  | nil => rfl
  | cons p rest ih => simp only [Schedule.costs, h p, ih]

theorem costs_pos (s : Schedule) (l : List Nat) (tasks : List (Nat × Int))
    (h : s.costs l = some tasks) : ∀ t, t ∈ tasks → 0 < t.2 := by
  induction l generalizing tasks with
  | nil =>
    simp only [Schedule.costs, Option.some.injEq] at h
    subst h
    simp
  | cons p rest ih =>
    simp only [Schedule.costs] at h
    cases hc : (s.ops p).estimate_cost with
    | none => simp [hc] at h
    | some c =>
      cases hr : s.costs rest with
      | none => simp [hc, hr] at h
      | some cs =>
        simp only [hc, hr, Option.some.injEq] at h
        subst h
        intro t ht
        rcases List.mem_cons.mp ht with rfl | ht
        · unfold TensorOperation.estimate_cost at hc
          cases hrhs : (s.ops p).rhs with
          | none => simp [hrhs] at hc
          | some r =>
            cases hlhs : (s.ops p).lhs with
            | none => simp [hrhs, hlhs] at hc
            | some l0 =>
              simp only [hrhs, hlhs] at hc
              split_ifs at hc with hpos
              simp only [Option.some.injEq] at hc
              subst hc
              exact hpos
        · exact ih cs hr t ht

theorem costs_some (s : Schedule) (l : List Nat)
    (h : ∀ p, p ∈ l → (s.ops p).estimate_cost ≠ none) : ∃ tasks, s.costs l = some tasks := by
  induction l with
  | nil => exact ⟨[], rfl⟩
  | cons p rest ih =>
    obtain ⟨cs, hcs⟩ := ih (fun x hx => h x (List.mem_cons_of_mem _ hx))
    cases hc : (s.ops p).estimate_cost with
    | none => exact absurd hc (h p (List.mem_cons_self _ _))
    | some c => exact ⟨(p, c) :: cs, by simp [Schedule.costs, hc, hcs]⟩

theorem costs_none (s : Schedule) (l : List Nat) (p : Nat) (hp : p ∈ l)
    (h : (s.ops p).estimate_cost = none) : s.costs l = none := by
  induction l with
  | nil => exact absurd hp (List.not_mem_nil _)
  | cons x rest ih =>
    rcases List.mem_cons.mp hp with rfl | hp
    · simp [Schedule.costs, h]
    · simp only [Schedule.costs, ih hp]
      cases (s.ops x).estimate_cost <;> rfl

/-! ## The executor: assertions and termination -/

theorem release_ops_frame (g : Schedule) (hg : g.WF) (W : List Nat) (s s1 : Schedule)
    (done : List Nat) (h : g.Exec s done W []) (hrel : s.release_ops W = some s1) :
    (∀ p, (s1.ops p).estimate_cost = (s.ops p).estimate_cost) ∧
    ∃ pushed, s1.ready_tasks = s.ready_tasks ++ pushed ∧
      ∀ x, x ∈ pushed → (g.ops x).op ≠ TENSOR_OP_NONE := by
  induction W generalizing s done with
  | nil =>
    simp only [Schedule.release_ops, Option.some.injEq] at hrel
    subst hrel
    exact ⟨fun _ => rfl, [], by simp, fun x hx => absurd hx (List.not_mem_nil _)⟩
  | cons a rest ih =>
    obtain ⟨s2, h1, h2, -⟩ := schedule_op_successors_spec g s hg done rest a h
    simp only [Schedule.release_ops, h1] at hrel
    obtain ⟨c1, p1, hp1, hm1⟩ := schedule_op_successors_frame s s2 a h1
    obtain ⟨c2, p2, hp2, hm2⟩ := ih s2 (done ++ [a]) h2 hrel
    refine ⟨fun p => (c2 p).trans (c1 p), p1 ++ p2, by rw [hp2, hp1, List.append_assoc], ?_⟩
    intro x hx
    rcases List.mem_append.mp hx with hx | hx
    · have := hm1 x hx
      rw [h.succ_eq a] at this
      exact hg.succ_kind a x this
    · exact hm2 x hx

theorem sweep_first_accepted (size : Nat) (mc : Int) (c : Int) (cs : List Int)
    (hpos : ∀ x, x ∈ c :: cs → 0 < x) : 1 ≤ (sweep size mc (c :: cs) 0 0 0 0).1 := by
  have hc : 0 < c := hpos c (List.mem_cons_self _ _)
  have hg : ¬ c < (c + 0).tdiv (size : Int) := by
    rw [add_zero]
    exact not_lt.mpr (tdiv_le_self_of_pos c size (le_of_lt hc))
  simp only [sweep, true_or, if_true, hg, if_false, zero_add]
  split_ifs with hstop
  · exact le_refl _
  · exact (sweep_spec size mc cs (fun x hx => hpos x (List.mem_cons_of_mem _ hx)) [c] 1
      c c 1 rfl rfl (by simp) (fun h0 => by omega)
      (fun x hx => by simp at hx; omega)).1

theorem foldl_window_step_ge (size : Nat) (mc : Int) (costs : List Int) (l : List Nat)
    (w : Window) :
    w.max_num_tasks ≤ (l.foldl (window_step size mc costs) w).max_num_tasks ∧
    ∀ x, x ∈ l → (sweep size mc (costs.drop x) 0 0 0 0).1 ≤
      (l.foldl (window_step size mc costs) w).max_num_tasks := by
  induction l generalizing w with
  | nil => simp
  | cons y ys ih =>
    simp only [List.foldl_cons]
    obtain ⟨i1, i2⟩ := ih (window_step size mc costs w y)
    have hstep : w.max_num_tasks ≤ (window_step size mc costs w y).max_num_tasks ∧
        (sweep size mc (costs.drop y) 0 0 0 0).1 ≤
          (window_step size mc costs w y).max_num_tasks := by
      simp only [window_step]
      split_ifs with hgt
      · exact ⟨by simp only; omega, le_refl _⟩
      · exact ⟨le_refl _, by omega⟩
    refine ⟨le_trans hstep.1 i1, ?_⟩
    intro x hx
    rcases List.mem_cons.mp hx with rfl | hx
    · exact le_trans hstep.2 i1
    · exact i2 x hx

/-- On a non-empty queue of positive costs the partitioner selects at least one
task. -/
theorem find_window_pos (size : Nat) (mc : Int) (costs : List Int) (hne : costs ≠ [])
    (hpos : ∀ x, x ∈ costs → 0 < x) : 1 ≤ (find_window size mc costs).max_num_tasks := by
  cases costs with
  | nil => exact absurd rfl hne
  | cons c cs =>
    have h1 := sweep_first_accepted size mc c cs hpos
    have h2 := (foldl_window_step_ge size mc (c :: cs) (List.range (c :: cs).length)
      { max_starting_task := 0, max_num_tasks := 0, max_cost := 0 }).2 0
      (List.mem_range.mpr (by simp))
    simp only [List.drop_zero] at h2
    unfold find_window
    omega

theorem nodup_length_le (l : List Nat) (n : Nat) (hnd : l.Nodup) (hlt : ∀ x, x ∈ l → x < n) :
    l.length ≤ n := by
  have h1 : l.toFinset ⊆ Finset.range n := by
    intro x hx
    exact Finset.mem_range.mpr (hlt x (List.mem_toFinset.mp hx))
  have h2 := Finset.card_le_card h1
  rw [List.toFinset_card_of_nodup hnd, Finset.card_range] at h2
  exact h2

/-- One call of `partition_and_execute` from a state that satisfies the
invariant: it fails only if an assertion of `estimate_cost` fails, it leaves the
cost estimates alone, it adds only non-dummies to the ready queue, and (on a
non-empty queue, for `P ≥ 1`) it packages at least one operation. -/
theorem partition_and_execute_full (g s : Schedule) (hg : g.WF) (done : List Nat)
    (srt : List (Nat × Int) → List (Nat × Int)) (hsrt : ∀ l, (srt l).Perm l) (size : Nat)
    (h : g.Exec s done [] []) :
    (s.costs s.ready_tasks ≠ none → s.partition_and_execute srt size ≠ none) ∧
    ∀ s1 wave, s.partition_and_execute srt size = some (s1, wave) →
      (∀ p, (s1.ops p).estimate_cost = (s.ops p).estimate_cost) ∧
      (∀ q, q ∈ s1.ready_tasks → q ∈ s.ready_tasks ∨ (g.ops q).op ≠ TENSOR_OP_NONE) ∧
      wave.comm_ops.length = wave.window.max_num_tasks ∧
      (s.ready_tasks ≠ [] → 1 ≤ wave.window.max_num_tasks) := by
  unfold Schedule.partition_and_execute
  cases hc : s.costs s.ready_tasks with
  | none => simp
  | some tasks =>
    simp only
    have hperm : ((srt tasks).map Prod.fst).Perm s.ready_tasks := by
      have := (hsrt tasks).map Prod.fst
      rwa [costs_fst s _ tasks hc] at this
    have hposs : ∀ x, x ∈ (srt tasks).map Prod.snd → 0 < x := by
      intro x hx
      obtain ⟨t, ht, rfl⟩ := List.mem_map.mp hx
      exact costs_pos s _ tasks hc t ((hsrt tasks).mem_iff.mp ht)
    have hwpos : s.ready_tasks ≠ [] →
        1 ≤ (find_window size (max_colors size s.ready_tasks.length s.partitions)
          ((srt tasks).map Prod.snd)).max_num_tasks := by
      intro hne
      apply find_window_pos _ _ _ _ hposs
      intro hnil
      have hlen : ((srt tasks).map Prod.fst).length = s.ready_tasks.length := hperm.length_eq
      have : s.ready_tasks.length = 0 := by
        rw [← hlen]
        have := congrArg List.length hnil
        simpa using this
      exact hne (List.length_eq_zero.mp this)
    generalize hw : find_window size (max_colors size s.ready_tasks.length s.partitions)
      ((srt tasks).map Prod.snd) = w at hwpos
    have hin : w.max_starting_task + w.max_num_tasks ≤ ((srt tasks).map Prod.fst).length := by
      have := find_window_inside size (max_colors size s.ready_tasks.length s.partitions)
        ((srt tasks).map Prod.snd)
      rw [hw] at this
      simpa using this
    have hsplit := window_split w.max_starting_task w.max_num_tasks _ hin
    have hWlen : ((((srt tasks).map Prod.fst).drop w.max_starting_task).take
        w.max_num_tasks).length = w.max_num_tasks := by
      rw [List.length_take, List.length_drop]
      omega
    generalize hW : (((srt tasks).map Prod.fst).drop w.max_starting_task).take
      w.max_num_tasks = W at hsplit hWlen
    generalize hQ : erase_loop w.max_starting_task w.max_num_tasks
      ((srt tasks).map Prod.fst) = Q at hsplit
    have hWQ : (W ++ Q).Perm s.ready_tasks := hsplit.trans hperm
    have hexec : g.Exec { s with ready_tasks := Q } done W [] := by
      refine ⟨h.nops_eq, h.partitions_eq, h.succ_eq, h.kind_eq, ?_, ?_, h.left_eq⟩
      · show (done ++ W ++ Q).Nodup
        have h1 : (done ++ W ++ Q).Perm (done ++ [] ++ s.ready_tasks) := by
          simp only [List.append_assoc, List.nil_append]
          exact List.Perm.append_left done hWQ
        exact h1.nodup_iff.mpr h.nodup
      · intro q hq
        have hq2 : q ∈ done ++ W ++ Q := hq
        have h1 : (done ++ W ++ Q).Perm (done ++ [] ++ s.ready_tasks) := by
          simp only [List.append_assoc, List.nil_append]
          exact List.Perm.append_left done hWQ
        exact h.zero q (h1.mem_iff.mp hq2)
    obtain ⟨s2, hr1, -, -⟩ := release_ops_spec g hg W { s with ready_tasks := Q } done hexec
    obtain ⟨hcost, pushed, hpushed, hkind⟩ :=
      release_ops_frame g hg W { s with ready_tasks := Q } s2 done hexec hr1
    simp only [hr1]
    refine ⟨by simp, ?_⟩
    intro s1 wave heq
    simp only [Option.some.injEq, Prod.mk.injEq] at heq
    obtain ⟨hs, hwave⟩ := heq
    subst hs
    subst hwave
    refine ⟨hcost, ?_, hWlen, hwpos⟩
    intro q hq
    rw [hpushed] at hq
    rcases List.mem_append.mp hq with hq | hq
    · left
      exact hWQ.mem_iff.mp (List.mem_append_right _ hq)
    · exact Or.inr (hkind q hq)

theorem reset_cost (s : Schedule) (p : Nat) :
    (s.reset.ops p).estimate_cost = (s.ops p).estimate_cost := by
  have key : ∀ (l : List Nat) (t : Schedule),
      ((l.foldl (fun s p => s.modify p
        (fun o => { o with dependency_left := o.dependency_count })) t).ops p).estimate_cost =
        (t.ops p).estimate_cost := by
    intro l
    induction l with
    | nil => intro t; rfl
    | cons a rest ih =>
      intro t
      simp only [List.foldl_cons]
      rw [ih]
      simp only [modify_ops]
      split_ifs with hp
      · subst hp; rfl
      · rfl
  exact key s.steps_original s

/-- The dummy pre-drain from a state that satisfies the invariant and whose
queue holds its dummies at the front: no assertion fails, the cost estimates
are left alone, no dummy stays in the queue when the loop ends, and the loop
ends within one more iteration than there are dummies. -/
theorem predrain_full (g : Schedule) (hg : g.WF) (fuel : Nat) (s : Schedule)
    (done ds ns : List Nat) (h : g.Exec s done [] []) (hq : s.ready_tasks = ds ++ ns)
    (hds : ∀ d, d ∈ ds → (g.ops d).op = TENSOR_OP_NONE)
    (hns : ∀ q, q ∈ ns → (g.ops q).op ≠ TENSOR_OP_NONE) :
    (s.predrain fuel).2.2 ≠ Status.aborted ∧
    (∀ p, ((s.predrain fuel).1.ops p).estimate_cost = (s.ops p).estimate_cost) ∧
    ((s.predrain fuel).2.2 = Status.finished →
      ∀ q, q ∈ (s.predrain fuel).1.ready_tasks → (g.ops q).op ≠ TENSOR_OP_NONE) ∧
    (ds.length < fuel → (s.predrain fuel).2.2 = Status.finished) := by
  induction fuel generalizing s done ds ns with
  | zero =>
    refine ⟨by simp [Schedule.predrain], fun _ => rfl, by simp [Schedule.predrain], ?_⟩
    intro hlt
    omega
  | succ n ih =>
    unfold Schedule.predrain
    cases hr : s.ready_tasks with
    | nil => exact ⟨by simp, fun _ => rfl, by simp [hr], by simp⟩
    | cons front rest =>
      simp only
      by_cases hd : (s.ops front).is_dummy = true
      · simp only [hd, if_true]
        have hkind : (g.ops front).op = TENSOR_OP_NONE := by
          rw [← h.kind_eq]
          simpa [TensorOperation.is_dummy] using hd
        obtain ⟨ds1, hds1⟩ : ∃ ds1, ds = front :: ds1 := by
          cases ds with
          | nil =>
            rw [hr] at hq
            simp only [List.nil_append] at hq
            exact absurd hkind (hns front (hq ▸ List.mem_cons_self _ _))
          | cons d ds1 =>
            rw [hr] at hq
            simp only [List.cons_append, List.cons.injEq] at hq
            exact ⟨ds1, by rw [hq.1]⟩
        subst hds1
        have hrest : rest = ds1 ++ ns := by
          rw [hr] at hq
          simp only [List.cons_append, List.cons.injEq] at hq
          exact hq.2
        have hs : s = Schedule.push_front { s with ready_tasks := rest } front := by
          cases s
          simp only [Schedule.push_front] at hr ⊢
          simp [hr]
        have hexec : g.Exec { s with ready_tasks := rest } done [front] [] := by
          refine ⟨h.nops_eq, h.partitions_eq, h.succ_eq, h.kind_eq, ?_, ?_, h.left_eq⟩
          · have := h.nodup
            rw [hr] at this
            simpa [List.append_assoc] using this
          · intro q hq2
            apply h.zero q
            rw [hr]
            simpa [List.append_assoc] using hq2
        obtain ⟨s1, h1, h2, _⟩ :=
          schedule_op_successors_spec g _ hg done [] front hexec
        obtain ⟨c1, pushed, hp1, hm1⟩ := schedule_op_successors_frame _ s1 front h1
        have h3 : s.schedule_op_successors front = some (s1.push_front front) := by
          conv_lhs => rw [hs]
          rw [schedule_op_successors_push_front, h1]
          rfl
        simp only [h3]
        have h4 : ({ s1.push_front front with
            ready_tasks := (s1.push_front front).ready_tasks.tail } : Schedule) = s1 := by
          cases s1
          rfl
        rw [h4]
        have hq1 : s1.ready_tasks = ds1 ++ (ns ++ pushed) := by
          rw [hp1]
          show rest ++ pushed = _
          rw [hrest, List.append_assoc]
        obtain ⟨i1, i2, i3, i4⟩ := ih s1 (done ++ [front]) ds1 (ns ++ pushed) h2 hq1
          (fun d hd2 => hds d (List.mem_cons_of_mem _ hd2))
          (fun q hq2 => by
            rcases List.mem_append.mp hq2 with hq2 | hq2
            · exact hns q hq2
            · have := hm1 q hq2
              have hsucc : q ∈ (g.ops front).successors := by
                rw [← h.succ_eq front]
                exact this
              exact hg.succ_kind front q hsucc)
        refine ⟨i1, ?_, i3, ?_⟩
        · intro p
          rw [i2 p, c1 p]
        · intro hlt
          apply i4
          simp only [List.length_cons] at hlt
          omega
      · simp only [hd]
        refine ⟨by simp, fun _ => rfl, ?_, by simp⟩
        intro _ q hq2
        have hfront : (g.ops front).op ≠ TENSOR_OP_NONE := by
          rw [← h.kind_eq]
          simpa [TensorOperation.is_dummy] using hd
        have hds0 : ds = [] := by
          cases ds with
          | nil => rfl
          | cons d ds1 =>
            rw [hr] at hq
            simp only [List.cons_append, List.cons.injEq] at hq
            exact absurd (hds d (List.mem_cons_self _ _)) (hq.1 ▸ hfront)
        subst hds0
        have hq3 : q ∈ s.ready_tasks := hq2
        rw [hq] at hq3
        simp only [List.nil_append] at hq3
        exact hns q hq3

/-- The main loop from a state that satisfies the invariant: the invariant
holds at the end for the operations released before together with all
packaged operations, and the loop aborts only on a failed assertion of
`estimate_cost`. -/
theorem main_loop_exec (g : Schedule) (hg : g.WF)
    (srt : List (Nat × Int) → List (Nat × Int)) (hsrt : ∀ l, (srt l).Perm l) (size : Nat)
    (fuel : Nat) (s : Schedule) (done : List Nat) (h : g.Exec s done [] []) :
    g.Exec (s.main_loop srt size fuel).1
      (done ++ ((s.main_loop srt size fuel).2.1.map (fun wv => wv.comm_ops)).flatten) [] [] ∧
    ((s.main_loop srt size fuel).2.2 = Status.aborted →
      (s.main_loop srt size fuel).1.costs (s.main_loop srt size fuel).1.ready_tasks = none) := by
  induction fuel generalizing s done with
  | zero =>
    simp only [Schedule.main_loop, List.map_nil, List.flatten_nil, List.append_nil]
    refine ⟨h, ?_⟩
    split_ifs <;> simp
  | succ n ih =>
    unfold Schedule.main_loop
    by_cases he : s.ready_tasks = []
    · simp only [he, if_true, List.map_nil, List.flatten_nil, List.append_nil]
      exact ⟨h, by simp⟩
    · simp only [he, if_false]
      obtain ⟨hsome, hfull⟩ := partition_and_execute_full g s hg done srt hsrt size h
      cases hpe : s.partition_and_execute srt size with
      | none =>
        simp only [List.map_nil, List.flatten_nil, List.append_nil]
        refine ⟨h, ?_⟩
        intro _
        by_contra hc
        exact hsome hc hpe
      | some res =>
        obtain ⟨s1, wave0⟩ := res
        simp only
        obtain ⟨-, hexec⟩ := partition_and_execute_spec g s s1 hg done srt hsrt size wave0 h hpe
        obtain ⟨i1, i2⟩ := ih s1 (done ++ wave0.comm_ops) hexec
        refine ⟨?_, i2⟩
        simpa [List.append_assoc] using i1

/-- With positive cost estimates and enough iterations the main loop ends with
an empty ready queue; every wave packages at least one operation. -/
theorem main_loop_terminates (g : Schedule) (hg : g.WF)
    (srt : List (Nat × Int) → List (Nat × Int)) (hsrt : ∀ l, (srt l).Perm l) (size : Nat)
    (hcost : ∀ p, p < g.nops → (g.ops p).op ≠ TENSOR_OP_NONE →
      (g.ops p).estimate_cost ≠ none)
    (fuel : Nat) (s : Schedule) (done : List Nat) (h : g.Exec s done [] [])
    (hnd : ∀ q, q ∈ s.ready_tasks → (g.ops q).op ≠ TENSOR_OP_NONE)
    (hc : ∀ p, (s.ops p).estimate_cost = (g.ops p).estimate_cost)
    (hfuel : g.nops ≤ fuel + done.length) :
    (s.main_loop srt size fuel).2.2 = Status.finished ∧
    (s.main_loop srt size fuel).1.ready_tasks = [] ∧
    (∀ wv, wv ∈ (s.main_loop srt size fuel).2.1 →
      wv.comm_ops ≠ [] ∧ 1 ≤ wv.window.max_num_tasks) ∧
    (s.main_loop srt size fuel).2.1.length + done.length ≤ g.nops := by
  have hlen : ∀ (t : Schedule) (d : List Nat), g.Exec t d [] [] →
      d.length + t.ready_tasks.length ≤ g.nops := by
    intro t d ht
    have h1 := nodup_length_le (d ++ [] ++ t.ready_tasks) g.nops ht.nodup
      (fun x hx => (ht.zero x hx).2)
    simpa using h1
  induction fuel generalizing s done with
  | zero =>
    have h1 := hlen s done h
    have h2 : s.ready_tasks = [] := List.length_eq_zero.mp (by omega)
    simp only [Schedule.main_loop, h2, if_true, List.length_nil, zero_add]
    exact ⟨trivial, trivial, by simp, by omega⟩
  | succ n ih =>
    unfold Schedule.main_loop
    by_cases he : s.ready_tasks = []
    · simp only [he, if_true, List.length_nil, zero_add]
      have h1 := hlen s done h
      exact ⟨trivial, trivial, by simp, by omega⟩
    · simp only [he, if_false]
      obtain ⟨hsome, hfull⟩ := partition_and_execute_full g s hg done srt hsrt size h
      have hcosts : s.costs s.ready_tasks ≠ none := by
        obtain ⟨tasks, ht⟩ := costs_some s s.ready_tasks (fun p hp => by
          rw [hc p]
          have hlt : p < g.nops :=
            (h.zero p (by simp only [List.append_nil]; exact List.mem_append_right _ hp)).2
          exact hcost p hlt (hnd p hp))
        rw [ht]
        simp
      cases hpe : s.partition_and_execute srt size with
      | none => exact absurd hpe (hsome hcosts)
      | some res =>
        obtain ⟨s1, wave0⟩ := res
        simp only
        obtain ⟨-, hexec⟩ := partition_and_execute_spec g s s1 hg done srt hsrt size wave0 h hpe
        obtain ⟨f1, f2, f3, f4⟩ := hfull s1 wave0 hpe
        have hpos := f4 he
        have hne : wave0.comm_ops ≠ [] := by
          intro hnil
          rw [hnil] at f3
          simp at f3
          omega
        obtain ⟨i1, i2, i3, i4⟩ := ih s1 (done ++ wave0.comm_ops) hexec
          (fun q hq => by
            rcases f2 q hq with h1 | h1
            · exact hnd q h1
            · exact h1)
          (fun p => (f1 p).trans (hc p))
          (by rw [List.length_append]; omega)
        refine ⟨i1, i2, ?_, ?_⟩
        · intro wv hwv
          rcases List.mem_cons.mp hwv with rfl | hwv
          · exact ⟨hne, hpos⟩
          · exact i3 wv hwv
        · rw [List.length_append] at i4
          simp only [List.length_cons]
          omega

/-- The state in which the pre-drain starts and what the pre-drain makes of it. -/
theorem predrain_of_reset (g : Schedule) (hg : g.WF) (fuel : Nat) :
    g.Exec (g.reset.predrain fuel).1 (g.reset.predrain fuel).2.1 [] [] ∧
    (g.reset.predrain fuel).2.2 ≠ Status.aborted ∧
    (∀ p, ((g.reset.predrain fuel).1.ops p).estimate_cost = (g.ops p).estimate_cost) ∧
    ((g.reset.predrain fuel).2.2 = Status.finished →
      ∀ q, q ∈ (g.reset.predrain fuel).1.ready_tasks → (g.ops q).op ≠ TENSOR_OP_NONE) ∧
    (g.nops < fuel → (g.reset.predrain fuel).2.2 = Status.finished) := by
  have hE := exec_reset g hg
  obtain ⟨h1, -⟩ := predrain_spec g hg fuel g.reset [] hE
  have hq : g.reset.ready_tasks = g.root_tasks ++ [] := by
    simp [Schedule.reset]
  obtain ⟨f1, f2, f3, f4⟩ := predrain_full g hg fuel g.reset [] g.root_tasks [] hE hq
    (fun d hd => ((hg.root_iff d).mp hd).2) (fun q hq2 => absurd hq2 (List.not_mem_nil _))
  refine ⟨by simpa using h1, f1, fun p => (f2 p).trans (reset_cost g p), f3, ?_⟩
  intro hlt
  apply f4
  have := nodup_length_le g.root_tasks g.nops hg.root_nodup
    (fun x hx => ((hg.root_iff x).mp hx).1)
  omega

/-- C12: for every schedule built by `add_operation`, throughout a run of
`execute` (any communicator size, any implementation of the sort, any number
of loop iterations) the two assertions of `schedule_op_successors` never fail:
the pre-drain never aborts, and a wave aborts only when an assertion of
`estimate_cost` fails for a ready operation; every operation has
`dependency_left ≥ 0`, and the operations in the ready queue have
`dependency_left == 0`, both at the end of the run and after any number `f1`
of pre-drain iterations followed by any number `f2` of waves.  This covers
successors that occur more than once in a successors list. -/
theorem release_assertions_hold (partitions : Int) (calls : List Assignment)
    (s : Schedule) (hrec : record partitions calls = some s)
    (srt : List (Nat × Int) → List (Nat × Int)) (hsrt : ∀ l, (srt l).Perm l)
    (size fuel : Nat) :
    (s.reset.predrain fuel).2.2 ≠ Status.aborted ∧
    ((s.execute srt size fuel).status = Status.aborted →
      (s.execute srt size fuel).final.costs (s.execute srt size fuel).final.ready_tasks =
        none) ∧
    (∀ q, q < s.nops → 0 ≤ ((s.execute srt size fuel).final.ops q).dependency_left) ∧
    (∀ q, q ∈ (s.execute srt size fuel).final.ready_tasks →
      ((s.execute srt size fuel).final.ops q).dependency_left = 0) ∧
    (∀ f1 f2 q, q < s.nops →
      0 ≤ ((((s.reset.predrain f1).1.main_loop srt size f2).1).ops q).dependency_left) ∧
    (∀ f1 f2 q, q ∈ ((s.reset.predrain f1).1.main_loop srt size f2).1.ready_tasks →
      ((((s.reset.predrain f1).1.main_loop srt size f2).1).ops q).dependency_left = 0) := by
  have hg := wf_record partitions calls s hrec
  obtain ⟨hE, hna, -, -, -⟩ := predrain_of_reset s hg fuel
  have hfinal : ∀ (t : Schedule) (d : List Nat), s.Exec t d [] [] →
      (∀ q, q < s.nops → 0 ≤ (t.ops q).dependency_left) ∧
      (∀ q, q ∈ t.ready_tasks → (t.ops q).dependency_left = 0) := by
    intro t d ht
    refine ⟨?_, ?_⟩
    · intro q hq
      rw [ht.left_eq q hq]
      have := pending_in_nonneg s d q
      simp only [List.count_nil, Nat.cast_zero, add_zero]
      exact this
    · intro q hq
      exact (ht.zero q (by simp only [List.append_nil]; exact List.mem_append_right _ hq)).1
  have hmid : ∀ f1 f2, ∃ d, s.Exec ((s.reset.predrain f1).1.main_loop srt size f2).1 d [] [] :=
    fun f1 f2 => ⟨_, (main_loop_exec s hg srt hsrt size f2 _ _ (predrain_of_reset s hg f1).1).1⟩
  have hend : ((s.execute srt size fuel).status = Status.aborted →
      (s.execute srt size fuel).final.costs (s.execute srt size fuel).final.ready_tasks =
        none) ∧
      (∀ q, q < s.nops → 0 ≤ ((s.execute srt size fuel).final.ops q).dependency_left) ∧
      (∀ q, q ∈ (s.execute srt size fuel).final.ready_tasks →
        ((s.execute srt size fuel).final.ops q).dependency_left = 0) := by
    unfold Schedule.execute
    cases hst : (s.reset.predrain fuel).2.2 with
    | finished =>
      simp only [hst]
      obtain ⟨m1, m2⟩ := main_loop_exec s hg srt hsrt size fuel _ _ hE
      exact ⟨m2, hfinal _ _ m1⟩
    | aborted => exact absurd hst hna
    | out_of_fuel =>
      simp only [hst]
      exact ⟨by simp, hfinal _ _ hE⟩
  refine ⟨hna, hend.1, hend.2.1, hend.2.2, ?_, ?_⟩
  · intro f1 f2 q hq
    obtain ⟨d, hd⟩ := hmid f1 f2
    exact (hfinal _ d hd).1 q hq
  · intro f1 f2 q hq
    obtain ⟨d, hd⟩ := hmid f1 f2
    exact (hfinal _ d hd).2 q hq

/-- C12, witness: the record `B = A; A = B`, in which `A = B` occurs twice in
the successors list of `B = A`. -/
theorem release_assertions_hold_witness :
    (record 0 swap_calls = some swap_schedule ∧ (∀ l, (sortDesc l).Perm l)) ∧
    ((swap_schedule.reset.predrain 10).2.2 ≠ Status.aborted ∧
    ((swap_schedule.execute sortDesc 4 10).status = Status.aborted →
      (swap_schedule.execute sortDesc 4 10).final.costs
        (swap_schedule.execute sortDesc 4 10).final.ready_tasks = none) ∧
    (∀ q, q < swap_schedule.nops →
      0 ≤ ((swap_schedule.execute sortDesc 4 10).final.ops q).dependency_left) ∧
    (∀ q, q ∈ (swap_schedule.execute sortDesc 4 10).final.ready_tasks →
      ((swap_schedule.execute sortDesc 4 10).final.ops q).dependency_left = 0) ∧
    (∀ f1 f2 q, q < swap_schedule.nops →
      0 ≤ ((((swap_schedule.reset.predrain f1).1.main_loop sortDesc 4 f2).1).ops
        q).dependency_left) ∧
    (∀ f1 f2 q, q ∈ ((swap_schedule.reset.predrain f1).1.main_loop sortDesc 4 f2).1.ready_tasks →
      ((((swap_schedule.reset.predrain f1).1.main_loop sortDesc 4 f2).1).ops
        q).dependency_left = 0)) :=
  ⟨⟨rfl, sortDesc_perm⟩,
    release_assertions_hold 0 swap_calls swap_schedule rfl sortDesc sortDesc_perm 4 10⟩

/-- C15: for every non-empty ready queue of tasks with positive costs and
every `P ≥ 1`, the partitioner selects at least one task
(`max_num_tasks ≥ 1`); and for a schedule built by `add_operation` whose
operations all have a positive cost estimate, `execute` ends with an empty
ready queue once each loop may run one iteration more than there are recorded
operations: every wave packages at least one operation, no operation is
released twice, and there are at most as many waves as recorded operations. -/
theorem execute_terminates (partitions : Int) (calls : List Assignment)
    (s : Schedule) (hrec : record partitions calls = some s)
    (srt : List (Nat × Int) → List (Nat × Int)) (hsrt : ∀ l, (srt l).Perm l)
    (size : Nat) (_hP : 1 ≤ size)
    (hcost : ∀ p, p < s.nops → (s.ops p).op ≠ TENSOR_OP_NONE →
      (s.ops p).estimate_cost ≠ none)
    (fuel : Nat) (hfuel : s.nops + 1 ≤ fuel) :
    (∀ (mc : Int) (costs : List Int), costs ≠ [] → (∀ x, x ∈ costs → 0 < x) →
      1 ≤ (find_window size mc costs).max_num_tasks) ∧
    (s.execute srt size fuel).status = Status.finished ∧
    (s.execute srt size fuel).final.ready_tasks = [] ∧
    (∀ wv, wv ∈ (s.execute srt size fuel).waves →
      wv.comm_ops ≠ [] ∧ 1 ≤ wv.window.max_num_tasks) ∧
    ((s.execute srt size fuel).predrained ++
      ((s.execute srt size fuel).waves.map (fun wv => wv.comm_ops)).flatten).Nodup ∧
    (∀ x, x ∈ (s.execute srt size fuel).predrained ++
      ((s.execute srt size fuel).waves.map (fun wv => wv.comm_ops)).flatten → x < s.nops) ∧
    (s.execute srt size fuel).waves.length + (s.execute srt size fuel).predrained.length ≤
      s.nops := by
  have hg := wf_record partitions calls s hrec
  obtain ⟨hE, -, hc, hnd, hfin⟩ := predrain_of_reset s hg fuel
  have hst := hfin (by omega)
  refine ⟨fun mc costs hne hpos => find_window_pos size mc costs hne hpos, ?_⟩
  unfold Schedule.execute
  simp only [hst]
  obtain ⟨t1, t2, t3, t4⟩ := main_loop_terminates s hg srt hsrt size hcost fuel _ _ hE
    (hnd hst) hc (by omega)
  obtain ⟨m1, -⟩ := main_loop_exec s hg srt hsrt size fuel _ _ hE
  refine ⟨t1, t2, t3, ?_, ?_, t4⟩
  · have := m1.nodup
    simp only [List.append_nil] at this
    exact (List.nodup_append.mp this).1
  · intro x hx
    exact (m1.zero x (by
      simp only [List.append_nil]
      exact List.mem_append_left _ hx)).2

/-- C15, witness: the record `A = B; C += A` on four processes. -/
theorem execute_terminates_witness :
    (record 0 chain_calls = some chain_schedule ∧ (∀ l, (sortDesc l).Perm l) ∧ 1 ≤ 4 ∧
      (∀ p, p < chain_schedule.nops → (chain_schedule.ops p).op ≠ TENSOR_OP_NONE →
        (chain_schedule.ops p).estimate_cost ≠ none) ∧
      chain_schedule.nops + 1 ≤ 10) ∧
    ((∀ (mc : Int) (costs : List Int), costs ≠ [] → (∀ x, x ∈ costs → 0 < x) →
      1 ≤ (find_window 4 mc costs).max_num_tasks) ∧
    (chain_schedule.execute sortDesc 4 10).status = Status.finished ∧
    (chain_schedule.execute sortDesc 4 10).final.ready_tasks = [] ∧
    (∀ wv, wv ∈ (chain_schedule.execute sortDesc 4 10).waves →
      wv.comm_ops ≠ [] ∧ 1 ≤ wv.window.max_num_tasks) ∧
    ((chain_schedule.execute sortDesc 4 10).predrained ++
      ((chain_schedule.execute sortDesc 4 10).waves.map
        (fun wv => wv.comm_ops)).flatten).Nodup ∧
    (∀ x, x ∈ (chain_schedule.execute sortDesc 4 10).predrained ++
      ((chain_schedule.execute sortDesc 4 10).waves.map
        (fun wv => wv.comm_ops)).flatten → x < chain_schedule.nops) ∧
    (chain_schedule.execute sortDesc 4 10).waves.length +
      (chain_schedule.execute sortDesc 4 10).predrained.length ≤ chain_schedule.nops) :=
  ⟨⟨rfl, sortDesc_perm, by decide, by decide, by decide⟩,
    execute_terminates 0 chain_calls chain_schedule rfl sortDesc sortDesc_perm 4 (by decide)
      (by decide) 10 (by decide)⟩

/-! ## The diamond scenario -/

/-- `partition_and_execute` in terms of `advance`. -/
theorem partition_and_execute_eq (s : Schedule) (srt : List (Nat × Int) → List (Nat × Int))
    (size : Nat) (tasks : List (Nat × Int)) (hc : s.costs s.ready_tasks = some tasks) :
    s.partition_and_execute srt size =
      (s.advance ((srt tasks).map Prod.fst)
          (find_window size (max_colors size s.ready_tasks.length s.partitions)
            ((srt tasks).map Prod.snd))).map
        (fun s2 => (s2,
          { sorted := srt tasks
            max_colors := max_colors size s.ready_tasks.length s.partitions
            window := find_window size (max_colors size s.ready_tasks.length s.partitions)
              ((srt tasks).map Prod.snd)
            comm_ops := (((srt tasks).map Prod.fst).drop
              (find_window size (max_colors size s.ready_tasks.length s.partitions)
                ((srt tasks).map Prod.snd)).max_starting_task).take
              (find_window size (max_colors size s.ready_tasks.length s.partitions)
                ((srt tasks).map Prod.snd)).max_num_tasks })) := by
  unfold Schedule.partition_and_execute Schedule.advance
  simp only [hc]
  cases Schedule.release_ops _ _ <;> rfl

theorem operands_op (a b : TensorOperation) (h : a.operands = b.operands) : a.op = b.op :=
  congrArg Prod.fst h

theorem operands_lhs (a b : TensorOperation) (h : a.operands = b.operands) : a.lhs = b.lhs :=
  congrArg (fun t => t.2.1) h

theorem operands_rhs (a b : TensorOperation) (h : a.operands = b.operands) : a.rhs = b.rhs :=
  congrArg (fun t => t.2.2) h

theorem get_outputs_congr (a b : TensorOperation) (h : a.operands = b.operands)
    (set : List Nat) : a.get_outputs set = b.get_outputs set := by
  unfold TensorOperation.get_outputs
  rw [operands_lhs a b h]

theorem get_inputs_congr (a b : TensorOperation) (h : a.operands = b.operands)
    (set : List Nat) : a.get_inputs set = b.get_inputs set := by
  unfold TensorOperation.get_inputs
  rw [operands_lhs a b h, operands_rhs a b h, operands_op a b h]

theorem get_outputs_lhs (o : TensorOperation) (set : List Nat)
    (h : (o.get_outputs set).isSome = true) : o.lhs.isSome = true := by
  unfold TensorOperation.get_outputs at h
  cases hl : o.lhs with
  | none => simp [hl] at h
  | some l => rfl

theorem get_inputs_rhs (o : TensorOperation) (set : List Nat)
    (h : (o.get_inputs set).isSome = true) : o.rhs.isSome = true := by
  unfold TensorOperation.get_inputs at h
  cases hr : o.rhs with
  | none => simp [hr] at h
  | some r => rfl

theorem operands_modify (s : Schedule) (p : Nat) (f : TensorOperation → TensorOperation)
    (hf : ∀ o, (f o).operands = o.operands) (x : Nat) :
    ((s.modify p f).ops x).operands = (s.ops x).operands := by
  unfold Schedule.modify
  simp only [Function.update_apply]
  split_ifs with h
  · subst h
    exact hf _
  · rfl

theorem operands_push_dep (s : Schedule) (a op x : Nat) :
    ((s.push_dep a op).ops x).operands = (s.ops x).operands := by
  unfold Schedule.push_dep
  refine (operands_modify _ _ _ ?_ x).trans (operands_modify _ _ _ ?_ x) <;> intro o <;> rfl

theorem operands_wire_prev (s : Schedule) (op prev x : Nat) :
    ((Schedule.wire_prev op s prev).ops x).operands = (s.ops x).operands := by
  unfold Schedule.wire_prev
  split_ifs
  · refine (operands_modify _ _ _ ?_ x).trans (operands_modify _ _ _ ?_ x) <;> intro o <;> rfl
  · rfl

theorem operands_of_same (g s : Schedule) (h : ∀ x, (s.ops x).operands = (g.ops x).operands)
    (hg : g.Operands) : s.Operands := by
  intro p hp
  rw [get_outputs_congr _ _ (h p), get_inputs_congr _ _ (h p)]
  exact hg p (by rw [← operands_op _ _ (h p)]; exact hp)

theorem operands_alloc (s : Schedule) (o : TensorOperation) (hs : s.Operands)
    (ho : o.op ≠ TENSOR_OP_NONE →
      (o.get_outputs []).isSome = true ∧ (o.get_inputs []).isSome = true) :
    (s.alloc o).Operands := by
  intro p hp
  rw [alloc_ops] at hp ⊢
  split_ifs at hp ⊢ with h
  · exact ho hp
  · exact hs p hp

theorem operands_wire_dep (op : Nat) (s : Schedule) (dep : Nat) (hs : s.Operands) :
    (Schedule.wire_dep op s dep).Operands := by
  unfold Schedule.wire_dep
  cases s.latest_write dep with
  | some w => exact operands_of_same s _ (fun x => operands_push_dep s w op x) hs
  | none =>
    refine operands_of_same (s.alloc (TensorOperation.new TENSOR_OP_NONE none none)) _
      (fun x => operands_push_dep _ _ op x) ?_
    exact operands_alloc s _ hs (fun h => absurd rfl h)

theorem operands_wire_deps (op : Nat) (l : List Nat) (s : Schedule) (hs : s.Operands) :
    (Schedule.wire_deps op s l).Operands := by
  unfold Schedule.wire_deps
  induction l generalizing s with
  | nil => exact hs
  | cons d rest ih => exact ih _ (operands_wire_dep op s d hs)

theorem operands_wire_prev_list (op : Nat) (l : List Nat) (s : Schedule) (hs : s.Operands) :
    (l.foldl (Schedule.wire_prev op) s).Operands := by
  induction l generalizing s with
  | nil => exact hs
  | cons d rest ih =>
    exact ih _ (operands_of_same s _ (fun x => operands_wire_prev s op d x) hs)

theorem operands_wire_prevs (op : Nat) (s : Schedule) (t : Nat) (hs : s.Operands) :
    (Schedule.wire_prevs op s t).Operands := by
  unfold Schedule.wire_prevs
  cases s.latest_write t with
  | some prev => exact operands_wire_prev_list op _ s hs
  | none => exact hs

theorem operands_add_operation_typed (s s1 : Schedule) (o : TensorOperation) (hs : s.Operands)
    (hadd : s.add_operation_typed o = some s1) : s1.Operands := by
  obtain ⟨op_lhs, op_deps, h1, h2, rfl⟩ := add_operation_typed_eq s s1 o hadd
  have h0 : (s.alloc o).Operands :=
    operands_alloc s o hs (fun _ => ⟨by rw [h1]; rfl, by rw [h2]; rfl⟩)
  exact operands_wire_prevs _ _ op_lhs
    (operands_wire_deps _ op_deps _ (fun p hp => h0 p hp))

theorem operands_record_from (calls : List Assignment) (s s1 : Schedule) (hs : s.Operands)
    (hrec : s.record_from calls = some s1) : s1.Operands := by
  induction calls generalizing s with
  | nil =>
    simp only [Schedule.record_from, Option.some.injEq] at hrec
    subst hrec
    exact hs
  | cons a rest ih =>
    simp only [Schedule.record_from] at hrec
    cases hadd : s.add_operation a with
    | none => simp [hadd] at hrec
    | some s2 =>
      simp only [hadd] at hrec
      exact ih s2 (operands_add_operation_typed s s2 _ hs hadd) hrec

theorem operands_record (partitions : Int) (calls : List Assignment) (s : Schedule)
    (hrec : record partitions calls = some s) : s.Operands :=
  operands_record_from calls _ s (fun _ hp => absurd rfl hp) hrec

theorem operands_reset (s : Schedule) (x : Nat) :
    (s.reset.ops x).operands = (s.ops x).operands := by
  have hfold : ∀ (l : List Nat) (t : Schedule),
      ((l.foldl (fun s p => s.modify p
        (fun o => { o with dependency_left := o.dependency_count })) t).ops x).operands =
        (t.ops x).operands := by
    intro l
    induction l with
    | nil => intro t; rfl
    | cons p rest ih =>
      intro t
      rw [List.foldl_cons, ih]
      exact operands_modify _ _ _ (by intro o; rfl) x
  exact hfold s.steps_original s

theorem operands_release_step (s s1 : Schedule) (q : Nat) (h : s.release_step q = some s1)
    (x : Nat) : (s1.ops x).operands = (s.ops x).operands := by
  unfold Schedule.release_step at h
  simp only at h
  split_ifs at h with h1 h2
  · simp only [Option.some.injEq] at h
    subst h
    exact operands_modify s q
      (fun o => { o with dependency_left := (s.ops q).dependency_left - 1 })
      (by intro o; rfl) x
  · simp only [Option.some.injEq] at h
    subst h
    exact operands_modify _ _ _ (by intro o; rfl) x

theorem operands_release_list (l : List Nat) (s s1 : Schedule)
    (h : s.release_list l = some s1) (x : Nat) :
    (s1.ops x).operands = (s.ops x).operands := by
  induction l generalizing s with
  | nil =>
    simp only [Schedule.release_list, Option.some.injEq] at h
    subst h
    rfl
  | cons q rest ih =>
    simp only [Schedule.release_list] at h
    cases hq : s.release_step q with
    | none => simp [hq] at h
    | some s2 =>
      simp only [hq] at h
      rw [ih s2 h, operands_release_step s s2 q hq]

theorem operands_schedule_op_successors (s s1 : Schedule) (a : Nat)
    (h : s.schedule_op_successors a = some s1) (x : Nat) :
    (s1.ops x).operands = (s.ops x).operands := by
  unfold Schedule.schedule_op_successors at h
  split_ifs at h
  exact operands_release_list _ s s1 h x

theorem operands_release_ops (l : List Nat) (s s1 : Schedule)
    (h : s.release_ops l = some s1) (x : Nat) :
    (s1.ops x).operands = (s.ops x).operands := by
  induction l generalizing s with
  | nil =>
    simp only [Schedule.release_ops, Option.some.injEq] at h
    subst h
    rfl
  | cons q rest ih =>
    simp only [Schedule.release_ops] at h
    cases hq : s.schedule_op_successors q with
    | none => simp [hq] at h
    | some s2 =>
      simp only [hq] at h
      rw [ih s2 h, operands_schedule_op_successors s s2 q hq]

theorem operands_predrain (fuel : Nat) (s : Schedule) (x : Nat) :
    (((s.predrain fuel).1).ops x).operands = (s.ops x).operands := by
  induction fuel generalizing s with
  | zero => rfl
  | succ n ih =>
    unfold Schedule.predrain
    cases hr : s.ready_tasks with
    | nil => rfl
    | cons front rest =>
      simp only
      by_cases hd : (s.ops front).is_dummy = true
      · simp only [hd, if_true]
        cases hs : s.schedule_op_successors front with
        | none => rfl
        | some s1 =>
          simp only
          rw [ih]
          exact operands_schedule_op_successors s s1 front hs x
      · simp [hd]

theorem operands_partition_and_execute (s s1 : Schedule)
    (srt : List (Nat × Int) → List (Nat × Int)) (size : Nat) (wave : Wave)
    (h : s.partition_and_execute srt size = some (s1, wave)) (x : Nat) :
    (s1.ops x).operands = (s.ops x).operands := by
  unfold Schedule.partition_and_execute at h
  cases hc : s.costs s.ready_tasks with
  | none => simp [hc] at h
  | some tasks =>
    simp only [hc] at h
    split at h
    · simp at h
    · rename_i s2 hrel
      simp only [Option.some.injEq, Prod.mk.injEq] at h
      rw [← h.1]
      exact operands_release_ops _ _ s2 hrel x

theorem operands_main_loop (srt : List (Nat × Int) → List (Nat × Int)) (size : Nat)
    (fuel : Nat) (s : Schedule) (x : Nat) :
    (((s.main_loop srt size fuel).1).ops x).operands = (s.ops x).operands := by
  induction fuel generalizing s with
  | zero => rfl
  | succ n ih =>
    unfold Schedule.main_loop
    by_cases he : s.ready_tasks = []
    · simp only [he, if_true]
    · simp only [he, if_false]
      cases hpe : s.partition_and_execute srt size with
      | none => rfl
      | some res =>
        obtain ⟨s1, wave0⟩ := res
        simp only
        rw [ih]
        exact operands_partition_and_execute s s1 srt size wave0 hpe x

/-- The waves of the main loop start from ready queues without dummies: neither
the queue the loop stops at nor a queue handed to the partitioner holds one. -/
theorem main_loop_ready_kind (g : Schedule) (hg : g.WF)
    (srt : List (Nat × Int) → List (Nat × Int)) (hsrt : ∀ l, (srt l).Perm l) (size : Nat)
    (fuel : Nat) (s : Schedule) (done : List Nat) (h : g.Exec s done [] [])
    (hnd : ∀ q, q ∈ s.ready_tasks → (g.ops q).op ≠ TENSOR_OP_NONE) :
    (∀ q, q ∈ (s.main_loop srt size fuel).1.ready_tasks → (g.ops q).op ≠ TENSOR_OP_NONE) ∧
    (∀ wv, wv ∈ (s.main_loop srt size fuel).2.1 →
      ∀ t, t ∈ wv.sorted → (g.ops t.1).op ≠ TENSOR_OP_NONE) := by
  induction fuel generalizing s done with
  | zero =>
    simp only [Schedule.main_loop]
    exact ⟨hnd, fun wv hwv => absurd hwv (List.not_mem_nil _)⟩
  | succ n ih =>
    unfold Schedule.main_loop
    by_cases he : s.ready_tasks = []
    · simp only [he, if_true]
      refine ⟨fun q hq => absurd hq (List.not_mem_nil _),
        fun wv hwv => absurd hwv (List.not_mem_nil _)⟩
    · simp only [he, if_false]
      cases hpe : s.partition_and_execute srt size with
      | none => exact ⟨hnd, fun wv hwv => absurd hwv (List.not_mem_nil _)⟩
      | some res =>
        obtain ⟨s1, wave0⟩ := res
        simp only
        obtain ⟨-, hexec⟩ := partition_and_execute_spec g s s1 hg done srt hsrt size wave0 h hpe
        obtain ⟨-, hfull⟩ := partition_and_execute_full g s hg done srt hsrt size h
        obtain ⟨-, hready, -, -⟩ := hfull s1 wave0 hpe
        have hnd1 : ∀ q, q ∈ s1.ready_tasks → (g.ops q).op ≠ TENSOR_OP_NONE := by
          intro q hq
          rcases hready q hq with h1 | h1
          · exact hnd q h1
          · exact h1
        obtain ⟨i1, i2⟩ := ih s1 (done ++ wave0.comm_ops) hexec hnd1
        refine ⟨i1, ?_⟩
        intro wv hwv t ht
        rcases List.mem_cons.mp hwv with rfl | hwv
        · cases hc : s.costs s.ready_tasks with
          | none =>
            unfold Schedule.partition_and_execute at hpe
            simp [hc] at hpe
          | some tasks =>
            rw [partition_and_execute_eq s srt size tasks hc] at hpe
            cases hadv : s.advance ((srt tasks).map Prod.fst)
                (find_window size (max_colors size s.ready_tasks.length s.partitions)
                  ((srt tasks).map Prod.snd)) with
            | none => simp [hadv] at hpe
            | some s2 =>
              simp only [hadv, Option.map_some', Option.some.injEq, Prod.mk.injEq] at hpe
              have hsorted : wv.sorted = srt tasks := by rw [← hpe.2]
              rw [hsorted] at ht
              have ht2 : t ∈ tasks := (hsrt tasks).mem_iff.mp ht
              have ht3 : t.1 ∈ tasks.map Prod.fst := List.mem_map_of_mem Prod.fst ht2
              rw [costs_fst s _ tasks hc] at ht3
              exact hnd t.1 ht3
        · exact i2 wv hwv t ht

/-- C21: for every schedule built by `add_operation`: the root tasks are
dummies without predecessors and are the ready queue `execute` starts from; the
successors released by `schedule_op_successors` are not dummies and are
appended at the back of the queue; the dummy pre-drain ends (within one
iteration more than there are operations) and never on a failed assertion;
after the pre-drain and any number `f2` of waves, every operation in the ready
queue is not a dummy, has non-null `lhs` and `rhs`, `get_outputs` and
`get_inputs` succeed on it, and `estimate_cost` fails on it only when the
estimate is not positive; and every queue the partitioner sorted in a wave of
`execute` holds only operations that are not dummies and have non-null `lhs`
and `rhs`. -/
theorem ready_queue_has_no_dummy (partitions : Int) (calls : List Assignment)
    (s : Schedule) (hrec : record partitions calls = some s)
    (srt : List (Nat × Int) → List (Nat × Int)) (hsrt : ∀ l, (srt l).Perm l)
    (size : Nat) :
    (∀ d, d ∈ s.root_tasks →
      (s.ops d).op = TENSOR_OP_NONE ∧ (s.ops d).dependency_count = 0 ∧
      ∀ p, d ∉ (s.ops p).successors) ∧
    s.reset.ready_tasks = s.root_tasks ∧
    (∀ p q, q ∈ (s.ops p).successors → (s.ops q).op ≠ TENSOR_OP_NONE) ∧
    (∀ (t t1 : Schedule) (a : Nat), t.schedule_op_successors a = some t1 →
      ∃ pushed, t1.ready_tasks = t.ready_tasks ++ pushed ∧
        ∀ x, x ∈ pushed → x ∈ (t.ops a).successors) ∧
    (∀ f1, (s.reset.predrain f1).2.2 ≠ Status.aborted ∧
      (s.nops < f1 → (s.reset.predrain f1).2.2 = Status.finished)) ∧
    (∀ f1 f2, (s.reset.predrain f1).2.2 = Status.finished →
      ∀ q, q ∈ ((s.reset.predrain f1).1.main_loop srt size f2).1.ready_tasks →
        ((((s.reset.predrain f1).1.main_loop srt size f2).1).ops q).op ≠ TENSOR_OP_NONE ∧
        ((((s.reset.predrain f1).1.main_loop srt size f2).1).ops q).lhs.isSome = true ∧
        ((((s.reset.predrain f1).1.main_loop srt size f2).1).ops q).rhs.isSome = true ∧
        (((((s.reset.predrain f1).1.main_loop srt size f2).1).ops q).get_outputs
          []).isSome = true ∧
        (((((s.reset.predrain f1).1.main_loop srt size f2).1).ops q).get_inputs
          []).isSome = true ∧
        (((((s.reset.predrain f1).1.main_loop srt size f2).1).ops q).estimate_cost = none →
          ∃ r, ((((s.reset.predrain f1).1.main_loop srt size f2).1).ops q).rhs = some r ∧
            r.cost ≤ 0)) ∧
    (∀ fuel wv, wv ∈ (s.execute srt size fuel).waves → ∀ t, t ∈ wv.sorted →
      (s.ops t.1).op ≠ TENSOR_OP_NONE ∧ (s.ops t.1).lhs.isSome = true ∧
      (s.ops t.1).rhs.isSome = true) := by
  have hg := wf_record partitions calls s hrec
  have hop := operands_record partitions calls s hrec
  have hsame : ∀ f1 f2 x,
      ((((s.reset.predrain f1).1.main_loop srt size f2).1).ops x).operands =
        (s.ops x).operands := by
    intro f1 f2 x
    rw [operands_main_loop, operands_predrain, operands_reset]
  have hcall : ∀ x, (s.ops x).op ≠ TENSOR_OP_NONE →
      (s.ops x).lhs.isSome = true ∧ (s.ops x).rhs.isSome = true := by
    intro x hx
    obtain ⟨h1, h2⟩ := hop x hx
    exact ⟨get_outputs_lhs _ _ h1, get_inputs_rhs _ _ h2⟩
  refine ⟨?_, ?_, hg.succ_kind, ?_, ?_, ?_, ?_⟩
  · intro d hd
    obtain ⟨hlt, hk⟩ := (hg.root_iff d).mp hd
    have hns : ∀ p, d ∉ (s.ops p).successors := fun p hp => hg.succ_kind p d hp hk
    refine ⟨hk, ?_, hns⟩
    rw [hg.count_eq d hlt]
    exact in_degree_eq_zero s d (fun p _ => hns p)
  · simp [Schedule.reset]
  · intro t t1 a ha
    exact (schedule_op_successors_frame t t1 a ha).pushed
  · intro f1
    obtain ⟨-, hna, -, -, hfin⟩ := predrain_of_reset s hg f1
    exact ⟨hna, hfin⟩
  · intro f1 f2 hst q hq
    obtain ⟨hE, -, -, hnd, -⟩ := predrain_of_reset s hg f1
    obtain ⟨hk, -⟩ := main_loop_ready_kind s hg srt hsrt size f2 _ _ hE (hnd hst)
    have hkq := hk q hq
    have hs := hsame f1 f2 q
    obtain ⟨hl, hr⟩ := hcall q hkq
    obtain ⟨ho, hi⟩ := hop q hkq
    refine ⟨?_, ?_, ?_, ?_, ?_, ?_⟩
    · rw [operands_op _ _ hs]
      exact hkq
    · rw [operands_lhs _ _ hs]
      exact hl
    · rw [operands_rhs _ _ hs]
      exact hr
    · rw [get_outputs_congr _ _ hs]
      exact ho
    · rw [get_inputs_congr _ _ hs]
      exact hi
    · rw [operands_rhs _ _ hs]
      intro hnone
      unfold TensorOperation.estimate_cost at hnone
      rw [operands_rhs _ _ hs, operands_lhs _ _ hs] at hnone
      cases hrr : (s.ops q).rhs with
      | none => simp [hrr] at hr
      | some r =>
        cases hll : (s.ops q).lhs with
        | none => simp [hll] at hl
        | some l =>
          simp only [hrr, hll] at hnone
          refine ⟨r, rfl, ?_⟩
          by_contra hpos
          simp only [not_le] at hpos
          simp [hpos] at hnone
  · intro fuel wv hwv t ht
    unfold Schedule.execute at hwv
    obtain ⟨hE, -, -, hnd, -⟩ := predrain_of_reset s hg fuel
    cases hst : (s.reset.predrain fuel).2.2 with
    | finished =>
      simp only [hst] at hwv
      obtain ⟨-, hw⟩ := main_loop_ready_kind s hg srt hsrt size fuel _ _ hE (hnd hst)
      have hk := hw wv hwv t ht
      exact ⟨hk, hcall t.1 hk⟩
    | aborted =>
      simp only [hst] at hwv
      exact absurd hwv (List.not_mem_nil _)
    | out_of_fuel =>
      simp only [hst] at hwv
      exact absurd hwv (List.not_mem_nil _)

/-- C21, witness: the record `A = B; C += A`, run with the insertion sort on
four processes. -/
theorem ready_queue_has_no_dummy_witness :
    (record 0 chain_calls = some chain_schedule ∧ (∀ l, (sortDesc l).Perm l)) ∧
    ((∀ d, d ∈ chain_schedule.root_tasks →
      (chain_schedule.ops d).op = TENSOR_OP_NONE ∧ (chain_schedule.ops d).dependency_count = 0 ∧
      ∀ p, d ∉ (chain_schedule.ops p).successors) ∧
    chain_schedule.reset.ready_tasks = chain_schedule.root_tasks ∧
    (∀ p q, q ∈ (chain_schedule.ops p).successors → (chain_schedule.ops q).op ≠ TENSOR_OP_NONE) ∧
    (∀ (t t1 : Schedule) (a : Nat), t.schedule_op_successors a = some t1 →
      ∃ pushed, t1.ready_tasks = t.ready_tasks ++ pushed ∧
        ∀ x, x ∈ pushed → x ∈ (t.ops a).successors) ∧
    (∀ f1, (chain_schedule.reset.predrain f1).2.2 ≠ Status.aborted ∧
      (chain_schedule.nops < f1 → (chain_schedule.reset.predrain f1).2.2 = Status.finished)) ∧
    (∀ f1 f2, (chain_schedule.reset.predrain f1).2.2 = Status.finished →
      ∀ q, q ∈ ((chain_schedule.reset.predrain f1).1.main_loop sortDesc 4 f2).1.ready_tasks →
        ((((chain_schedule.reset.predrain f1).1.main_loop sortDesc 4 f2).1).ops q).op ≠ TENSOR_OP_NONE ∧
        ((((chain_schedule.reset.predrain f1).1.main_loop sortDesc 4 f2).1).ops q).lhs.isSome = true ∧
        ((((chain_schedule.reset.predrain f1).1.main_loop sortDesc 4 f2).1).ops q).rhs.isSome = true ∧
        (((((chain_schedule.reset.predrain f1).1.main_loop sortDesc 4 f2).1).ops q).get_outputs
          []).isSome = true ∧
        (((((chain_schedule.reset.predrain f1).1.main_loop sortDesc 4 f2).1).ops q).get_inputs
          []).isSome = true ∧
        (((((chain_schedule.reset.predrain f1).1.main_loop sortDesc 4 f2).1).ops q).estimate_cost = none →
          ∃ r, ((((chain_schedule.reset.predrain f1).1.main_loop sortDesc 4 f2).1).ops q).rhs = some r ∧
            r.cost ≤ 0)) ∧
    (∀ fuel wv, wv ∈ (chain_schedule.execute sortDesc 4 fuel).waves → ∀ t, t ∈ wv.sorted →
      (chain_schedule.ops t.1).op ≠ TENSOR_OP_NONE ∧ (chain_schedule.ops t.1).lhs.isSome = true ∧
      (chain_schedule.ops t.1).rhs.isSome = true)) :=
  ⟨⟨rfl, sortDesc_perm⟩,
    ready_queue_has_no_dummy 0 chain_calls chain_schedule rfl sortDesc sortDesc_perm 4⟩

end CTF
